import Mathlib

/-!
# Character classes and the Unicode transformation layer of flex

A shallow embedding of `charclass.c` / `charclass.h` (sorted range sets kept as
linked nodes inside a growable array) and of `unicode.c` / `unicode.h` (compiling a
codepoint or a codepoint range into an automaton fragment), with the properties of
the specification stated and settled over it.

Conventions of the embedding

* C `int` values are integers; the only arithmetic on range bounds is `+ 1` and
  `- 1`.  Where the code guards it so that it cannot leave the range of `int` it is
  the arithmetic of the integers; the unguarded `item->end + 1` and `item->start - 1`
  of `charclass_add` wrap modulo 2^32 (`wrap32`), and the general theorems about
  `charclass_add` assume bounds for which they do not overflow (`NoOverflow`).  The bit
  operations are those of `Int` (`Int.land`, `Int.lor`, `Int.xor`, shifts).
* `flexfatal` is the result `Fault.fatal`.  Loops that follow `next` pointers and
  the recursion of `mkutf8rangecont` take a fuel argument; running out of it is the
  result `Fault.fuel`.
* A pointer to a range node is `none` (NULL) or `some (block, index)`: the node
  `index` of the array `block` handed out by `allocate_array`.  An access
  `set->first[i]` is not checked against the size of the array, which the memory
  records (`Heap.size`): the general theorems about the operations that take a new
  node assume that `max_item` is at most the size of the set's array, as it is until
  `next` first grows the storage, and the theorems about sets whose storage has grown
  exhibit the nodes that lie beyond the array.
-/

namespace Flex

/-! ## Results -/

/-- Ways a call does not return: `fatal` is a call of `flexfatal`, `fuel` is the
embedding running out of loop fuel. -/
inductive Fault where
  | fatal
  | fuel
  deriving DecidableEq, Repr

deriving instance DecidableEq for Except

/-! ## unicode.h -/

/-- The `enum encoding` of unicode.h. -/
inductive encoding where
  | ASCII
  | UTF8
  deriving DecidableEq, Repr

def UNICODE_MAX : Int := 0x10ffff
def UTF8_MIN : Int := 0
def UTF8_ENDBYTE1 : Int := 0x7f
def UTF8_ENDBYTE2 : Int := 0x7ff
def UTF8_ENDBYTE3 : Int := 0xffff
def UTF8_ENDBYTE4 : Int := UNICODE_MAX

/-- The function `utf8len` of unicode.h. -/
def utf8len (codepoint : Int) : Int :=
  if codepoint < UTF8_MIN then 0
  else if codepoint ≤ UTF8_ENDBYTE1 then 1
  else if codepoint ≤ UTF8_ENDBYTE2 then 2
  else if codepoint ≤ UTF8_ENDBYTE3 then 3
  else if codepoint ≤ UTF8_ENDBYTE4 then 4
  else 0

/-- The function `codepointlen` of unicode.h.  Its `default:` branch, a `flexfatal`, is
taken only when the mode is neither enumerator (as the `mode` field that
`charclass_copy` leaves uninitialised may be); `encoding` has the two enumerators only,
so the theorems are about sets whose mode is one of them. -/
def codepointlen (codepoint : Int) (mode : encoding) : Int :=
  match mode with
  | .ASCII => 1
  | .UTF8 => utf8len codepoint

def utf8b1c1 (codepoint : Int) : Int := codepoint
def utf8b2c1 (codepoint : Int) : Int := Int.lor 0xc0 (Int.land (codepoint >>> 6) 0x1f)
def utf8b2c2 (codepoint : Int) : Int := Int.lor 0x80 (Int.land codepoint 0x3f)
def utf8b3c1 (codepoint : Int) : Int := Int.lor 0xe0 (Int.land (codepoint >>> 12) 0x0f)
def utf8b3c2 (codepoint : Int) : Int := Int.lor 0x80 (Int.land (codepoint >>> 6) 0x3f)
def utf8b3c3 (codepoint : Int) : Int := Int.lor 0x80 (Int.land codepoint 0x3f)
def utf8b4c1 (codepoint : Int) : Int := Int.lor 0xf0 (Int.land (codepoint >>> 18) 0x0f)
def utf8b4c2 (codepoint : Int) : Int := Int.lor 0x80 (Int.land (codepoint >>> 12) 0x3f)
def utf8b4c3 (codepoint : Int) : Int := Int.lor 0x80 (Int.land (codepoint >>> 6) 0x3f)
def utf8b4c4 (codepoint : Int) : Int := Int.lor 0x80 (Int.land codepoint 0x3f)

/-! ## The automaton layer (flexdef.h, not among the sources) -/

/-- Modelled from the spec: the automaton fragments of the automaton-construction
layer (`mkstate`, `link_machines`, `mkor` of flexdef.h, which is not among the
sources).  `NIL` is the empty fragment, the handle `0`; `sym v` is `make_state(v)`,
a single transition on the byte `v`, or on any byte of the class `-v` when `v` is
negative; `link` is sequential composition and `or` is alternation. -/
inductive Frag where
  | NIL
  | sym (value : Int)
  | link (a b : Frag)
  | or (a b : Frag)
  deriving DecidableEq, Repr

/-- Modelled from the spec: `make_state(value)`, a single-transition fragment. -/
def mkstate (value : Int) : Frag := Frag.sym value

/-- Modelled from the spec: `concat(a, b)`; the empty fragment composes as a no-op. -/
def link_machines (a b : Frag) : Frag :=
  if a = Frag.NIL then b else if b = Frag.NIL then a else Frag.link a b

/-- Modelled from the spec: `alternate(a, b)`; the empty fragment composes as a
no-op. -/
def mkor (a b : Frag) : Frag :=
  if a = Frag.NIL then b else if b = Frag.NIL then a else Frag.or a b

/-- Modelled from the spec: the state of the surrounding generator that this code
touches.  `ccltbl` holds the character classes made by `cclinit`, class `k` (counted
from 1) being entry `k - 1`, each the sequence of values passed to `ccladd` for it;
`asciiccl_ccl` and `contbyteccl_ccl` are the `static int ccl` of `asciiccl` and
`contbyteccl` in unicode.c; `synerrs` counts the diagnostics reported by `synerr`. -/
structure Scanner where
  ccltbl : List (List Int)
  asciiccl_ccl : Int
  contbyteccl_ccl : Int
  synerrs : Nat
  deriving DecidableEq, Repr

/-- The generator state before any class is made. -/
def Scanner.start : Scanner := ⟨[], 0, 0, 0⟩

/-- Modelled from the spec: `make_class()`, a new empty class; its handle is the
number of classes made so far. -/
def cclinit (st : Scanner) : Int × Scanner :=
  ((st.ccltbl.length : Int) + 1, { st with ccltbl := st.ccltbl ++ [[]] })

/-- Appends `v` to entry `n` of the class table. -/
def addAt : List (List Int) → Nat → Int → List (List Int)
  | [], _, _ => []
  | c :: cs, 0, v => (c ++ [v]) :: cs
  | c :: cs, n + 1, v => c :: addAt cs n v

/-- Modelled from the spec: `add_to_class(class, value)`; the class keeps the values
in the order they were added. -/
def ccladd (st : Scanner) (ccl : Int) (v : Int) : Scanner :=
  if 1 ≤ ccl then { st with ccltbl := addAt st.ccltbl (ccl - 1).toNat v } else st

/-- Modelled from the spec: `register_class(class)` (`tryecs` of unicode.h): it
interns the class for equivalence-class compression and changes nothing this
development looks at. -/
def tryecs (st : Scanner) (_ccl : Int) : Scanner := st

/-- Modelled from the spec: `synerr`, a recoverable diagnostic. -/
def synerr (st : Scanner) : Scanner := { st with synerrs := st.synerrs + 1 }

/-- The values of class `ccl`. -/
def Scanner.members (st : Scanner) (ccl : Int) : List Int :=
  if 1 ≤ ccl then st.ccltbl.getD (ccl - 1).toNat [] else []

/-- The integers `lo, lo+1, ..., hi` in ascending order. -/
def intRange (lo hi : Int) : List Int :=
  (List.range (hi + 1 - lo).toNat).map (fun (k : Nat) => lo + (k : Int))

/-- The loop `for (i = lo; i <= hi; i++) ccladd(ccl, i);`. -/
def ccladd_loop (st : Scanner) (ccl : Int) (lo hi : Int) : Scanner :=
  (intRange lo hi).foldl (fun s i => ccladd s ccl i) st

/-- Modelled from the spec: which byte sequences a fragment matches, over the classes
of the generator state `st`.  The empty fragment matches nothing. -/
def Frag.accepts (st : Scanner) : Frag → List Int → Bool
  | Frag.NIL, _ => false
  | Frag.sym v, w =>
      match w with
      | [b] => if 0 ≤ v then decide (b = v) else decide (b ∈ st.members (-v))
      | _ => false
  | Frag.link a b, w =>
      (List.range (w.length + 1)).any
        (fun i => Frag.accepts st a (w.take i) && Frag.accepts st b (w.drop i))
  | Frag.or a b, w => Frag.accepts st a w || Frag.accepts st b w

/-! ## unicode.c -/

/-- The function `asciiccl` of unicode.c. -/
def asciiccl (st : Scanner) : Int × Scanner :=
  if st.asciiccl_ccl = 0 then
    let (ccl, st) := cclinit st
    let st := ccladd_loop st ccl 1 127
    let st := ccladd st ccl 0
    let st := tryecs st ccl
    (ccl, { st with asciiccl_ccl := ccl })
  else (st.asciiccl_ccl, st)

/-- The function `contbyteccl` of unicode.c. -/
def contbyteccl (st : Scanner) : Int × Scanner :=
  if st.contbyteccl_ccl = 0 then
    let (ccl, st) := cclinit st
    let st := ccladd_loop st ccl 128 191
    let st := tryecs st ccl
    (ccl, { st with contbyteccl_ccl := ccl })
  else (st.contbyteccl_ccl, st)

/-- The function `mkutf8codepoint` of unicode.c; `num` is an `unsigned int`. -/
def mkutf8codepoint (st : Scanner) (num : Nat) : Frag × Scanner :=
  if (num : Int) ≤ UTF8_ENDBYTE1 then
    (mkstate num, st)
  else if (num : Int) ≤ UTF8_ENDBYTE2 then
    let state := mkstate (utf8b2c1 num)
    let state := link_machines state (mkstate (utf8b2c2 num))
    (state, st)
  else if (num : Int) ≤ UTF8_ENDBYTE3 then
    let state := mkstate (utf8b3c1 num)
    let state := link_machines state (mkstate (utf8b3c2 num))
    let state := link_machines state (mkstate (utf8b3c3 num))
    (state, st)
  else if (num : Int) ≤ UTF8_ENDBYTE4 then
    let state := mkstate (utf8b4c1 num)
    let state := link_machines state (mkstate (utf8b4c2 num))
    let state := link_machines state (mkstate (utf8b4c3 num))
    let state := link_machines state (mkstate (utf8b4c4 num))
    (state, st)
  else
    (Frag.NIL, synerr st)

/-- Lines 195-200 of `mkutf8rangecont`: the number of bytes left to match;
`none` is the early `return 0`. -/
def mkutf8rangecont_bytes (end_ : Int) (cont : Bool) : Except Fault (Option Nat) :=
  if !cont ∧ end_ > 0xffff then .ok (some 4)
  else if (!cont ∧ end_ > 0x7ff) ∨ (cont ∧ end_ ≥ (1 : Int) <<< (12 : Int)) then .ok (some 3)
  else if (!cont ∧ end_ > 0x7f) ∨ (cont ∧ end_ ≥ (1 : Int) <<< (6 : Int)) then .ok (some 2)
  else if end_ > 0 then .ok (some 1)
  else if end_ = 0 then .ok none
  else .error Fault.fatal

/-- The function `mkutf8rangecont` of unicode.c. -/
def mkutf8rangecont : Nat → Scanner → Int → Int → Bool → Except Fault (Frag × Scanner)
  | 0, _, _, _, _ => .error Fault.fuel
  | fuel + 1, st, start, end_, cont =>
    match mkutf8rangecont_bytes end_ cont with
    | .error e => .error e
    | .ok none => .ok (Frag.NIL, st)
    | .ok (some bytes) =>
      let masklen : Nat := (bytes - 1) * 6
      let top : Int := ((1 : Int) <<< (masklen : Int)) - 1
      let remstart := Int.land start top
      let remend := Int.land end_ top
      let b1start0 := start >>> masklen
      let b1end0 := end_ >>> masklen
      let tag : Int := Int.xor 0xff (((1 : Int) <<< ((8 : Int) - (bytes : Int))) - 1)
      let b1start :=
        if cont then Int.lor b1start0 0x80 else if bytes > 1 then Int.lor b1start0 tag else b1start0
      let b1end :=
        if cont then Int.lor b1end0 0x80 else if bytes > 1 then Int.lor b1end0 tag else b1end0
      if b1start = b1end then
        let state := mkstate b1start
        match mkutf8rangecont fuel st remstart remend true with
        | .error e => .error e
        | .ok (nextstate, st) =>
          .ok (if nextstate ≠ Frag.NIL then link_machines state nextstate else state, st)
      else if bytes = 1 then
        let (ccl, st) :=
          if b1start = 0 ∧ b1end = 127 then asciiccl st
          else if b1start = 128 ∧ b1end = 191 then contbyteccl st
          else
            let (ccl, st) := cclinit st
            let st := ccladd_loop st ccl (max b1start 1) b1end
            let st := if b1start = 0 then ccladd st ccl 0 else st
            (ccl, tryecs st ccl)
        .ok (mkstate (-ccl), st)
      else
        let rangestart := if remstart > 0 then b1start + 1 else b1start
        let rangeend := if remend < top then b1end - 1 else b1end
        -- a partial range on the low byte
        let part1 : Except Fault (Frag × Scanner) :=
          if remstart > 0 ∨ rangestart = rangeend then
            let state := mkstate b1start
            match mkutf8rangecont fuel st remstart top true with
            | .error e => .error e
            | .ok (nextstate, st) =>
              .ok (if nextstate ≠ Frag.NIL then link_machines state nextstate else state, st)
          else .ok (Frag.NIL, st)
        match part1 with
        | .error e => .error e
        | .ok (retstate, st) =>
          -- a whole range on the middle bytes
          let part2 : Except Fault (Frag × Scanner) :=
            if rangestart < rangeend then
              let (ccl, st) :=
                if rangestart = 128 ∧ rangeend = 191 then contbyteccl st
                else
                  let (ccl, st) := cclinit st
                  let st := ccladd_loop st ccl rangestart rangeend
                  (ccl, tryecs st ccl)
              let state := mkstate (-ccl)
              match mkutf8rangecont fuel st 0 top true with
              | .error e => .error e
              | .ok (nextstate, st) =>
                let state := if nextstate ≠ Frag.NIL then link_machines state nextstate else state
                .ok (if retstate ≠ Frag.NIL then mkor retstate state else state, st)
            else .ok (retstate, st)
          match part2 with
          | .error e => .error e
          | .ok (retstate, st) =>
            -- a partial range on the high byte
            if remend < top ∨ remstart ≠ 0 then
              let state := mkstate b1end
              match mkutf8rangecont fuel st 0 remend true with
              | .error e => .error e
              | .ok (nextstate, st) =>
                let state := if nextstate ≠ Frag.NIL then link_machines state nextstate else state
                .ok (if retstate ≠ Frag.NIL then mkor retstate state else state, st)
            else .ok (retstate, st)

/-- The function `mkutf8range` of unicode.c. -/
def mkutf8range (fuel : Nat) (st : Scanner) (start end_ : Int) : Except Fault (Frag × Scanner) :=
  if start > end_ then .error Fault.fatal
  else if start = end_ then
    -- the `int` argument is converted to `unsigned int`
    .ok (mkutf8codepoint st (start % 2 ^ 32).toNat)
  else if end_ > UNICODE_MAX then .ok (Frag.NIL, synerr st)
  else
    let step1 : Except Fault (Frag × Scanner) :=
      if start < UTF8_ENDBYTE1 then
        mkutf8rangecont fuel st start (min end_ UTF8_ENDBYTE1) false
      else .ok (Frag.NIL, st)
    match step1 with
    | .error e => .error e
    | .ok (state, st) =>
      let step2 : Except Fault (Frag × Scanner) :=
        if start < UTF8_ENDBYTE2 ∧ end_ > UTF8_ENDBYTE1 then
          match mkutf8rangecont fuel st (max start (UTF8_ENDBYTE1 + 1)) (min end_ UTF8_ENDBYTE2) false with
          | .error e => .error e
          | .ok (nextstate, st) => .ok (if state ≠ Frag.NIL then mkor state nextstate else nextstate, st)
        else .ok (state, st)
      match step2 with
      | .error e => .error e
      | .ok (state, st) =>
        let step3 : Except Fault (Frag × Scanner) :=
          if start < UTF8_ENDBYTE3 ∧ end_ > UTF8_ENDBYTE2 then
            match mkutf8rangecont fuel st (max start (UTF8_ENDBYTE2 + 1)) (min end_ UTF8_ENDBYTE3) false with
            | .error e => .error e
            | .ok (nextstate, st) => .ok (if state ≠ Frag.NIL then mkor state nextstate else nextstate, st)
          else .ok (state, st)
        match step3 with
        | .error e => .error e
        | .ok (state, st) =>
          if end_ > UTF8_ENDBYTE3 then
            match mkutf8rangecont fuel st (max start (UTF8_ENDBYTE3 + 1)) (min end_ UTF8_ENDBYTE4) false with
            | .error e => .error e
            | .ok (nextstate, st) => .ok (if state ≠ Frag.NIL then mkor state nextstate else nextstate, st)
          else .ok (state, st)

/-- The conversion of an `unsigned int` argument to the `int` parameter of `mkstate`:
the value modulo 2^32, taken as negative from 2^31 on (the result of the usual two's
complement implementations). -/
def int_of_unsigned (n : Nat) : Int :=
  if n % 4294967296 < 2147483648 then ((n % 4294967296 : Nat) : Int)
  else ((n % 4294967296 : Nat) : Int) - 4294967296

/-- The function `mkcodepoint` of unicode.c; `codepoint` is an `unsigned int`, which
the single-byte branch passes to `mkstate(int)`. -/
def mkcodepoint (st : Scanner) (codepoint : Nat) (mode : encoding) : Frag × Scanner :=
  match mode with
  | .ASCII => (mkstate (int_of_unsigned codepoint), st)
  | .UTF8 => mkutf8codepoint st codepoint

/-- The function `mkrange` of unicode.c. -/
def mkrange (fuel : Nat) (st : Scanner) (start end_ : Int) (mode : encoding) :
    Except Fault (Frag × Scanner) :=
  match mode with
  | .ASCII =>
    let (ccl, st) := cclinit st
    let st := ccladd_loop st ccl (max start 1) end_
    let st := if start = 0 then ccladd st ccl 0 else st
    let st := tryecs st ccl
    .ok (mkstate (-ccl), st)
  | .UTF8 => mkutf8range fuel st start end_

/-! ## charclass.h -/

/-- A pointer to a range node: `none` is NULL, `some (block, index)` is the node
`index` of the array `block`. -/
abbrev Ptr := Option (Nat × Nat)

/-- The `struct charclass_range` of charclass.h. -/
structure range where
  next : Ptr
  start : Int
  end_ : Int
  deriving DecidableEq, Repr

/-- The `struct charclass_set` of charclass.h; `first` names the array that
`set->first` points to, so that `&set->first[i]` is `(first, i)`. -/
structure charclass where
  first : Nat
  next_item : Nat
  max_item : Nat
  mode : encoding
  deriving DecidableEq, Repr

/-- The memory holding the range arrays: `cell (block, index)` is the node at that
place, `size block` the number of nodes `allocate_array` reserved for `block`, and
`nblocks` the number of arrays handed out so far. -/
structure Heap where
  cell : Nat × Nat → range
  size : Nat → Nat
  nblocks : Nat

def Heap.get (h : Heap) (p : Nat × Nat) : range := h.cell p

def Heap.set (h : Heap) (p : Nat × Nat) (r : range) : Heap :=
  { h with cell := fun q => if q = p then r else h.cell q }

/-- The assignment `p->next = v`. -/
def Heap.setNext (h : Heap) (p : Nat × Nat) (v : Ptr) : Heap :=
  h.set p { h.get p with next := v }

/-- The assignment `p->start = v`. -/
def Heap.setStart (h : Heap) (p : Nat × Nat) (v : Int) : Heap :=
  h.set p { h.get p with start := v }

/-- The assignment `p->end = v`. -/
def Heap.setEnd (h : Heap) (p : Nat × Nat) (v : Int) : Heap :=
  h.set p { h.get p with end_ := v }

/-- Modelled from the spec: `allocate_array(n, sizeof(range))` of flexdef.h, a fresh
array of `n` nodes whose contents are whatever the memory held. -/
def allocate_array (h : Heap) (n : Nat) : Nat × Heap :=
  (h.nblocks,
    { h with size := fun b => if b = h.nblocks then n else h.size b, nblocks := h.nblocks + 1 })

/-! ## charclass.c -/

def INITIAL_LIST_LENGTH : Nat := 64
def LIST_INC : Nat := 32

/-- The function `charclass_init`; `sf_utf8` is the value of `sf_utf8()`. -/
def charclass_init (h : Heap) (sf_utf8 : Bool) : charclass × Heap :=
  let (first, h) := allocate_array h INITIAL_LIST_LENGTH
  ({ first := first, next_item := 0, max_item := INITIAL_LIST_LENGTH,
     mode := if sf_utf8 then encoding.UTF8 else encoding.ASCII }, h)

/-- The copying loop of `next` (lines 532-539): `nextitem` walks the old chain,
`newitem` the new array `block`. -/
def next_copy : Nat → Heap → Nat → Nat → Ptr → Nat × Nat → Except Fault (Heap × (Nat × Nat))
  | 0, _, _, _, _, _ => .error Fault.fuel
  | fuel + 1, h, block, index, nextitem, newitem =>
    match nextitem with
    | none => .ok (h, newitem)
    | some ni =>
      let h := h.setStart newitem (h.get ni).start
      let h := h.setEnd newitem (h.get ni).end_
      let h := h.setNext newitem (some (block, index + 1))
      next_copy fuel h block (index + 1) (h.get ni).next (block, index + 1)

/-- The function `next` of charclass.c: the next free node of the set. -/
def next (fuel : Nat) (h : Heap) (set : charclass) :
    Except Fault (Heap × charclass × (Nat × Nat)) :=
  let set := { set with next_item := set.next_item + 1 }
  let h := if set.next_item < set.max_item then h.setNext (set.first, set.next_item) none else h
  if set.next_item = 1 then .ok (h, set, (set.first, 0))
  else if set.next_item < set.max_item then .ok (h, set, (set.first, set.next_item))
  else
    let set := { set with max_item := set.max_item + LIST_INC }
    let (block, h) := allocate_array h set.max_item
    match next_copy fuel h block 0 (some (set.first, 0)) (block, 0) with
    | .error e => .error e
    | .ok (h, newitem) => .ok (h.setNext newitem none, set, newitem)

def INT_MAX : Int := 2147483647
def INT_MIN : Int := -2147483648

/-- The `int` that a computation with the mathematical result `x` yields: `x` itself
when it is an `int`, and otherwise `x` reduced modulo 2^32 into the range of `int`
(signed overflow is undefined in C; the wrap-around is what the usual two's complement
implementations compute). -/
def wrap32 (x : Int) : Int := (x + 2147483648) % 4294967296 - 2147483648

/-- The loop of `charclass_add` (lines 125-159); the result carries `lastitem` and
`newitem` as they are when the loop is left.  The test of line 126 computes
`item->end + 1` and `item->start - 1` unguarded, as `int`s (`wrap32`). -/
def charclass_add_loop : Nat → Heap → charclass → Int → Int → Ptr → Ptr → Ptr →
    Except Fault (Heap × charclass × Ptr × Ptr)
  | 0, _, _, _, _, _, _, _ => .error Fault.fuel
  | fuel + 1, h, set, start, end_, item, lastitem, newitem =>
    match item with
    | none => .ok (h, set, lastitem, newitem)
    | some it =>
      if start ≤ wrap32 ((h.get it).end_ + 1) ∧ end_ ≥ wrap32 ((h.get it).start - 1) then
        match newitem with
        | none =>
          let h := h.setStart it (min start (h.get it).start)
          let h := h.setEnd it (max end_ (h.get it).end_)
          charclass_add_loop fuel h set start end_ (h.get it).next (some it) (some it)
        | some ni =>
          -- absorb the next item (and let it dangle)
          let h := h.setEnd ni (max (h.get ni).end_ (h.get it).end_)
          let h := h.setNext ni (h.get it).next
          charclass_add_loop fuel h set start end_ (h.get it).next (some it) (some ni)
      else if end_ < (h.get it).start then
        match lastitem with
        | some li =>
          match next fuel h set with
          | .error e => .error e
          | .ok (h, set, ni) =>
            let h := h.setNext li (some ni)
            let h := h.setNext ni (some it)
            let h := h.setStart ni start
            let h := h.setEnd ni end_
            let h := h.setNext ni (some it)
            .ok (h, set, lastitem, some ni)
        | none =>
          -- item == set->first, so it is not moved
          match next fuel h set with
          | .error e => .error e
          | .ok (h, set, it') =>
            let h := h.setStart it' (h.get it).start
            let h := h.setEnd it' (h.get it).end_
            let h := h.setNext it' (h.get it).next
            let h := h.setStart it start
            let h := h.setEnd it end_
            let h := h.setNext it (some it')
            .ok (h, set, lastitem, some it)
      else
        charclass_add_loop fuel h set start end_ (h.get it).next (some it) newitem

/-- The function `charclass_add`. -/
def charclass_add (fuel : Nat) (h : Heap) (set : charclass) (start end_ : Int) :
    Except Fault (Heap × charclass) :=
  if start > end_ then .error Fault.fatal
  else if set.next_item = 0 then
    let item := (set.first, 0)
    let set := { set with next_item := 1 }
    let h := h.setStart item start
    let h := h.setEnd item end_
    let h := h.setNext item none
    .ok (h, set)
  else
    match charclass_add_loop fuel h set start end_ (some (set.first, 0)) none none with
    | .error e => .error e
    | .ok (h, set, lastitem, newitem) =>
      match newitem with
      | some _ => .ok (h, set)
      | none =>
        -- no item was found: add to the end
        match next fuel h set with
        | .error e => .error e
        | .ok (h, set, ni) =>
          let h := h.setStart ni start
          let h := h.setEnd ni end_
          match lastitem with
          | some li => .ok (h.setNext li (some ni), set)
          | none => .ok (h, set)

/-- The loop of `charclass_remove` (lines 194-249). -/
def charclass_remove_loop : Nat → Heap → charclass → Int → Int → Ptr → Ptr →
    Except Fault (Heap × charclass)
  | 0, _, _, _, _, _, _ => .error Fault.fuel
  | fuel + 1, h, set, start, end_, item, lastitem =>
    match item with
    | none => .ok (h, set)
    | some it =>
      let nextitem := (h.get it).next
      if (h.get it).start > end_ then .ok (h, set)
      else if start > (h.get it).end_ then
        charclass_remove_loop fuel h set start end_ nextitem (some it)
      else if start ≤ (h.get it).start ∧ end_ ≥ (h.get it).end_ then
        match lastitem with
        | some li =>
          let h := h.setNext li nextitem
          charclass_remove_loop fuel h set start end_ nextitem lastitem
        | none =>
          match nextitem with
          | some nx =>
            let h := h.setStart it (h.get nx).start
            let h := h.setEnd it (h.get nx).end_
            let h := h.setNext it (h.get nx).next
            charclass_remove_loop fuel h set start end_ (some it) lastitem
          | none => .ok (h, { set with next_item := 0 })
      else if start > (h.get it).start ∧ end_ ≥ (h.get it).end_ then
        let h := h.setEnd it (start - 1)
        charclass_remove_loop fuel h set start end_ nextitem (some it)
      else if end_ < (h.get it).end_ ∧ start ≤ (h.get it).start then
        .ok (h.setStart it (end_ + 1), set)
      else if start > (h.get it).start ∧ end_ < (h.get it).end_ then
        -- add a new element between this and the next
        match next fuel h set with
        | .error e => .error e
        | .ok (h, set, nw) =>
          let h := h.setNext it (some nw)
          let h := h.setNext nw nextitem
          let h := h.setStart nw (end_ + 1)
          let h := h.setEnd nw (h.get it).end_
          let h := h.setEnd it (start - 1)
          .ok (h, set)
      else
        charclass_remove_loop fuel h set start end_ nextitem (some it)

/-- The function `charclass_remove`. -/
def charclass_remove (fuel : Nat) (h : Heap) (set : charclass) (start end_ : Int) :
    Except Fault (Heap × charclass) :=
  if start > end_ then .error Fault.fatal
  else if set.next_item = 0 then .ok (h, set)
  else charclass_remove_loop fuel h set start end_ (some (set.first, 0)) none

/-- The loop of `charclass_negate` (lines 300-316). -/
def charclass_negate_loop : Nat → Heap → Int → Ptr → Except Fault Heap
  | 0, _, _, _ => .error Fault.fuel
  | fuel + 1, h, max, curitem =>
    match curitem with
    | none => .ok h
    | some cur =>
      let nextitem := (h.get cur).next
      let h := h.setStart cur ((h.get cur).end_ + 1)
      match nextitem with
      | none =>
        let h := h.setEnd cur max
        charclass_negate_loop fuel h max none
      | some nx =>
        let h := h.setEnd cur ((h.get nx).start - 1)
        if (h.get nx).end_ = max then .ok (h.setNext cur none)
        else charclass_negate_loop fuel h max (some nx)

/-- The function `charclass_negate`; `sf_unicode` is the value of `sf_unicode()` and
`csize` the configured domain size. -/
def charclass_negate (fuel : Nat) (h : Heap) (set : charclass) (sf_unicode : Bool)
    (csize : Int) : Except Fault (Heap × charclass) :=
  let min : Int := 1
  let max : Int := if sf_unicode then UNICODE_MAX else csize - 1
  if set.next_item = 0 then
    -- short circuit if this is empty
    match next fuel h set with
    | .error e => .error e
    | .ok (h, set, curitem) =>
      let h := h.setStart curitem min
      let h := h.setEnd curitem max
      .ok (h, set)
  else
    let curitem := (set.first, 0)
    if (h.get curitem).start > 0 then
      let start := (h.get curitem).start
      let end_ := (h.get curitem).end_
      let h := h.setStart curitem 0
      let h := h.setEnd curitem (start - 1)
      if end_ ≠ max then
        match next fuel h set with
        | .error e => .error e
        | .ok (h, set, nextitem) =>
          let h := h.setNext nextitem (h.get curitem).next
          let h := h.setStart nextitem start
          let h := h.setEnd nextitem end_
          let h := h.setNext curitem (some nextitem)
          match charclass_negate_loop fuel h max (some nextitem) with
          | .error e => .error e
          | .ok h => .ok (h, set)
      else .ok (h, set)
    else if (h.get curitem).end_ = max then
      .ok (h, { set with next_item := 0 })
    else
      match charclass_negate_loop fuel h max (some curitem) with
      | .error e => .error e
      | .ok h => .ok (h, set)

/-- The loop of `charclass_contains` (lines 497-503). -/
def charclass_contains_loop : Nat → Heap → Ptr → Int → Except Fault Bool
  | 0, _, _, _ => .error Fault.fuel
  | fuel + 1, h, item, codepoint =>
    match item with
    | none => .ok false
    | some it =>
      if (h.get it).start ≤ codepoint ∧ codepoint ≤ (h.get it).end_ then .ok true
      else if (h.get it).start > codepoint then .ok false
      else charclass_contains_loop fuel h (h.get it).next codepoint

/-- The function `charclass_contains`. -/
def charclass_contains (fuel : Nat) (h : Heap) (set : charclass) (codepoint : Int) :
    Except Fault Bool :=
  if set.next_item = 0 then .error Fault.fatal
  else charclass_contains_loop fuel h (some (set.first, 0)) codepoint

/-- The ranges met by following `next` from `p`, for at most `fuel` nodes. -/
def chain_ranges : Nat → Heap → Ptr → List (Int × Int)
  | 0, _, _ => []
  | _, _, none => []
  | fuel + 1, h, some a => ((h.get a).start, (h.get a).end_) :: chain_ranges fuel h (h.get a).next

/-- The ranges of a set in chain order (none when `next_item` is 0), following at
most `fuel` nodes. -/
def charclass.ranges (fuel : Nat) (h : Heap) (set : charclass) : List (Int × Int) :=
  if set.next_item = 0 then [] else chain_ranges fuel h (some (set.first, 0))

/-- A memory in which every node is zeroed and no array has been handed out. -/
def Heap.blank : Heap := ⟨fun _ => ⟨none, 0, 0⟩, fun _ => 0, 0⟩

/-- Modelled from the spec: `flex_free` applied to the array `block`: the array has
no nodes any more. -/
def flex_free (h : Heap) (block : Nat) : Heap :=
  { h with size := fun b => if b = block then 0 else h.size b }

/-- The function `charclass_free`: the array of the set is released (the set structure
itself is a value here). -/
def charclass_free (h : Heap) (set : charclass) : Heap := flex_free h set.first

/-- The loop of `charclass_set_diff` (lines 348-353); `n` is the fuel of each
`charclass_remove`. -/
def charclass_set_diff_loop (n : Nat) : Nat → Heap → charclass → Ptr →
    Except Fault (Heap × charclass)
  | 0, _, _, _ => .error Fault.fuel
  | fuel + 1, h, set1, item =>
    match item with
    | none => .ok (h, set1)
    | some it =>
      match charclass_remove n h set1 (h.get it).start (h.get it).end_ with
      | .error e => .error e
      | .ok (h, set1) =>
        if set1.next_item = 0 then .ok (h, set1)
        else charclass_set_diff_loop n fuel h set1 (h.get it).next

/-- The function `charclass_set_diff`.  The result is the memory and the returned
set; `none` is the bare `return;` of line 344, which returns no value. -/
def charclass_set_diff (fuel : Nat) (h : Heap) (set1 set2 : charclass) :
    Except Fault (Heap × Option charclass) :=
  if set1.mode ≠ set2.mode then .error Fault.fatal
  else if set1.next_item = 0 then .ok (charclass_free h set2, some set1)
  else if set2.next_item = 0 then .ok (charclass_free h set2, none)
  else
    match charclass_set_diff_loop fuel fuel h set1 (some (set2.first, 0)) with
    | .error e => .error e
    | .ok (h, set1) => .ok (charclass_free h set2, some set1)

/-- The loop of `charclass_set_union` (lines 388-391); `n` is the fuel of each
`charclass_add`. -/
def charclass_set_union_loop (n : Nat) : Nat → Heap → charclass → Ptr →
    Except Fault (Heap × charclass)
  | 0, _, _, _ => .error Fault.fuel
  | fuel + 1, h, set1, item =>
    match item with
    | none => .ok (h, set1)
    | some it =>
      match charclass_add n h set1 (h.get it).start (h.get it).end_ with
      | .error e => .error e
      | .ok (h, set1) => charclass_set_union_loop n fuel h set1 (h.get it).next

/-- The function `charclass_set_union`; the result is the memory and the returned
set. -/
def charclass_set_union (fuel : Nat) (h : Heap) (set1 set2 : charclass) :
    Except Fault (Heap × charclass) :=
  if set1.mode ≠ set2.mode then .error Fault.fatal
  else if set1.next_item = 0 then .ok (charclass_free h set1, set2)
  else if set2.next_item = 0 then .ok (charclass_free h set2, set1)
  else
    match charclass_set_union_loop fuel fuel h set1 (some (set2.first, 0)) with
    | .error e => .error e
    | .ok (h, set1) => .ok (charclass_free h set2, set1)

/-- The loop `while (item->next) item = item->next;` of `charclass_maxlen`. -/
def charclass_maxlen_loop : Nat → Heap → Nat × Nat → Except Fault (Nat × Nat)
  | 0, _, _ => .error Fault.fuel
  | fuel + 1, h, item =>
    match (h.get item).next with
    | none => .ok item
    | some nx => charclass_maxlen_loop fuel h nx

/-- The function `charclass_maxlen`. -/
def charclass_maxlen (fuel : Nat) (h : Heap) (set : charclass) : Except Fault Int :=
  if set.next_item = 0 then .error Fault.fatal
  else
    match charclass_maxlen_loop fuel h (set.first, 0) with
    | .error e => .error e
    | .ok item => .ok (codepointlen (h.get item).end_ set.mode)

/-- The function `charclass_minlen`. -/
def charclass_minlen (h : Heap) (set : charclass) : Except Fault Int :=
  if set.next_item = 0 then .error Fault.fatal
  else .ok (codepointlen (h.get (set.first, 0)).start set.mode)

/-- The loop of `charclass_mkstate` (lines 455-466); `n` is the fuel of each
`mkrange`. -/
def charclass_mkstate_loop (n : Nat) (maxlen : Int) (ccl : Int) (mode : encoding) :
    Nat → Heap → Scanner → Frag → Ptr → Except Fault (Frag × Scanner)
  | 0, _, _, _, _ => .error Fault.fuel
  | fuel + 1, h, st, state, item =>
    match item with
    | none => .ok (state, st)
    | some it =>
      if maxlen = 1 then
        -- add each possible value to the class, but 0 must go at the end
        let st := ccladd_loop st ccl (max 1 (h.get it).start) (h.get it).end_
        charclass_mkstate_loop n maxlen ccl mode fuel h st state (h.get it).next
      else
        match mkrange n st (h.get it).start (h.get it).end_ mode with
        | .error e => .error e
        | .ok (f, st) =>
          charclass_mkstate_loop n maxlen ccl mode fuel h st (mkor state f) (h.get it).next

/-- The function `charclass_mkstate`; the result is the returned state, the generator
state and the memory after `charclass_free`. -/
def charclass_mkstate (fuel : Nat) (h : Heap) (st : Scanner) (set : charclass) :
    Except Fault (Frag × Scanner × Heap) :=
  if set.next_item = 0 then .error Fault.fatal
  else
    match charclass_maxlen fuel h set with
    | .error e => .error e
    | .ok maxlen =>
      let state := Frag.NIL
      let (ccl, st) := if maxlen = 1 then cclinit st else (0, st)
      let needsnull : Bool := decide ((h.get (set.first, 0)).start = 0)
      match charclass_mkstate_loop fuel maxlen ccl set.mode fuel h st state
          (some (set.first, 0)) with
      | .error e => .error e
      | .ok (state, st) =>
        -- now add 0 if needed
        let st := if maxlen = 1 ∧ needsnull then ccladd st ccl 0 else st
        -- convert the class to a state
        let (state, st) := if ccl ≠ 0 then (mkstate (-ccl), tryecs st ccl) else (state, st)
        .ok (state, st, charclass_free h set)

/-- The copying loop of `charclass_copy` (lines 65-74): `olditem` walks the chain of the
set, `next` counts the nodes written to the new array `first`. -/
def charclass_copy_loop : Nat → Heap → Nat → Ptr → Nat → Except Fault Heap
  | 0, _, _, _, _ => .error Fault.fuel
  | fuel + 1, h, first, olditem, next =>
    match olditem with
    | none => .ok h
    | some old =>
      let newitem := (first, next)
      let h := h.setStart newitem (h.get old).start
      let h := h.setEnd newitem (h.get old).end_
      let h := h.setNext newitem (if (h.get old).next.isSome then some (first, next + 1) else none)
      charclass_copy_loop fuel h first (h.get old).next (next + 1)

/-- The function `charclass_copy`.  The structure comes from `flex_alloc`, whose
storage is not initialised (modelled from the spec: flexdef.h is not among the
sources); `junk` is what the `mode` field of that storage holds, since the function
assigns `next_item`, `max_item` and `first` only. -/
def charclass_copy (fuel : Nat) (h : Heap) (set : charclass) (junk : encoding) :
    Except Fault (charclass × Heap) :=
  let (first, h) := allocate_array h set.max_item
  let ret : charclass :=
    { first := first, next_item := set.next_item, max_item := set.max_item, mode := junk }
  let olditem : Ptr := if set.next_item ≠ 0 then some (set.first, 0) else none
  match charclass_copy_loop fuel h ret.first olditem 0 with
  | .error e => .error e
  | .ok h => .ok (ret, h)

/-- The calls of `mkutf8rangecont` made by `mkutf8range` (lines 147-175) once
`start < end <= UNICODE_MAX` has passed the early returns: the pairs
`(rangestart, rangeend)`, in call order. -/
def mkutf8range_calls (start end_ : Int) : List (Int × Int) :=
  (if start < UTF8_ENDBYTE1 then [(start, min end_ UTF8_ENDBYTE1)] else []) ++
  (if start < UTF8_ENDBYTE2 ∧ end_ > UTF8_ENDBYTE1 then
    [(max start (UTF8_ENDBYTE1 + 1), min end_ UTF8_ENDBYTE2)] else []) ++
  (if start < UTF8_ENDBYTE3 ∧ end_ > UTF8_ENDBYTE2 then
    [(max start (UTF8_ENDBYTE2 + 1), min end_ UTF8_ENDBYTE3)] else []) ++
  (if end_ > UTF8_ENDBYTE3 then
    [(max start (UTF8_ENDBYTE3 + 1), min end_ UTF8_ENDBYTE4)] else [])

/-- The recursive calls made by one invocation of `mkutf8rangecont` (lines 214-290), in
call order: for each call the range `(lo, hi)` of first-byte values of the state or
class that the result of the call is linked after, and the arguments `(start, end)` of
the call (every recursive call has `cont` true). -/
def mkutf8rangecont_calls (start end_ : Int) (cont : Bool) :
    List ((Int × Int) × (Int × Int)) :=
  match mkutf8rangecont_bytes end_ cont with
  | .error _ => []
  | .ok none => []
  | .ok (some bytes) =>
    let masklen : Nat := (bytes - 1) * 6
    let top : Int := ((1 : Int) <<< (masklen : Int)) - 1
    let remstart := Int.land start top
    let remend := Int.land end_ top
    let b1start0 := start >>> masklen
    let b1end0 := end_ >>> masklen
    let tag : Int := Int.xor 0xff (((1 : Int) <<< ((8 : Int) - (bytes : Int))) - 1)
    let b1start :=
      if cont then Int.lor b1start0 0x80 else if bytes > 1 then Int.lor b1start0 tag else b1start0
    let b1end :=
      if cont then Int.lor b1end0 0x80 else if bytes > 1 then Int.lor b1end0 tag else b1end0
    if b1start = b1end then [((b1start, b1start), (remstart, remend))]
    else if bytes = 1 then []
    else
      let rangestart := if remstart > 0 then b1start + 1 else b1start
      let rangeend := if remend < top then b1end - 1 else b1end
      (if remstart > 0 ∨ rangestart = rangeend then [((b1start, b1start), (remstart, top))]
        else []) ++
      (if rangestart < rangeend then [((rangestart, rangeend), (0, top))] else []) ++
      (if remend < top ∨ remstart ≠ 0 then [((b1end, b1end), (0, remend))] else [])

/-! ## Reference definitions -/

/-- The standard UTF-8 encoding of a codepoint up to 0x10FFFF, in the spec's words:
1 byte for 0x00-0x7F, 2 for 0x80-0x7FF, 3 for 0x800-0xFFFF, 4 above; the lead byte
carries the high bits under the prefix 0xxxxxxx / 110xxxxx / 1110xxxx / 11110xxx and
each continuation byte carries the next 6 bits under the prefix 10xxxxxx. -/
def utf8_standard (cp : Nat) : List Int :=
  if cp ≤ 0x7F then [(cp : Int)]
  else if cp ≤ 0x7FF then [((0xC0 + cp / 64 : Nat) : Int), ((0x80 + cp % 64 : Nat) : Int)]
  else if cp ≤ 0xFFFF then
    [((0xE0 + cp / 4096 : Nat) : Int), ((0x80 + cp / 64 % 64 : Nat) : Int),
      ((0x80 + cp % 64 : Nat) : Int)]
  else
    [((0xF0 + cp / 262144 : Nat) : Int), ((0x80 + cp / 4096 % 64 : Nat) : Int),
      ((0x80 + cp / 64 % 64 : Nat) : Int), ((0x80 + cp % 64 : Nat) : Int)]

/-- The concatenation, left to right, of one single-byte match state per byte. -/
def byteStates (bs : List Int) : Frag :=
  (bs.map mkstate).foldl link_machines Frag.NIL


/-! ## The chain of a set as a list -/

/-- A node of a chain: its address and the range it holds. -/
abbrev Node := (Nat × Nat) × (Int × Int)

/-- `Seg h p q ns`: following `next` from `p` in memory `h` passes exactly the nodes
`ns`, in order, each holding its range, and arrives at `q`. -/
def Seg (h : Heap) : Ptr → Ptr → List Node → Prop
  | p, q, [] => p = q
  | p, q, n :: ns =>
      p = some n.1 ∧ (h.get n.1).start = n.2.1 ∧ (h.get n.1).end_ = n.2.2 ∧
        Seg h (h.get n.1).next q ns

/-- `Stored h set l`: the set is empty (`next_item` is 0) and `l` is empty, or the
chain from `set->first` to NULL holds exactly the ranges `l`, in nodes of the set's
own array that are pairwise distinct and lie at indices up to `next_item`. -/
def Stored (h : Heap) (set : charclass) (l : List (Int × Int)) : Prop :=
  (set.next_item = 0 ∧ l = []) ∨
  (1 ≤ set.next_item ∧ ∃ ns : List Node, ns.map Prod.snd = l ∧
    Seg h (some (set.first, 0)) none ns ∧ (ns.map Prod.fst).Nodup ∧
    ∀ a ∈ ns.map Prod.fst, a.1 = set.first ∧ a.2 ≤ set.next_item)

/-- The RangeSet invariant: every range has `start <= end`, and each range ends more
than one below the start of every later range (so the ranges are strictly ascending,
pairwise disjoint and non-adjacent). -/
def WellFormed (l : List (Int × Int)) : Prop :=
  (∀ r ∈ l, r.1 ≤ r.2) ∧ l.Pairwise (fun r s => r.2 + 1 < s.1)

/-- The bounds of every range of `l` are `int`s, and so are `start - 1` and `end + 1`:
no computation of `charclass_add` on such a chain overflows. -/
def NoOverflow (l : List (Int × Int)) : Prop :=
  ∀ r ∈ l, INT_MIN < r.1 ∧ r.1 ≤ INT_MAX ∧ INT_MIN ≤ r.2 ∧ r.2 < INT_MAX

/-- `x` is covered by a range of `l`. -/
def Covers (l : List (Int × Int)) (x : Int) : Prop := ∃ r ∈ l, r.1 ≤ x ∧ x ≤ r.2

/-- What the loop of `charclass_contains` computes on a chain holding `l`. -/
def containsL (x : Int) : List (Int × Int) → Bool
  | [] => false
  | r :: rs => if r.1 ≤ x ∧ x ≤ r.2 then true else if r.1 > x then false else containsL x rs

/-- What the loop of `charclass_add` does to the rest of the chain once `newitem` is
set: `m` is the range held by `newitem`, `K` the ranges passed over since the last
one was absorbed, and `d` tells that `lastitem` is an absorbed (dangling) node. -/
def addL_merge (start end_ : Int) :
    (Int × Int) → List (Int × Int) → Bool → List (Int × Int) → List (Int × Int)
  | m, K, _, [] => m :: K
  | m, K, d, r :: rs =>
    if start ≤ r.2 + 1 ∧ end_ ≥ r.1 - 1 then
      addL_merge start end_ (m.1, max m.2 r.2) [] true rs
    else if end_ < r.1 then
      if K = [] ∧ d = true then m :: r :: rs else m :: (K ++ (start, end_) :: r :: rs)
    else addL_merge start end_ m (K ++ [r]) d rs

/-- What `charclass_add` does to the chain of a non-empty set, as a list of ranges. -/
def addL (start end_ : Int) : List (Int × Int) → List (Int × Int)
  | [] => [(start, end_)]
  | r :: rs =>
    if start ≤ r.2 + 1 ∧ end_ ≥ r.1 - 1 then
      addL_merge start end_ (min start r.1, max end_ r.2) [] false rs
    else if end_ < r.1 then (start, end_) :: r :: rs
    else r :: addL start end_ rs

/-- What the loop of `charclass_remove` does to a chain, as a list of ranges. -/
def removeL (start end_ : Int) : List (Int × Int) → List (Int × Int)
  | [] => []
  | r :: rs =>
    if r.1 > end_ then r :: rs
    else if start > r.2 then r :: removeL start end_ rs
    else if start ≤ r.1 ∧ end_ ≥ r.2 then removeL start end_ rs
    else if start > r.1 ∧ end_ ≥ r.2 then (r.1, start - 1) :: removeL start end_ rs
    else if end_ < r.2 ∧ start ≤ r.1 then (end_ + 1, r.2) :: rs
    else (r.1, start - 1) :: (end_ + 1, r.2) :: rs

/-- The memory and set reached from `charclass_init` (single-byte mode) by adding the
ranges `rs` in order with `charclass_add`. -/
def buildSet (rs : List (Int × Int)) : Heap × charclass :=
  rs.foldl
    (fun p r =>
      match charclass_add (p.2.next_item + 2) p.1 p.2 r.1 r.2 with
      | .ok q => q
      | .error _ => p)
    ((charclass_init Heap.blank false).2, (charclass_init Heap.blank false).1)

/-- What the loop of `charclass_negate` does to the chain from `curitem` on, as a list
of ranges: each range is replaced by the gap that follows it. -/
def negLoopL (max : Int) : List (Int × Int) → List (Int × Int)
  | [] => []
  | [c] => [(c.2 + 1, max)]
  | c :: nx :: rs =>
    if nx.2 = max then [(c.2 + 1, nx.1 - 1)]
    else (c.2 + 1, nx.1 - 1) :: negLoopL max (nx :: rs)

/-- What `charclass_negate` does to the chain of a non-empty set, as a list of ranges
(the empty list is the set left empty, `next_item` 0). -/
def negateL (max : Int) : List (Int × Int) → List (Int × Int)
  | [] => []
  | f :: rs =>
    if f.1 > 0 then
      if f.2 ≠ max then (0, f.1 - 1) :: negLoopL max (f :: rs) else (0, f.1 - 1) :: rs
    else if f.2 = max then []
    else negLoopL max (f :: rs)

/-- The memory and set reached from `charclass_init` in the given mode (`sf_utf8`) by
adding the ranges `rs` in order with `charclass_add`, the set's array being the first
one handed out after `h`. -/
def buildSetFrom (h : Heap) (sf_utf8 : Bool) (rs : List (Int × Int)) : Heap × charclass :=
  rs.foldl
    (fun p r =>
      match charclass_add (p.2.next_item + 2) p.1 p.2 r.1 r.2 with
      | .ok q => q
      | .error _ => p)
    ((charclass_init h sf_utf8).2, (charclass_init h sf_utf8).1)

/-- One call of an operation sequence: `charclass_add(set, start, end)` or
`charclass_remove(set, start, end)`. -/
inductive SetOp where
  | add (start end_ : Int)
  | remove (start end_ : Int)
  deriving DecidableEq, Repr

/-- Runs the calls `ops` in order on a set, each with fuel `fuel`. -/
def runOps (fuel : Nat) : Heap × charclass → List SetOp → Except Fault (Heap × charclass)
  | p, [] => .ok p
  | p, SetOp.add s e :: ops =>
    match charclass_add fuel p.1 p.2 s e with
    | .error e => .error e
    | .ok q => runOps fuel q ops
  | p, SetOp.remove s e :: ops =>
    match charclass_remove fuel p.1 p.2 s e with
    | .error e => .error e
    | .ok q => runOps fuel q ops

/-- The reference subset of the specification, as its membership test: it starts
empty, an `add start end` inserts every value of `[start, end]` and a
`remove start end` deletes every value of `[start, end]`. -/
def reference (ops : List SetOp) : Int → Bool :=
  ops.foldl
    (fun R op x =>
      match op with
      | SetOp.add s e => R x || decide (s ≤ x ∧ x ≤ e)
      | SetOp.remove s e => R x && !decide (s ≤ x ∧ x ≤ e))
    (fun _ => false)

/-- The invariant that `charclass_add` keeps on every chain, well-formed or not: every
range has `start <= end` and the starts never decrease along the chain. -/
def Ascending (l : List (Int × Int)) : Prop :=
  (∀ r ∈ l, r.1 ≤ r.2) ∧ l.Pairwise (fun r s => r.1 ≤ s.1)

/-- Two sets in one memory, built one after the other from `charclass_init` in the given
mode: the memory, the set holding `rs1` and the set holding `rs2`. -/
def buildTwo (sf_utf8 : Bool) (rs1 rs2 : List (Int × Int)) : Heap × charclass × charclass :=
  ((buildSetFrom (buildSetFrom Heap.blank sf_utf8 rs1).1 sf_utf8 rs2).1,
    (buildSetFrom Heap.blank sf_utf8 rs1).2,
    (buildSetFrom (buildSetFrom Heap.blank sf_utf8 rs1).1 sf_utf8 rs2).2)

/-- What `mkutf8range` does with the results of its calls of `mkutf8rangecont`: the
calls `cs` are made in order, and each result is alternated with the state so far
(`state = state ? mkor(state, nextstate) : nextstate`). -/
def mkutf8range_or (fuel : Nat) :
    List (Int × Int) → Frag × Scanner → Except Fault (Frag × Scanner)
  | [], p => .ok p
  | c :: cs, (state, st) =>
    match mkutf8rangecont fuel st c.1 c.2 false with
    | .error e => .error e
    | .ok (nextstate, st) =>
      mkutf8range_or fuel cs (if state ≠ Frag.NIL then mkor state nextstate else nextstate, st)

/-- The addresses of the nodes met by following `next` from `p`, for at most `fuel`
nodes. -/
def chain_addrs : Nat → Heap → Ptr → List (Nat × Nat)
  | 0, _, _ => []
  | _, _, none => []
  | fuel + 1, h, some a => a :: chain_addrs fuel h (h.get a).next

/-- The `n` pairwise non-adjacent one-value ranges `[0,0], [3,3], [6,6], ...`. -/
def spacedRanges (n : Nat) : List (Int × Int) :=
  (List.range n).map (fun (k : Nat) => (((3 * k : Nat) : Int), ((3 * k : Nat) : Int)))

/-- The single-byte set reached from `charclass_init` by adding the 63 ranges
`spacedRanges 63` one by one: its 64-node array is full. -/
def fullSet : Heap × charclass := buildSetFrom Heap.blank false (spacedRanges 63)

/-- The calls `charclass_add(set, 5, 9)` followed by 63 times
`charclass_add(set, 20, 20); charclass_remove(set, 20, 20)`: every cycle takes a new
node with `next` and unlinks it again, `next_item` being counted up only. -/
def cycleOps : List SetOp :=
  SetOp.add 5 9 :: (List.replicate 63 [SetOp.add 20 20, SetOp.remove 20 20]).flatten

/-- The single-byte set reached from `charclass_init` by the calls `cycleOps`: it holds
the one range `[5, 9]`, and its storage has grown once (in the 63rd cycle). -/
def grownSet : Heap × charclass :=
  match runOps 4 (buildSet []) cycleOps with
  | .ok p => p
  | .error _ => buildSet []

/-- The `n` pairwise non-adjacent ranges `[0,5], [10,15], [20,25], ...`. -/
def wideRanges (n : Nat) : List (Int × Int) :=
  (List.range n).map (fun (k : Nat) => (((10 * k : Nat) : Int), ((10 * k + 5 : Nat) : Int)))

/-- `Chained h set l`: the set is non-empty (`next_item` is not 0) and the `next` links
from `set->first` reach NULL, passing nodes that hold exactly the ranges `l`, in order,
each node lying inside an array that has been handed out and not released.  The nodes
need not lie in the set's own array (after `next` has grown the storage they do
not). -/
def Chained (h : Heap) (set : charclass) (l : List (Int × Int)) : Prop :=
  set.next_item ≠ 0 ∧ ∃ ns : List Node, ns.map Prod.snd = l ∧
    Seg h (some (set.first, 0)) none ns ∧ ∀ n ∈ ns, n.1.2 < h.size n.1.1

/-- The ranges on which `mkutf8range` stops with `flexfatal`: those with
`start > end` (line 133) and those with `start < end < 0` (the negative end reaches
`mkutf8rangecont`, line 200). -/
def FatalRange (r : Int × Int) : Prop := r.1 > r.2 ∨ (r.1 < r.2 ∧ r.2 < 0)

/-- A memory that is not zeroed: the `next` field of node 0 of the first array to be
handed out holds the address of that node. -/
def selfLoopHeap : Heap := Heap.blank.setNext (0, 0) (some (0, 0))

/-- The set made by `charclass_init` in the memory `selfLoopHeap` and negated once, with
the domain `[0, 255]`. -/
def loopSet : Heap × charclass :=
  match charclass_negate 2 (charclass_init selfLoopHeap false).2
      (charclass_init selfLoopHeap false).1 false 256 with
  | .ok p => p
  | .error _ => ((charclass_init selfLoopHeap false).2, (charclass_init selfLoopHeap false).1)

/-! ## Facts about classes and acceptance -/

theorem mem_intRange (lo hi b : Int) : b ∈ intRange lo hi ↔ lo ≤ b ∧ b ≤ hi := by
  unfold intRange
  simp only [List.mem_map, List.mem_range]
  constructor
  · rintro ⟨k, hk, rfl⟩
    omega
  · rintro ⟨h1, h2⟩
    exact ⟨(b - lo).toNat, by omega, by omega⟩

theorem addAt_length_append (tbl : List (List Int)) (c : List Int) (v : Int) :
    addAt (tbl ++ [c]) tbl.length v = tbl ++ [c ++ [v]] := by
  induction tbl with
  | nil => rfl
  | cons t ts ih => simp [addAt, ih]

theorem foldl_ccladd_fresh (l : List Int) (st : Scanner) (tbl : List (List Int)) (c : List Int)
    (h : st.ccltbl = tbl ++ [c]) :
    (l.foldl (fun s i => ccladd s ((tbl.length : Int) + 1) i) st) =
      { st with ccltbl := tbl ++ [c ++ l] } := by
  induction l generalizing st c with
  | nil => cases st; simp_all
  | cons x xs ih =>
    simp only [List.foldl_cons]
    have h1 : ccladd st ((tbl.length : Int) + 1) x = { st with ccltbl := tbl ++ [c ++ [x]] } := by
      unfold ccladd
      have : (1 : Int) ≤ (tbl.length : Int) + 1 := by omega
      simp only [this, if_true, h]
      have e : ((tbl.length : Int) + 1 - 1).toNat = tbl.length := by omega
      rw [e, addAt_length_append]
    rw [h1, ih _ (c ++ [x]) rfl]
    simp

theorem accepts_sym (st : Scanner) (v : Int) (w : List Int) :
    Frag.accepts st (Frag.sym v) w = true ↔
      ∃ b, w = [b] ∧ (if 0 ≤ v then b = v else b ∈ st.members (-v)) := by
  match w with
  | [] => simp [Frag.accepts]
  | [b] => by_cases hv : 0 ≤ v <;> simp [Frag.accepts, hv]
  | _ :: _ :: _ => simp [Frag.accepts]

theorem accepts_link (st : Scanner) (a b : Frag) (w : List Int) :
    Frag.accepts st (Frag.link a b) w = true ↔
      ∃ u v, w = u ++ v ∧ Frag.accepts st a u = true ∧ Frag.accepts st b v = true := by
  simp only [Frag.accepts, List.any_eq_true, List.mem_range, Bool.and_eq_true]
  constructor
  · rintro ⟨i, _, h1, h2⟩
    exact ⟨w.take i, w.drop i, (List.take_append_drop i w).symm, h1, h2⟩
  · rintro ⟨u, v, rfl, h1, h2⟩
    refine ⟨u.length, by simp; omega, ?_, ?_⟩
    · simpa using h1
    · simpa using h2

theorem accepts_or (st : Scanner) (a b : Frag) (w : List Int) :
    Frag.accepts st (Frag.or a b) w = true ↔
      (Frag.accepts st a w = true ∨ Frag.accepts st b w = true) := by
  simp [Frag.accepts]

theorem tag80 : ∀ y : Nat, y < 64 → 0x80 ||| y = 0x80 + y := by decide
theorem tagC0 : ∀ y : Nat, y < 32 → 0xC0 ||| y = 0xC0 + y := by decide
theorem tagE0 : ∀ y : Nat, y < 16 → 0xE0 ||| y = 0xE0 + y := by decide
theorem tagF0 : ∀ y : Nat, y < 16 → 0xF0 ||| y = 0xF0 + y := by decide

theorem land63 (n : Nat) : n &&& 0x3f = n % 64 := Nat.and_pow_two_sub_one_eq_mod n 6
theorem land31 (n : Nat) : n &&& 0x1f = n % 32 := Nat.and_pow_two_sub_one_eq_mod n 5
theorem land15 (n : Nat) : n &&& 0x0f = n % 16 := Nat.and_pow_two_sub_one_eq_mod n 4

theorem utf8b2c1_eq (n : Nat) (h : n ≤ 0x7FF) : utf8b2c1 n = ((0xC0 + n / 64 : Nat) : Int) := by
  have e : utf8b2c1 n = ((0xC0 ||| ((n >>> 6) &&& 0x1f) : Nat) : Int) := rfl
  rw [e, land31, Nat.shiftRight_eq_div_pow, tagC0 _ (Nat.mod_lt _ (by norm_num))]
  congr 2
  omega

theorem utf8_low_eq (n : Nat) : Int.lor 0x80 (Int.land (n : Int) 0x3f) = ((0x80 + n % 64 : Nat) : Int) := by
  have e : Int.lor 0x80 (Int.land (n : Int) 0x3f) = ((0x80 ||| (n &&& 0x3f) : Nat) : Int) := rfl
  rw [e, land63, tag80 _ (Nat.mod_lt _ (by norm_num))]

theorem utf8_mid6_eq (n : Nat) :
    Int.lor 0x80 (Int.land ((n : Int) >>> 6) 0x3f) = ((0x80 + n / 64 % 64 : Nat) : Int) := by
  have e : Int.lor 0x80 (Int.land ((n : Int) >>> 6) 0x3f) =
      ((0x80 ||| ((n >>> 6) &&& 0x3f) : Nat) : Int) := rfl
  rw [e, land63, Nat.shiftRight_eq_div_pow, tag80 _ (Nat.mod_lt _ (by norm_num))]

theorem utf8_mid12_eq (n : Nat) :
    Int.lor 0x80 (Int.land ((n : Int) >>> 12) 0x3f) = ((0x80 + n / 4096 % 64 : Nat) : Int) := by
  have e : Int.lor 0x80 (Int.land ((n : Int) >>> 12) 0x3f) =
      ((0x80 ||| ((n >>> 12) &&& 0x3f) : Nat) : Int) := rfl
  rw [e, land63, Nat.shiftRight_eq_div_pow, tag80 _ (Nat.mod_lt _ (by norm_num))]

theorem utf8b3c1_eq (n : Nat) (h : n ≤ 0xFFFF) : utf8b3c1 n = ((0xE0 + n / 4096 : Nat) : Int) := by
  have e : utf8b3c1 n = ((0xE0 ||| ((n >>> 12) &&& 0x0f) : Nat) : Int) := rfl
  rw [e, land15, Nat.shiftRight_eq_div_pow, tagE0 _ (Nat.mod_lt _ (by norm_num))]
  congr 2
  omega

theorem utf8b4c1_eq (n : Nat) (h : n ≤ 0x10FFFF) : utf8b4c1 n = ((0xF0 + n / 262144 : Nat) : Int) := by
  have e : utf8b4c1 n = ((0xF0 ||| ((n >>> 18) &&& 0x0f) : Nat) : Int) := rfl
  rw [e, land15, Nat.shiftRight_eq_div_pow, tagF0 _ (Nat.mod_lt _ (by norm_num))]
  congr 2
  omega

theorem mkutf8codepoint_standard (st : Scanner) (cp : Nat) (h : cp ≤ 0x10FFFF) :
    mkutf8codepoint st cp = (byteStates (utf8_standard cp), st) := by
  unfold mkutf8codepoint utf8_standard UTF8_ENDBYTE1 UTF8_ENDBYTE2 UTF8_ENDBYTE3 UTF8_ENDBYTE4
    UNICODE_MAX
  by_cases h1 : cp ≤ 0x7F
  · have h1i : (cp : Int) ≤ 0x7f := by omega
    simp [h1, h1i, byteStates, link_machines, mkstate]
  · have h1i : ¬ (cp : Int) ≤ 0x7f := by omega
    by_cases h2 : cp ≤ 0x7FF
    · have h2i : (cp : Int) ≤ 0x7ff := by omega
      simp only [h1, h1i, h2, h2i, if_true, if_false]
      rw [utf8b2c1_eq cp h2]
      unfold utf8b2c2
      rw [utf8_low_eq]
      simp [byteStates, link_machines, mkstate]
    · have h2i : ¬ (cp : Int) ≤ 0x7ff := by omega
      by_cases h3 : cp ≤ 0xFFFF
      · have h3i : (cp : Int) ≤ 0xffff := by omega
        simp only [h1, h1i, h2, h2i, h3, h3i, if_true, if_false]
        rw [utf8b3c1_eq cp h3]
        unfold utf8b3c2 utf8b3c3
        rw [utf8_low_eq, utf8_mid6_eq]
        simp [byteStates, link_machines, mkstate]
      · have h3i : ¬ (cp : Int) ≤ 0xffff := by omega
        have h4i : (cp : Int) ≤ 0x10ffff := by omega
        simp only [h1, h1i, h2, h2i, h3, h3i, h4i, if_true, if_false]
        rw [utf8b4c1_eq cp h]
        unfold utf8b4c2 utf8b4c3 utf8b4c4
        rw [utf8_low_eq, utf8_mid6_eq, utf8_mid12_eq]
        simp [byteStates, link_machines, mkstate]

theorem rangecont_0_63 (fuel : Nat) (st : Scanner) :
    mkutf8rangecont (fuel + 1) st 0 63 true =
      .ok (Frag.sym (-(contbyteccl st).1), (contbyteccl st).2) := by
  have hb : mkutf8rangecont_bytes 63 true = .ok (some 1) := by decide
  rw [mkutf8rangecont]
  simp only [hb]
  have e1 : Int.lor ((0 : Int) >>> ((1 - 1) * 6 : Nat)) 0x80 = 128 := by decide
  have e2 : Int.lor ((63 : Int) >>> ((1 - 1) * 6 : Nat)) 0x80 = 191 := by decide
  simp only [e1, e2, if_true]
  simp [mkstate]

theorem rangecont_0x80_0x7ff (fuel : Nat) (st : Scanner) :
    mkutf8rangecont (fuel + 2) st 0x80 0x7ff false =
      .ok (Frag.link (Frag.sym (-(cclinit st).1))
            (Frag.sym (-(contbyteccl (ccladd_loop (cclinit st).2 (cclinit st).1 0xC2 0xDF)).1)),
          (contbyteccl (ccladd_loop (cclinit st).2 (cclinit st).1 0xC2 0xDF)).2) := by
  have hb : mkutf8rangecont_bytes 0x7ff false = .ok (some 2) := by decide
  rw [mkutf8rangecont]
  simp only [hb]
  have e0 : ((1 : Int) <<< (((2 - 1) * 6 : Nat) : Int)) - 1 = 63 := by decide
  have e1 : Int.land 0x80 63 = 0 := by decide
  have e2 : Int.land 0x7ff 63 = 63 := by decide
  have e3 : Int.lor ((0x80 : Int) >>> ((2 - 1) * 6 : Nat))
      (Int.xor 0xff (((1 : Int) <<< ((8 : Int) - ((2 : Nat) : Int))) - 1)) = 0xC2 := by decide
  have e4 : Int.lor ((0x7ff : Int) >>> ((2 - 1) * 6 : Nat))
      (Int.xor 0xff (((1 : Int) <<< ((8 : Int) - ((2 : Nat) : Int))) - 1)) = 0xDF := by decide
  simp only [e0, e1, e2, e3, e4]
  simp [rangecont_0_63, mkstate, link_machines, tryecs]

theorem mkrange_0x80_0x7ff_eq (fuel : Nat) (st : Scanner) :
    mkrange (fuel + 2) st 0x80 0x7ff .UTF8 =
      .ok (Frag.link (Frag.sym (-(cclinit st).1))
            (Frag.sym (-(contbyteccl (ccladd_loop (cclinit st).2 (cclinit st).1 0xC2 0xDF)).1)),
          (contbyteccl (ccladd_loop (cclinit st).2 (cclinit st).1 0xC2 0xDF)).2) := by
  unfold mkrange mkutf8range UTF8_ENDBYTE1 UTF8_ENDBYTE2 UTF8_ENDBYTE3 UTF8_ENDBYTE4 UNICODE_MAX
  simp [rangecont_0x80_0x7ff]

theorem ccladd_loop_cclinit (st : Scanner) (lo hi : Int) :
    ccladd_loop (cclinit st).2 (cclinit st).1 lo hi =
      { st with ccltbl := st.ccltbl ++ [intRange lo hi] } := by
  unfold ccladd_loop cclinit
  rw [foldl_ccladd_fresh (intRange lo hi) _ st.ccltbl [] rfl]
  simp

theorem members_append_new (st : Scanner) (c : List Int) :
    Scanner.members { st with ccltbl := st.ccltbl ++ [c] } ((st.ccltbl.length : Int) + 1) = c := by
  unfold Scanner.members
  have h1 : (1 : Int) ≤ (st.ccltbl.length : Int) + 1 := by omega
  have e : ((st.ccltbl.length : Int) + 1 - 1).toNat = st.ccltbl.length := by omega
  simp [h1, e, List.getD_eq_getElem?_getD]

theorem members_append_old (st : Scanner) (c : List Int) (k : Int)
    (hk : st.members k ≠ []) :
    Scanner.members { st with ccltbl := st.ccltbl ++ [c] } k = st.members k := by
  unfold Scanner.members at *
  by_cases h1 : 1 ≤ k
  · simp only [h1, if_true] at *
    have hlt : (k - 1).toNat < st.ccltbl.length := by
      by_contra hge
      apply hk
      simp only [List.getD_eq_getElem?_getD]
      rw [List.getElem?_eq_none (by omega)]
      rfl
    rw [List.getD_eq_getElem?_getD, List.getD_eq_getElem?_getD, List.getElem?_append_left hlt]
  · simp [h1]

theorem intRange_ne_nil (lo hi : Int) (h : lo ≤ hi) : intRange lo hi ≠ [] := by
  intro e
  have := (mem_intRange lo hi lo).2 ⟨le_refl _, h⟩
  rw [e] at this
  exact absurd this (List.not_mem_nil _)

/-- C3: the fragment returned by mkrange(0x80, 0x7FF, UTF8) accepts a byte sequence if
and only if it has exactly two bytes b1 b2 with 0xC2 <= b1 <= 0xDF and
0x80 <= b2 <= 0xBF.  The call is made in any generator state whose cached
continuation-byte class, if already made, holds the bytes 128..191. -/
theorem mkrange_0x80_0x7FF_accepts (fuel : Nat) (st : Scanner)
    (hc : st.contbyteccl_ccl ≠ 0 → st.members st.contbyteccl_ccl = intRange 128 191) :
    ∃ f st', mkrange (fuel + 2) st 0x80 0x7FF encoding.UTF8 = Except.ok (f, st') ∧
      ∀ w : List Int, Frag.accepts st' f w = true ↔
        ∃ b1 b2, w = [b1, b2] ∧ 0xC2 ≤ b1 ∧ b1 ≤ 0xDF ∧ 0x80 ≤ b2 ∧ b2 ≤ 0xBF := by
  refine ⟨_, _, mkrange_0x80_0x7ff_eq fuel st, ?_⟩
  rw [ccladd_loop_cclinit]
  have hlen : (cclinit st).1 = (st.ccltbl.length : Int) + 1 := rfl
  have hpos : ¬ (0 : Int) ≤ -((st.ccltbl.length : Int) + 1) := by omega
  -- the members of the two classes in the final state
  have key : ∀ b1 b2 : Int,
      (b1 ∈ Scanner.members (contbyteccl { st with ccltbl := st.ccltbl ++ [intRange 0xC2 0xDF] }).2
          ((st.ccltbl.length : Int) + 1) ↔ 0xC2 ≤ b1 ∧ b1 ≤ 0xDF) ∧
      ((if 0 ≤ -(contbyteccl { st with ccltbl := st.ccltbl ++ [intRange 0xC2 0xDF] }).1 then
          b2 = -(contbyteccl { st with ccltbl := st.ccltbl ++ [intRange 0xC2 0xDF] }).1
        else b2 ∈ Scanner.members
          (contbyteccl { st with ccltbl := st.ccltbl ++ [intRange 0xC2 0xDF] }).2
          (- -(contbyteccl { st with ccltbl := st.ccltbl ++ [intRange 0xC2 0xDF] }).1)) ↔
        0x80 ≤ b2 ∧ b2 ≤ 0xBF) := by
    intro b1 b2
    by_cases h0 : st.contbyteccl_ccl = 0
    · have e : contbyteccl { st with ccltbl := st.ccltbl ++ [intRange 0xC2 0xDF] } =
          (((st.ccltbl.length : Int) + 1 + 1),
            { st with ccltbl := st.ccltbl ++ [intRange 0xC2 0xDF] ++ [intRange 128 191],
                      contbyteccl_ccl := (st.ccltbl.length : Int) + 1 + 1 }) := by
        unfold contbyteccl
        simp only [h0, if_true]
        have := ccladd_loop_cclinit { st with ccltbl := st.ccltbl ++ [intRange 0xC2 0xDF] } 128 191
        simp only [cclinit, List.length_append, List.length_singleton, Nat.cast_add,
          Nat.cast_one, h0] at this ⊢
        rw [this]
        simp [tryecs]
      rw [e]
      constructor
      · have := members_append_old
          { st with ccltbl := st.ccltbl ++ [intRange 0xC2 0xDF],
                    contbyteccl_ccl := (st.ccltbl.length : Int) + 1 + 1 }
          (intRange 128 191) ((st.ccltbl.length : Int) + 1)
          (by rw [members_append_new { st with contbyteccl_ccl := (st.ccltbl.length : Int) + 1 + 1 }]
              exact intRange_ne_nil _ _ (by norm_num))
        simp only at this
        rw [this, members_append_new { st with contbyteccl_ccl := (st.ccltbl.length : Int) + 1 + 1 },
          mem_intRange]
      · have hneg : ¬ (0 : Int) ≤ -((st.ccltbl.length : Int) + 1 + 1) := by omega
        simp only [hneg, if_false, neg_neg]
        have := members_append_new
          { st with ccltbl := st.ccltbl ++ [intRange 0xC2 0xDF],
                    contbyteccl_ccl := (st.ccltbl.length : Int) + 1 + 1 } (intRange 128 191)
        simp only [List.length_append, List.length_singleton, Nat.cast_add, Nat.cast_one] at this
        rw [this, mem_intRange]
    · have e : contbyteccl { st with ccltbl := st.ccltbl ++ [intRange 0xC2 0xDF] } =
          (st.contbyteccl_ccl, { st with ccltbl := st.ccltbl ++ [intRange 0xC2 0xDF] }) := by
        unfold contbyteccl
        simp [h0]
      rw [e]
      have hm := hc h0
      have hne : st.members st.contbyteccl_ccl ≠ [] := by
        rw [hm]; exact intRange_ne_nil _ _ (by norm_num)
      constructor
      · rw [members_append_new, mem_intRange]
      · have h1 : 1 ≤ st.contbyteccl_ccl := by
          by_contra hlt
          apply hne
          unfold Scanner.members
          simp [hlt]
        have hneg : ¬ (0 : Int) ≤ -st.contbyteccl_ccl := by omega
        simp only [hneg, if_false, neg_neg]
        rw [members_append_old st _ _ hne, hm, mem_intRange]
  intro w
  rw [accepts_link]
  constructor
  · rintro ⟨u, v, rfl, hu, hv⟩
    rw [accepts_sym] at hu hv
    obtain ⟨b1, rfl, hb1⟩ := hu
    obtain ⟨b2, rfl, hb2⟩ := hv
    rw [hlen] at hb1
    simp only [hpos, if_false, neg_neg] at hb1
    refine ⟨b1, b2, rfl, ?_⟩
    have k1 := (key b1 b2).1.1 hb1
    have k2 := (key b1 b2).2.1 hb2
    exact ⟨k1.1, k1.2, k2.1, k2.2⟩
  · rintro ⟨b1, b2, rfl, h1, h2, h3, h4⟩
    refine ⟨[b1], [b2], rfl, ?_, ?_⟩
    · rw [accepts_sym]
      refine ⟨b1, rfl, ?_⟩
      rw [hlen]
      simp only [hpos, if_false, neg_neg]
      exact (key b1 b2).1.2 ⟨h1, h2⟩
    · rw [accepts_sym]
      exact ⟨b2, rfl, (key b1 b2).2.2 ⟨h3, h4⟩⟩

theorem mkrange_0x80_0x7FF_accepts_witness :
    ((contbyteccl Scanner.start).2.contbyteccl_ccl ≠ 0 →
      (contbyteccl Scanner.start).2.members (contbyteccl Scanner.start).2.contbyteccl_ccl =
        intRange 128 191) ∧
    (contbyteccl Scanner.start).2.contbyteccl_ccl ≠ 0 ∧
    ∃ f st', mkrange (0 + 2) (contbyteccl Scanner.start).2 0x80 0x7FF encoding.UTF8 =
        Except.ok (f, st') ∧
      ∀ w : List Int, Frag.accepts st' f w = true ↔
        ∃ b1 b2, w = [b1, b2] ∧ 0xC2 ≤ b1 ∧ b1 ≤ 0xDF ∧ 0x80 ≤ b2 ∧ b2 ≤ 0xBF :=
  ⟨fun _ => by decide, by decide,
    mkrange_0x80_0x7FF_accepts 0 (contbyteccl Scanner.start).2 (fun _ => by decide)⟩

/-- C4: for every codepoint `cp` up to 0x10FFFF, `mkcodepoint(cp, UTF8)` is the
concatenation, in order, of one single-byte match state per byte of the standard UTF-8
encoding of `cp`, and it leaves the generator state alone; for 0x1F600 the bytes are
F0 9F 98 80. -/
theorem mkcodepoint_utf8_standard (st : Scanner) (cp : Nat) (h : cp ≤ 0x10FFFF) :
    mkcodepoint st cp encoding.UTF8 = (byteStates (utf8_standard cp), st) ∧
    (mkcodepoint st 0x1F600 encoding.UTF8).1 = byteStates [0xF0, 0x9F, 0x98, 0x80] :=
  ⟨mkutf8codepoint_standard st cp h, rfl⟩

theorem mkcodepoint_utf8_standard_witness :
    0x1F600 ≤ 0x10FFFF ∧
    utf8_standard 0x1F600 = [0xF0, 0x9F, 0x98, 0x80] ∧
    mkcodepoint Scanner.start 0x1F600 encoding.UTF8 =
      (byteStates (utf8_standard 0x1F600), Scanner.start) ∧
    (mkcodepoint Scanner.start 0x1F600 encoding.UTF8).1 = byteStates [0xF0, 0x9F, 0x98, 0x80] :=
  ⟨by decide, by decide, mkcodepoint_utf8_standard Scanner.start 0x1F600 (by decide)⟩

/-- C1 (defect): UTF-8 range compilation is not complete.  The fragment of
`mkrange(0, 0x80, UTF8)` does not accept `C2 80`, the encoding of 0x80 (the recursion
on the remainder `[0, 0]` returns the empty fragment, so the continuation byte is
lost), and the fragment of `mkrange(0x7F, 0x80, UTF8)` does not accept `7F` (the
one-byte part is compiled only when `start < 0x7F`). -/
theorem mkrange_utf8_misses_codepoints :
    (∃ f st', mkrange 8 Scanner.start 0 0x80 encoding.UTF8 = Except.ok (f, st') ∧
        Frag.accepts st' f (utf8_standard 0x80) = false) ∧
    (∃ f st', mkrange 8 Scanner.start 0x7F 0x80 encoding.UTF8 = Except.ok (f, st') ∧
        Frag.accepts st' f (utf8_standard 0x7F) = false) := by
  refine ⟨⟨_, _, rfl, ?_⟩, ⟨_, _, rfl, ?_⟩⟩
  · decide
  · decide

set_option maxRecDepth 8000 in
/-- C2 (defect): UTF-8 range compilation is not sound.  The fragment of
`mkrange(0, 0x80, UTF8)` accepts the single byte `C2`, a lead byte without its
continuation byte, which is the standard encoding of no codepoint. -/
theorem mkrange_utf8_accepts_truncated :
    ∃ f st', mkrange 8 Scanner.start 0 0x80 encoding.UTF8 = Except.ok (f, st') ∧
      Frag.accepts st' f [0xC2] = true ∧ ∀ cp : Nat, utf8_standard cp ≠ [0xC2] := by
  refine ⟨_, _, rfl, ?_, ?_⟩
  · decide
  intro cp
  unfold utf8_standard
  split_ifs <;> simp; omega

/-! ## Memory and chains -/

theorem get_set (h : Heap) (p q : Nat × Nat) (r : range) :
    (h.set p r).get q = if q = p then r else h.get q := rfl

theorem get_setNext (h : Heap) (p q : Nat × Nat) (v : Ptr) :
    (h.setNext p v).get q = if q = p then { h.get p with next := v } else h.get q := rfl

theorem get_setStart (h : Heap) (p q : Nat × Nat) (v : Int) :
    (h.setStart p v).get q = if q = p then { h.get p with start := v } else h.get q := rfl

theorem get_setEnd (h : Heap) (p q : Nat × Nat) (v : Int) :
    (h.setEnd p v).get q = if q = p then { h.get p with end_ := v } else h.get q := rfl

theorem Seg_congr {h h' : Heap} {ns : List Node} {p q : Ptr}
    (hfr : ∀ n ∈ ns, h'.get n.1 = h.get n.1) (hs : Seg h p q ns) : Seg h' p q ns := by
  induction ns generalizing p with
  | nil => exact hs
  | cons n ns ih =>
    obtain ⟨h1, h2, h3, h4⟩ := hs
    have e := hfr n (List.mem_cons_self _ _)
    refine ⟨h1, by rw [e]; exact h2, by rw [e]; exact h3, ?_⟩
    rw [e]
    exact ih (fun k hk => hfr k (List.mem_cons_of_mem _ hk)) h4

theorem Seg_append {h : Heap} {a b : List Node} {p q : Ptr} :
    Seg h p q (a ++ b) ↔ ∃ m, Seg h p m a ∧ Seg h m q b := by
  induction a generalizing p with
  | nil =>
    constructor
    · intro hs; exact ⟨p, rfl, hs⟩
    · rintro ⟨m, h1, h2⟩
      have : p = m := h1
      subst this; exact h2
  | cons n a ih =>
    simp only [List.cons_append, Seg]
    constructor
    · rintro ⟨h1, h2, h3, h4⟩
      obtain ⟨m, h5, h6⟩ := ih.1 h4
      exact ⟨m, ⟨h1, h2, h3, h5⟩, h6⟩
    · rintro ⟨m, ⟨h1, h2, h3, h5⟩, h6⟩
      exact ⟨h1, h2, h3, ih.2 ⟨m, h5, h6⟩⟩

theorem contains_loop_sim (x : Int) (h : Heap) (ns : List Node) (p : Ptr) (fuel : Nat)
    (hs : Seg h p none ns) (hf : ns.length < fuel) :
    charclass_contains_loop fuel h p x = .ok (containsL x (ns.map Prod.snd)) := by
  induction ns generalizing p fuel with
  | nil =>
    have : p = none := hs
    subst this
    cases fuel with
    | zero => omega
    | succ f => rfl
  | cons n ns ih =>
    obtain ⟨h1, h2, h3, h4⟩ := hs
    subst h1
    cases fuel with
    | zero => simp at hf
    | succ f =>
      simp only [charclass_contains_loop, List.map_cons, containsL, h2, h3]
      split_ifs with c1 c2
      · rfl
      · rfl
      · exact ih _ f h4 (by simpa using hf)

theorem next_nogrow (fuel : Nat) (h : Heap) (set : charclass) (h1 : 1 ≤ set.next_item)
    (h2 : set.next_item + 1 < set.max_item) :
    next fuel h set = .ok (h.setNext (set.first, set.next_item + 1) none,
      { set with next_item := set.next_item + 1 }, (set.first, set.next_item + 1)) := by
  unfold next
  have h3 : ¬ set.next_item + 1 = 1 := by omega
  simp [h2, h3]

theorem Seg_insert {h h' : Heap} {p i : Ptr} {P S : List Node} {x f : Nat × Nat}
    {d r : Int × Int}
    (hP : Seg h p (some x) P) (hS : Seg h i none S)
    (hx : x ∉ P.map Prod.fst) (hxs : x ∉ S.map Prod.fst)
    (hf1 : f ∉ P.map Prod.fst) (hf3 : f ∉ S.map Prod.fst)
    (g1 : h'.get f = ⟨i, r.1, r.2⟩)
    (g2 : h'.get x = ⟨some f, d.1, d.2⟩)
    (g3 : ∀ a, a ≠ f → a ≠ x → h'.get a = h.get a) :
    Seg h' p none (P ++ (x, d) :: (f, r) :: S) := by
  refine Seg_append.2 ⟨some x, Seg_congr ?_ hP, rfl, ?_, ?_, ?_⟩
  · intro n hn
    apply g3
    · rintro e; exact hf1 (e ▸ List.mem_map_of_mem _ hn)
    · rintro e; exact hx (e ▸ List.mem_map_of_mem _ hn)
  · rw [g2]
  · rw [g2]
  · rw [g2]
    refine ⟨rfl, by rw [g1], by rw [g1], ?_⟩
    rw [g1]
    refine Seg_congr ?_ hS
    intro n hn
    apply g3
    · rintro e; exact hf3 (e ▸ List.mem_map_of_mem _ hn)
    · rintro e; exact hxs (e ▸ List.mem_map_of_mem _ hn)

theorem nd_mid {α : Type} {X Y : List α} {a : α} (h : (X ++ a :: Y).Nodup) :
    a ∉ X ∧ a ∉ Y := by
  have h' := List.nodup_middle.1 h
  rw [List.nodup_cons] at h'
  simpa [not_or] using h'.1

theorem mem_fst {ns : List Node} {k : Node} (hk : k ∈ ns) : k.1 ∈ ns.map Prod.fst :=
  List.mem_map_of_mem _ hk

theorem ins_heap_facts (h : Heap) (fresh la : Nat × Nat) (item : Ptr) (start end_ : Int)
    (hne : la ≠ fresh) :
    ((((((h.setNext fresh none).setNext la (some fresh)).setNext fresh item).setStart
        fresh start).setEnd fresh end_).setNext fresh item).get fresh = ⟨item, start, end_⟩ ∧
    ((((((h.setNext fresh none).setNext la (some fresh)).setNext fresh item).setStart
        fresh start).setEnd fresh end_).setNext fresh item).get la =
      { h.get la with next := some fresh } ∧
    ∀ a, a ≠ fresh → a ≠ la →
      ((((((h.setNext fresh none).setNext la (some fresh)).setNext fresh item).setStart
        fresh start).setEnd fresh end_).setNext fresh item).get a = h.get a := by
  refine ⟨?_, ?_, ?_⟩
  · simp [get_setNext, get_setStart, get_setEnd]
  · simp [get_setNext, get_setStart, get_setEnd, hne]
  · intro a h1 h2
    simp [get_setNext, get_setStart, get_setEnd, h1, h2]

/-- Address bookkeeping for a node inserted at the free index `k + 1`. -/
theorem addr_insert {b k : Nat} {P S : List (Nat × Nat)} {x : Nat × Nat}
    (hnd : (P ++ x :: S).Nodup) (hib : ∀ a ∈ P ++ x :: S, a.1 = b ∧ a.2 ≤ k) :
    (b, k + 1) ∉ P ∧ (b, k + 1) ≠ x ∧ (b, k + 1) ∉ S ∧ x ∉ P ∧ x ∉ S ∧
    (P ++ x :: (b, k + 1) :: S).Nodup ∧
    ∀ a ∈ P ++ x :: (b, k + 1) :: S, a.1 = b ∧ a.2 ≤ k + 1 := by
  have hfr : ∀ a ∈ P ++ x :: S, a ≠ (b, k + 1) := by
    intro a ha e
    have := (hib a ha).2
    rw [e] at this
    simp at this
  have hx := nd_mid hnd
  have f1 : (b, k + 1) ∉ P := fun hm => hfr _ (by simp [hm]) rfl
  have f2 : (b, k + 1) ≠ x := fun e => hfr x (by simp) e.symm
  have f3 : (b, k + 1) ∉ S := fun hm => hfr _ (by simp [hm]) rfl
  refine ⟨f1, f2, f3, hx.1, hx.2, ?_, ?_⟩
  · have e : P ++ x :: (b, k + 1) :: S = (P ++ [x]) ++ (b, k + 1) :: S := by simp
    rw [e, List.nodup_middle, List.nodup_cons]
    refine ⟨?_, by simpa using hnd⟩
    simp only [List.mem_append, List.mem_cons, List.mem_singleton, List.not_mem_nil, or_false,
      not_or]
    exact ⟨⟨f1, f2⟩, f3⟩
  · intro a ha
    simp only [List.mem_append, List.mem_cons] at ha
    rcases ha with ha | ha | ha | ha
    · have := hib a (by simp [ha]); exact ⟨this.1, by omega⟩
    · have := hib a (by simp [ha]); exact ⟨this.1, by omega⟩
    · subst ha; exact ⟨rfl, le_refl _⟩
    · have := hib a (by simp [ha]); exact ⟨this.1, by omega⟩
theorem wrap32_id (x : Int) (h1 : INT_MIN ≤ x) (h2 : x ≤ INT_MAX) : wrap32 x = x := by
  unfold wrap32
  unfold INT_MIN at h1
  unfold INT_MAX at h2
  omega

theorem wrap32_succ (e : Int) (h1 : INT_MIN ≤ e) (h2 : e < INT_MAX) :
    wrap32 (e + 1) = e + 1 := by
  apply wrap32_id
  · unfold INT_MIN at *; omega
  · unfold INT_MAX at *; omega

theorem wrap32_pred (s : Int) (h1 : INT_MIN < s) (h2 : s ≤ INT_MAX) :
    wrap32 (s - 1) = s - 1 := by
  apply wrap32_id
  · unfold INT_MIN at *; omega
  · unfold INT_MAX at *; omega

theorem noOverflow_tail {r : Int × Int} {l : List (Int × Int)} (h : NoOverflow (r :: l)) :
    NoOverflow l := fun x hx => h x (List.mem_cons_of_mem _ hx)


theorem add_loop_merge (start end_ : Int) (set : charclass) (root : Ptr)
    (hn1 : 1 ≤ set.next_item) (hn2 : set.next_item + 1 < set.max_item) :
    ∀ (suf : List Node) (fuel : Nat) (h : Heap) (A K : List Node) (m : Nat × Nat)
      (M : Int × Int) (item : Ptr) (la : Nat × Nat) (d : Bool),
      suf.length < fuel →
      Seg h root (some m) A →
      (h.get m).start = M.1 → (h.get m).end_ = M.2 →
      Seg h (h.get m).next item K →
      Seg h item none suf →
      NoOverflow (suf.map Prod.snd) →
      ((A ++ (m, M) :: K ++ suf).map Prod.fst).Nodup →
      (∀ a ∈ (A ++ (m, M) :: K ++ suf).map Prod.fst, a.1 = set.first ∧ a.2 ≤ set.next_item) →
      ((∃ P0 x, A ++ (m, M) :: K = P0 ++ [x] ∧ la = x.1 ∧ (K = [] → d = false)) ∨
        (K = [] ∧ d = true ∧ la ∉ (A ++ (m, M) :: suf).map Prod.fst ∧
          la.1 = set.first ∧ la.2 ≤ set.next_item)) →
      ∃ h' k' li ni ns,
        charclass_add_loop fuel h set start end_ item (some la) (some m) =
          .ok (h', { set with next_item := k' }, li, some ni) ∧
        set.next_item ≤ k' ∧ k' ≤ set.next_item + 1 ∧
        ns.map Prod.snd =
          A.map Prod.snd ++ addL_merge start end_ M (K.map Prod.snd) d (suf.map Prod.snd) ∧
        Seg h' root none ns ∧ (ns.map Prod.fst).Nodup ∧
        (∀ a ∈ ns.map Prod.fst, a.1 = set.first ∧ a.2 ≤ k') ∧
        ∀ a : Nat × Nat, a.1 ≠ set.first → h'.get a = h.get a := by
  intro suf
  induction suf with
  | nil =>
    intro fuel h A K m M item la d hf hA hM1 hM2 hK hS hno hnd hib hla
    have hi : item = none := hS
    subst hi
    cases fuel with
    | zero => simp at hf
    | succ f =>
      refine ⟨h, set.next_item, some la, m, A ++ (m, M) :: K, ?_, le_refl _, by omega, ?_, ?_, ?_, ?_,
        fun _ _ => rfl⟩
      · simp [charclass_add_loop]
      · simp [addL_merge]
      · exact Seg_append.2 ⟨some m, hA, rfl, hM1, hM2, hK⟩
      · simpa using hnd
      · simpa using hib
  | cons n rest ih =>
    intro fuel h A K m M item la d hf hA hM1 hM2 hK hS hno hnd hib hla
    obtain ⟨hi, hn_s, hn_e, hrest⟩ := hS
    subst hi
    have hbn := hno n.2 (by simp)
    have hno' : NoOverflow (rest.map Prod.snd) := noOverflow_tail hno
    have w1 : wrap32 (n.2.2 + 1) = n.2.2 + 1 := wrap32_succ _ hbn.2.2.1 hbn.2.2.2
    have w2 : wrap32 (n.2.1 - 1) = n.2.1 - 1 := wrap32_pred _ hbn.1 hbn.2.1
    cases fuel with
    | zero => simp at hf
    | succ f =>
      have hf' : rest.length < f := by simpa using hf
      simp only [List.map_append, List.map_cons, List.append_assoc, List.cons_append] at hnd hib
      have hn_nd := nd_mid (X := A.map Prod.fst ++ m :: K.map Prod.fst) (by simpa using hnd)
      have hm_nd := nd_mid (X := A.map Prod.fst) (a := m) hnd
      simp only [List.mem_append, List.mem_cons, not_or] at hn_nd hm_nd
      obtain ⟨⟨hnA, hnm, hnK⟩, hnR⟩ := hn_nd
      obtain ⟨hmA, hmK, _, hmR⟩ := hm_nd
      by_cases hov : start ≤ n.2.2 + 1 ∧ end_ ≥ n.2.1 - 1
      · -- absorb
        rw [charclass_add_loop]
        simp only [hn_s, hn_e, w1, w2, hov, and_self, if_true]
        have hmerge : addL_merge start end_ M (K.map Prod.snd) d ((n :: rest).map Prod.snd) =
            addL_merge start end_ (M.1, max (h.get m).end_ n.2.2)
              (([] : List Node).map Prod.snd) true (rest.map Prod.snd) := by
          simp [addL_merge, hov, hM2]
        rw [hmerge]
        have hmb : m.1 = set.first := (hib m (by simp)).1
        have wrap : ∀ (hh : Heap) (it : Ptr) (l0 : List (Int × Int)),
            (∀ a : Nat × Nat, a.1 ≠ set.first → hh.get a = h.get a) →
            (∃ h' k' li ni ns,
              charclass_add_loop f hh set start end_ it (some n.1) (some m) =
                .ok (h', { set with next_item := k' }, li, some ni) ∧
              set.next_item ≤ k' ∧ k' ≤ set.next_item + 1 ∧ ns.map Prod.snd = l0 ∧
              Seg h' root none ns ∧ (ns.map Prod.fst).Nodup ∧
              (∀ a ∈ ns.map Prod.fst, a.1 = set.first ∧ a.2 ≤ k') ∧
              ∀ a : Nat × Nat, a.1 ≠ set.first → h'.get a = hh.get a) →
            ∃ h' k' li ni ns,
              charclass_add_loop f hh set start end_ it (some n.1) (some m) =
                .ok (h', { set with next_item := k' }, li, some ni) ∧
              set.next_item ≤ k' ∧ k' ≤ set.next_item + 1 ∧ ns.map Prod.snd = l0 ∧
              Seg h' root none ns ∧ (ns.map Prod.fst).Nodup ∧
              (∀ a ∈ ns.map Prod.fst, a.1 = set.first ∧ a.2 ≤ k') ∧
              ∀ a : Nat × Nat, a.1 ≠ set.first → h'.get a = h.get a := by
          rintro hh it l0 hfr ⟨h', k', li, ni, ns, q1, q2, q3, q4, q5, q6, q7, q8⟩
          exact ⟨h', k', li, ni, ns, q1, q2, q3, q4, q5, q6, q7,
            fun a ha => (q8 a ha).trans (hfr a ha)⟩
        apply wrap _ _ _ (fun a ha => by
          have : a ≠ m := fun e => ha (e ▸ hmb)
          simp [get_setNext, get_setEnd, this])
        apply ih f _ A [] m (M.1, max (h.get m).end_ n.2.2) _ n.1 true hf'
        · refine Seg_congr ?_ hA
          intro k hk
          have : k.1 ≠ m := fun e => hmA (e ▸ mem_fst hk)
          simp [get_setNext, get_setEnd, this]
        · simp [get_setNext, get_setEnd, hM1]
        · simp [get_setNext, get_setEnd]
        · simp [Seg, get_setNext, get_setEnd, hnm]
        · simp only [get_setNext, get_setEnd, hnm, if_false]
          refine Seg_congr ?_ hrest
          intro k hk
          have : k.1 ≠ m := fun e => hmR (e ▸ mem_fst hk)
          simp [get_setNext, get_setEnd, this]
        · exact hno'
        · simp only [List.map_append, List.map_cons, List.map_nil, List.nil_append]
          exact hnd.sublist (by simp)
        · intro k hk
          apply hib
          simp only [List.map_append, List.map_cons, List.map_nil, List.mem_append, List.mem_cons,
            List.nil_append, List.append_nil] at hk ⊢
          tauto
        · refine Or.inr ⟨rfl, rfl, ?_, ?_⟩
          · simp only [List.map_append, List.map_cons, List.mem_append, List.mem_cons, not_or]
            exact ⟨hnA, hnm, hnR⟩
          · exact hib n.1 (by simp)
      · by_cases hlt : end_ < n.2.1
        · -- insert after lastitem
          rw [charclass_add_loop]
          simp only [hn_s, hn_e, w1, w2, hov, if_false, hlt, if_true, next_nogrow f h set hn1 hn2]
          have hP : Seg h root (some n.1) (A ++ (m, M) :: K) :=
            Seg_append.2 ⟨some m, hA, rfl, hM1, hM2, hK⟩
          have hS : Seg h (some n.1) none (n :: rest) := ⟨rfl, hn_s, hn_e, hrest⟩
          rcases hla with ⟨P0, x, hPx, hlax, hKd⟩ | ⟨hK0, hd, hla, hlab⟩
          · -- lastitem is the node before item
            have hmerge : addL_merge start end_ M (K.map Prod.snd) d ((n :: rest).map Prod.snd) =
                M :: (K.map Prod.snd ++ (start, end_) :: n.2 :: rest.map Prod.snd) := by
              have : ¬ (K = [] ∧ d = true) := by
                rintro ⟨e1, e2⟩
                rw [hKd e1] at e2
                exact absurd e2 (by decide)
              simp only [List.map_cons, addL_merge]
              rw [if_neg hov, if_pos hlt, if_neg]
              simpa using this
            have ea : A.map Prod.fst ++ m :: K.map Prod.fst = P0.map Prod.fst ++ [x.1] := by
              have := congrArg (List.map Prod.fst) hPx
              simpa using this
            have er : A.map Prod.snd ++ M :: K.map Prod.snd = P0.map Prod.snd ++ [x.2] := by
              have := congrArg (List.map Prod.snd) hPx
              simpa using this
            have hnd' : (P0.map Prod.fst ++ x.1 :: (n.1 :: rest.map Prod.fst)).Nodup := by
              have : ((A.map Prod.fst ++ m :: K.map Prod.fst) ++ n.1 :: rest.map Prod.fst).Nodup := by
                simpa using hnd
              rw [ea] at this
              simpa using this
            have hib' : ∀ a ∈ P0.map Prod.fst ++ x.1 :: (n.1 :: rest.map Prod.fst),
                a.1 = set.first ∧ a.2 ≤ set.next_item := by
              intro a ha
              apply hib
              have : a ∈ (A.map Prod.fst ++ m :: K.map Prod.fst) ++ n.1 :: rest.map Prod.fst := by
                rw [ea]; simpa using ha
              simpa using this
            obtain ⟨f1, f2, f3, f4, f5, f6, f7⟩ := addr_insert hnd' hib'
            subst hlax
            obtain ⟨g1, g2, g3⟩ := ins_heap_facts h (set.first, set.next_item + 1) x.1 (some n.1)
              start end_ (Ne.symm f2)
            have hPx' : Seg h root (some n.1) (P0 ++ [x]) := hPx ▸ hP
            obtain ⟨mid, hP0, hx1, hx2, hx3, hx4⟩ := Seg_append.1 hPx'
            subst hx1
            have hxb : x.1.1 = set.first := (hib' x.1 (by simp)).1
            refine ⟨_, set.next_item + 1, _, _,
              P0 ++ (x.1, x.2) :: ((set.first, set.next_item + 1), (start, end_)) :: n :: rest,
              rfl, by omega, le_refl _, ?_, ?_, ?_, ?_,
              fun a ha => g3 a (fun e => ha (e ▸ rfl)) (fun e => ha (e ▸ hxb))⟩
            · rw [hmerge]
              have : (P0 ++ (x.1, x.2) :: ((set.first, set.next_item + 1), (start, end_)) :: n :: rest).map
                  Prod.snd = (P0.map Prod.snd ++ [x.2]) ++ (start, end_) :: n.2 :: rest.map Prod.snd := by
                simp
              rw [this, ← er]
              simp
            · refine Seg_insert (r := (start, end_)) hP0 hS f4 f5 f1 f3 g1 ?_ g3
              rw [g2]
              simp [hx2, hx3]
            · simpa using f6
            · simpa using f7
          · -- lastitem is an absorbed node
            subst hK0
            subst hd
            have hmerge : addL_merge start end_ M (([] : List Node).map Prod.snd) true
                ((n :: rest).map Prod.snd) = M :: n.2 :: rest.map Prod.snd := by
              simp only [List.map_cons, addL_merge]
              rw [if_neg hov, if_pos hlt]
              simp
            have hlaf : la ≠ (set.first, set.next_item + 1) := by
              intro e
              have := hlab.2
              rw [e] at this
              simp at this
            obtain ⟨g1, g2, g3⟩ := ins_heap_facts h (set.first, set.next_item + 1) la (some n.1)
              start end_ hlaf
            refine ⟨_, set.next_item + 1, _, _, A ++ (m, M) :: n :: rest,
              rfl, by omega, le_refl _, ?_, ?_, ?_, ?_,
              fun a ha => g3 a (fun e => ha (e ▸ rfl)) (fun e => ha (e ▸ hlab.1))⟩
            · rw [hmerge]; simp
            · have hall : Seg h root none (A ++ (m, M) :: n :: rest) :=
                Seg_append.2 ⟨some n.1, hP, hS⟩ |> fun t => by simpa using t
              refine Seg_congr ?_ hall
              intro k hk
              apply g3
              · intro e
                have := (hib k.1 (by simpa using mem_fst hk)).2
                rw [e] at this
                simp at this
              · intro e
                exact hla (e ▸ mem_fst hk)
            · simpa using hnd
            · intro a ha
              have := hib a (by simpa using ha)
              exact ⟨this.1, by omega⟩
        · -- pass over the item
          rw [charclass_add_loop]
          simp only [hn_s, hn_e, w1, w2, hov, if_false, hlt]
          have hmerge : addL_merge start end_ M (K.map Prod.snd) d ((n :: rest).map Prod.snd) =
              addL_merge start end_ M ((K ++ [n]).map Prod.snd) d (rest.map Prod.snd) := by
            simp only [List.map_cons, addL_merge]
            rw [if_neg hov, if_neg hlt]
            simp
          rw [hmerge]
          apply ih f h A (K ++ [n]) m M _ n.1 d hf' hA hM1 hM2
          · exact Seg_append.2 ⟨some n.1, hK, rfl, hn_s, hn_e, rfl⟩
          · exact hrest
          · exact hno'
          · simpa using hnd
          · intro a ha
            exact hib a (by simpa using ha)
          · exact Or.inl ⟨A ++ (m, M) :: K, n, by simp, rfl, by simp⟩

theorem add_loop_scan (start end_ : Int) (set : charclass) (root : Ptr)
    (hn1 : 1 ≤ set.next_item) (hn2 : set.next_item + 1 < set.max_item) :
    ∀ (suf : List Node) (fuel : Nat) (h : Heap) (P : List Node) (item lastitem : Ptr),
      suf.length < fuel →
      Seg h root item P → Seg h item none suf →
      NoOverflow (suf.map Prod.snd) →
      ((P ++ suf).map Prod.fst).Nodup →
      (∀ a ∈ (P ++ suf).map Prod.fst, a.1 = set.first ∧ a.2 ≤ set.next_item) →
      ((P = [] ∧ lastitem = none) ∨ (∃ P0 x, P = P0 ++ [x] ∧ lastitem = some x.1)) →
      ∃ h' k' li ni,
        charclass_add_loop fuel h set start end_ item lastitem none =
          .ok (h', { set with next_item := k' }, li, ni) ∧
        (∀ a : Nat × Nat, a.1 ≠ set.first → h'.get a = h.get a) ∧
        ((ni = none ∧ h' = h ∧ k' = set.next_item ∧
            ((P ++ suf = [] ∧ li = none) ∨ (∃ Q x, P ++ suf = Q ++ [x] ∧ li = some x.1)) ∧
            addL start end_ (suf.map Prod.snd) = suf.map Prod.snd ++ [(start, end_)]) ∨
          (ni ≠ none ∧ set.next_item ≤ k' ∧ k' ≤ set.next_item + 1 ∧ ∃ ns,
            ns.map Prod.snd = P.map Prod.snd ++ addL start end_ (suf.map Prod.snd) ∧
            Seg h' root none ns ∧ (ns.map Prod.fst).Nodup ∧
            ∀ a ∈ ns.map Prod.fst, a.1 = set.first ∧ a.2 ≤ k')) := by
  intro suf
  induction suf with
  | nil =>
    intro fuel h P item lastitem hf hP hS hno hnd hib hla
    have hi : item = none := hS
    subst hi
    cases fuel with
    | zero => simp at hf
    | succ f =>
      refine ⟨h, set.next_item, lastitem, none, ?_, fun _ _ => rfl,
        Or.inl ⟨rfl, rfl, rfl, ?_, ?_⟩⟩
      · simp [charclass_add_loop]
      · rcases hla with ⟨e1, e2⟩ | ⟨P0, x, e1, e2⟩
        · exact Or.inl ⟨by simp [e1], e2⟩
        · exact Or.inr ⟨P0, x, by simp [e1], e2⟩
      · simp [addL]
  | cons n rest ih =>
    intro fuel h P item lastitem hf hP hS hno hnd hib hla
    obtain ⟨hi, hn_s, hn_e, hrest⟩ := hS
    subst hi
    have hbn := hno n.2 (by simp)
    have hno' : NoOverflow (rest.map Prod.snd) := noOverflow_tail hno
    have w1 : wrap32 (n.2.2 + 1) = n.2.2 + 1 := wrap32_succ _ hbn.2.2.1 hbn.2.2.2
    have w2 : wrap32 (n.2.1 - 1) = n.2.1 - 1 := wrap32_pred _ hbn.1 hbn.2.1
    cases fuel with
    | zero => simp at hf
    | succ f =>
      have hf' : rest.length < f := by simpa using hf
      simp only [List.map_append, List.map_cons] at hnd hib
      have hn_nd := nd_mid hnd
      obtain ⟨hnP, hnR⟩ := hn_nd
      by_cases hov : start ≤ n.2.2 + 1 ∧ end_ ≥ n.2.1 - 1
      · -- the first overlapping or adjacent item becomes newitem
        unfold charclass_add_loop
        simp only [hn_s, hn_e, w1, w2, hov, and_self, if_true]
        have haddL : addL start end_ ((n :: rest).map Prod.snd) =
            addL_merge start end_ (min start n.2.1, max end_ n.2.2)
              (([] : List Node).map Prod.snd) false (rest.map Prod.snd) := by
          simp only [List.map_cons, addL, List.map_nil]
          rw [if_pos hov]
        have hnb : n.1.1 = set.first := (hib n.1 (by simp)).1
        obtain ⟨h', k', li, ni, ns, heq, hk1, hk2, hr, hseg, hnd', hib', hfr⟩ :=
          add_loop_merge start end_ set root hn1 hn2 rest f
            ((h.setStart n.1 (min start n.2.1)).setEnd n.1 (max end_ n.2.2)) P [] n.1
            (min start n.2.1, max end_ n.2.2)
            (((h.setStart n.1 (min start n.2.1)).setEnd n.1 (max end_ n.2.2)).get n.1).next
            n.1 false hf'
            (by
              refine Seg_congr ?_ hP
              intro k hk
              have : k.1 ≠ n.1 := fun e => hnP (e ▸ mem_fst hk)
              simp [get_setStart, get_setEnd, this])
            (by simp [get_setStart, get_setEnd])
            (by simp [get_setStart, get_setEnd])
            rfl
            (by
              simp only [get_setStart, get_setEnd, if_true]
              refine Seg_congr ?_ hrest
              intro k hk
              have : k.1 ≠ n.1 := fun e => hnR (e ▸ mem_fst hk)
              simp [get_setStart, get_setEnd, this])
            hno'
            (by simpa using hnd)
            (by intro a ha; exact hib a (by simpa using ha))
            (Or.inl ⟨P, (n.1, (min start n.2.1, max end_ n.2.2)), rfl, rfl, fun _ => rfl⟩)
        refine ⟨h', k', li, some ni, ?_, ?_, Or.inr ⟨by simp, hk1, hk2, ns, ?_, hseg, hnd', hib'⟩⟩
        · have e : ((h.setStart n.1 (min start n.2.1)).get n.1).end_ = n.2.2 := by
            simp [get_setStart, hn_e]
          rw [e]
          exact heq
        · intro a ha
          rw [hfr a ha]
          have : a ≠ n.1 := fun e => ha (e ▸ hnb)
          simp [get_setStart, get_setEnd, this]
        · rw [hr, haddL]
      · by_cases hlt : end_ < n.2.1
        · -- insert the new range before the item
          unfold charclass_add_loop
          simp only [hn_s, hn_e, w1, w2, hov, if_false, hlt, if_true]
          have haddL : addL start end_ ((n :: rest).map Prod.snd) =
              (start, end_) :: n.2 :: rest.map Prod.snd := by
            simp only [List.map_cons, addL]
            rw [if_neg hov, if_pos hlt]
          have hS : Seg h (some n.1) none (n :: rest) := ⟨rfl, hn_s, hn_e, hrest⟩
          rcases hla with ⟨e1, e2⟩ | ⟨P0, x, e1, e2⟩
          · -- the new range goes first: the first node is not moved
            subst e1
            subst e2
            simp only [next_nogrow f h set hn1 hn2]
            have hroot : root = some n.1 := hP
            obtain ⟨f1, f2, f3, f4, f5, f6, f7⟩ :=
              addr_insert (P := []) (b := set.first) (k := set.next_item) (x := n.1)
                (S := rest.map Prod.fst) (by simpa using hnd) (by simpa using hib)
            have hnb : n.1.1 = set.first := (hib n.1 (by simp)).1
            refine ⟨_, set.next_item + 1, none, some n.1, rfl,
              (fun a ha => by
                have h1 : a ≠ n.1 := fun e => ha (e ▸ hnb)
                have h2 : a ≠ (set.first, set.next_item + 1) := fun e => ha (e ▸ rfl)
                simp [get_setNext, get_setStart, get_setEnd, h1, h2]),
              Or.inr ⟨by simp, by omega, le_refl _,
                (n.1, (start, end_)) :: ((set.first, set.next_item + 1), n.2) :: rest,
                ?_, ?_, ?_, ?_⟩⟩
            · rw [haddL]; simp
            · refine Seg_insert (h := h) (i := (h.get n.1).next) (P := [])
                (r := n.2) hroot hrest (by simp) f5 (by simp) f3 ?_ ?_ ?_
              · simp [get_setNext, get_setStart, get_setEnd, f2, Ne.symm f2, hn_s, hn_e]
              · simp [get_setNext, get_setStart, get_setEnd, f2, Ne.symm f2]
              · intro a h1 h2
                simp [get_setNext, get_setStart, get_setEnd, h1, h2]
            · simpa using f6
            · simpa using f7
          · -- the new range goes after lastitem
            subst e1
            subst e2
            simp only [next_nogrow f h set hn1 hn2]
            have hnd' : (P0.map Prod.fst ++ x.1 :: (n.1 :: rest.map Prod.fst)).Nodup := by
              simpa using hnd
            have hib' : ∀ a ∈ P0.map Prod.fst ++ x.1 :: (n.1 :: rest.map Prod.fst),
                a.1 = set.first ∧ a.2 ≤ set.next_item := by
              intro a ha
              exact hib a (by simpa using ha)
            obtain ⟨f1, f2, f3, f4, f5, f6, f7⟩ := addr_insert hnd' hib'
            obtain ⟨g1, g2, g3⟩ := ins_heap_facts h (set.first, set.next_item + 1) x.1 (some n.1)
              start end_ (Ne.symm f2)
            obtain ⟨mid, hP0, hx1, hx2, hx3, hx4⟩ := Seg_append.1 hP
            subst hx1
            have hxb : x.1.1 = set.first := (hib' x.1 (by simp)).1
            refine ⟨_, set.next_item + 1, _, some (set.first, set.next_item + 1), rfl,
              (fun a ha => g3 a (fun e => ha (e ▸ rfl)) (fun e => ha (e ▸ hxb))),
              Or.inr ⟨by simp, by omega, le_refl _,
                P0 ++ (x.1, x.2) :: ((set.first, set.next_item + 1), (start, end_)) :: n :: rest,
                ?_, ?_, ?_, ?_⟩⟩
            · rw [haddL]; simp
            · refine Seg_insert (r := (start, end_)) hP0 hS f4 f5 f1 f3 g1 ?_ g3
              rw [g2]
              simp [hx2, hx3]
            · simpa using f6
            · simpa using f7
        · -- pass over the item
          unfold charclass_add_loop
          simp only [hn_s, hn_e, w1, w2, hov, if_false, hlt]
          have haddL : addL start end_ ((n :: rest).map Prod.snd) =
              n.2 :: addL start end_ (rest.map Prod.snd) := by
            simp only [List.map_cons, addL]
            rw [if_neg hov, if_neg hlt]
          obtain ⟨h', k', li, ni, heq, hfr, hres⟩ := ih f h (P ++ [n]) (h.get n.1).next (some n.1) hf'
            (Seg_append.2 ⟨some n.1, hP, rfl, hn_s, hn_e, rfl⟩) hrest hno' (by simpa using hnd)
            (by intro a ha; exact hib a (by simpa using ha)) (Or.inr ⟨P, n, rfl, rfl⟩)
          refine ⟨h', k', li, ni, heq, hfr, ?_⟩
          rcases hres with ⟨e1, e2, e3, e4, e5⟩ | ⟨e1, e2, e3, ns, e4, e5, e6, e7⟩
          · refine Or.inl ⟨e1, e2, e3, ?_, ?_⟩
            · simpa using e4
            · rw [haddL, e5]; simp
          · refine Or.inr ⟨e1, e2, e3, ns, ?_, e5, e6, e7⟩
            rw [e4, haddL]; simp

/-- What `charclass_add` does to a stored chain on which its arithmetic does not
overflow: the set afterwards stores `addL start end_ l`, and no node outside the set's
own array is written. -/
theorem charclass_add_frame (fuel : Nat) (h : Heap) (set : charclass) (l : List (Int × Int))
    (start end_ : Int) (hst : Stored h set l) (hse : start ≤ end_) (hno : NoOverflow l)
    (hng : set.next_item + 1 < set.max_item) (hf : l.length < fuel) :
    ∃ h' k', charclass_add fuel h set start end_ = .ok (h', { set with next_item := k' }) ∧
      1 ≤ k' ∧ set.next_item ≤ k' ∧ k' ≤ set.next_item + 1 ∧
      Stored h' { set with next_item := k' } (addL start end_ l) ∧
      ∀ a : Nat × Nat, a.1 ≠ set.first → h'.get a = h.get a := by
  have hnot : ¬ start > end_ := by omega
  rcases hst with ⟨h0, hl⟩ | ⟨h1, ns, hr, hseg, hnd, hib⟩
  · -- the empty set
    subst hl
    refine ⟨((h.setStart (set.first, 0) start).setEnd (set.first, 0) end_).setNext
      (set.first, 0) none, 1, ?_, le_refl _, by omega, by omega, ?_, fun a ha => by
        have h1 : a ≠ (set.first, 0) := fun e => ha (e ▸ rfl)
        simp [get_setNext, get_setStart, get_setEnd, h1]⟩
    · unfold charclass_add
      simp only [hnot, if_false, h0, if_true]
    · refine Or.inr ⟨le_refl _, [((set.first, 0), (start, end_))], rfl, ?_, by simp, ?_⟩
      · simp [Seg, get_setNext, get_setStart, get_setEnd]
      · simp
  · have hne : ¬ set.next_item = 0 := by omega
    have hlen : ns.length < fuel := by
      have := congrArg List.length hr
      simp only [List.length_map] at this
      omega
    obtain ⟨h', k', li, ni, heq, hfr, hres⟩ :=
      add_loop_scan start end_ set (some (set.first, 0)) h1 hng ns fuel h [] (some (set.first, 0))
        none hlen rfl hseg (by rw [hr]; exact hno) (by simpa using hnd) (by simpa using hib) (Or.inl ⟨rfl, rfl⟩)
    rcases hres with ⟨e1, e2, e3, e4, e5⟩ | ⟨e1, e2, e3, ns', e4, e5, e6, e7⟩
    · -- no item was found: add to the end
      subst e1
      subst e2
      subst e3
      rcases e4 with ⟨e4, _⟩ | ⟨Q, x, e4, e6⟩
      · simp only [List.nil_append] at e4
        subst e4
        exact absurd hseg (by simp [Seg])
      · simp only [List.nil_append] at e4
        subst e4
        subst e6
        have hnd' : (Q.map Prod.fst ++ x.1 :: ([] : List (Nat × Nat))).Nodup := by simpa using hnd
        have hib' : ∀ a ∈ Q.map Prod.fst ++ x.1 :: ([] : List (Nat × Nat)),
            a.1 = set.first ∧ a.2 ≤ set.next_item := by
          intro a ha; exact hib a (by simpa using ha)
        obtain ⟨f1, f2, f3, f4, f5, f6, f7⟩ := addr_insert hnd' hib'
        obtain ⟨mid, hQ, hx1, hx2, hx3, hx4⟩ := Seg_append.1 hseg
        subst hx1
        have hxb : x.1.1 = set.first := (hib' x.1 (by simp)).1
        refine ⟨(((h'.setNext (set.first, set.next_item + 1) none).setStart
          (set.first, set.next_item + 1) start).setEnd (set.first, set.next_item + 1) end_).setNext
          x.1 (some (set.first, set.next_item + 1)), set.next_item + 1, ?_, by omega, by omega,
          le_refl _, ?_, fun a ha => by
            have h1 : a ≠ (set.first, set.next_item + 1) := fun e => ha (e ▸ rfl)
            have h2 : a ≠ x.1 := fun e => ha (e ▸ hxb)
            simp [get_setNext, get_setStart, get_setEnd, h1, h2]⟩
        · unfold charclass_add
          simp only [hnot, if_false, hne, heq, next_nogrow fuel h' set h1 hng]
        refine Or.inr ⟨by simp,
          Q ++ (x.1, x.2) :: ((set.first, set.next_item + 1), (start, end_)) :: [], ?_, ?_, ?_, ?_⟩
        · rw [← hr, e5]; simp
        · refine Seg_insert (h := h') (i := none) (r := (start, end_)) (S := [])
            hQ rfl f4 (by simp) f1 (by simp) ?_ ?_ ?_
          · simp [get_setNext, get_setStart, get_setEnd, f2]
          · simp [get_setNext, get_setStart, get_setEnd, Ne.symm f2, hx2, hx3]
          · intro a h1 h2
            simp [get_setNext, get_setStart, get_setEnd, h1, h2]
        · simpa using f6
        · simpa using f7
    · obtain ⟨x, hx⟩ := Option.ne_none_iff_exists'.1 e1
      subst hx
      refine ⟨h', k', ?_, by omega, e2, e3, ?_, hfr⟩
      · unfold charclass_add
        simp only [hnot, if_false, hne, heq]
      · refine Or.inr ⟨by simp; omega, ns', ?_, e5, e6, e7⟩
        rw [e4, ← hr]; simp

/-- What `charclass_add` does to a stored chain: the set afterwards stores
`addL start end_ l`. -/
theorem charclass_add_sim (fuel : Nat) (h : Heap) (set : charclass) (l : List (Int × Int))
    (start end_ : Int) (hst : Stored h set l) (hse : start ≤ end_) (hno : NoOverflow l)
    (hng : set.next_item + 1 < set.max_item) (hf : l.length < fuel) :
    ∃ h' k', charclass_add fuel h set start end_ = .ok (h', { set with next_item := k' }) ∧
      1 ≤ k' ∧ set.next_item ≤ k' ∧ k' ≤ set.next_item + 1 ∧
      Stored h' { set with next_item := k' } (addL start end_ l) := by
  obtain ⟨h', k', q1, q2, q3, q4, q5, _⟩ :=
    charclass_add_frame fuel h set l start end_ hst hse hno hng hf
  exact ⟨h', k', q1, q2, q3, q4, q5⟩

/-! ## Lists of ranges -/

theorem covers_nil (x : Int) : Covers [] x ↔ False := by
  simp [Covers]

theorem covers_cons (r : Int × Int) (rs : List (Int × Int)) (x : Int) :
    Covers (r :: rs) x ↔ (r.1 ≤ x ∧ x ≤ r.2) ∨ Covers rs x := by
  simp [Covers]

theorem covers_append (a b : List (Int × Int)) (x : Int) :
    Covers (a ++ b) x ↔ Covers a x ∨ Covers b x := by
  simp only [Covers, List.mem_append]
  constructor
  · rintro ⟨r, h1 | h1, h2⟩
    · exact Or.inl ⟨r, h1, h2⟩
    · exact Or.inr ⟨r, h1, h2⟩
  · rintro (⟨r, h1, h2⟩ | ⟨r, h1, h2⟩)
    · exact ⟨r, Or.inl h1, h2⟩
    · exact ⟨r, Or.inr h1, h2⟩

theorem wellFormed_cons {r : Int × Int} {rs : List (Int × Int)} :
    WellFormed (r :: rs) ↔ r.1 ≤ r.2 ∧ (∀ s ∈ rs, r.2 + 1 < s.1) ∧ WellFormed rs := by
  simp only [WellFormed, List.mem_cons, forall_eq_or_imp, List.pairwise_cons]
  tauto

theorem wellFormed_nil : WellFormed [] := by
  simp [WellFormed]

/-- On a chain whose starts never decrease, the scan of `charclass_contains` with its
early exit finds exactly the covered values. -/
theorem containsL_iff (x : Int) (l : List (Int × Int))
    (hm : l.Pairwise (fun r s => r.1 ≤ s.1)) : containsL x l = true ↔ Covers l x := by
  induction l with
  | nil => simp [containsL, covers_nil]
  | cons r rs ih =>
    rw [List.pairwise_cons] at hm
    rw [covers_cons]
    simp only [containsL]
    split_ifs with c1 c2
    · simp [c1]
    · constructor
      · intro hf; exact absurd hf (by simp)
      · rintro (hc | ⟨s, hs, hs1, _⟩)
        · exact absurd hc c1
        · have := hm.1 s hs
          omega
    · rw [ih hm.2]
      constructor
      · intro hc; exact Or.inr hc
      · rintro (hc | hc)
        · exact absurd hc c1
        · exact hc

theorem addL_merge_spec (start end_ : Int) :
    ∀ (rs : List (Int × Int)) (m : Int × Int) (d : Bool),
      (∀ r ∈ rs, r.1 ≤ r.2) → rs.Pairwise (fun r s => r.2 + 1 < s.1) →
      (∀ r ∈ rs, start ≤ r.1) → m.1 ≤ start → start ≤ end_ → end_ ≤ m.2 →
      (∀ x, Covers (addL_merge start end_ m [] d rs) x ↔ (m.1 ≤ x ∧ x ≤ m.2) ∨ Covers rs x) ∧
      (addL_merge start end_ m [] d rs).Pairwise (fun r s => r.1 ≤ s.1) ∧
      (∀ t ∈ addL_merge start end_ m [] d rs, m.1 ≤ t.1) ∧
      (addL_merge start end_ m [] d rs).length ≤ rs.length + 2 := by
  intro rs
  induction rs with
  | nil =>
    intro m d _ _ _ _ _ _
    refine ⟨?_, ?_, ?_, ?_⟩
    · intro x; simp [addL_merge, covers_cons, covers_nil]
    · simp [addL_merge]
    · simp [addL_merge]
    · simp [addL_merge]
  | cons r rs ih =>
    intro m d hv hg hs hm1 hse hm2
    rw [List.pairwise_cons] at hg
    have hr := hv r (List.mem_cons_self _ _)
    have hsr := hs r (List.mem_cons_self _ _)
    have hv' : ∀ s ∈ rs, s.1 ≤ s.2 := fun s h => hv s (List.mem_cons_of_mem _ h)
    have hs' : ∀ s ∈ rs, start ≤ s.1 := fun s h => hs s (List.mem_cons_of_mem _ h)
    by_cases hov : start ≤ r.2 + 1 ∧ end_ ≥ r.1 - 1
    · have e : addL_merge start end_ m [] d (r :: rs) =
          addL_merge start end_ (m.1, max m.2 r.2) [] true rs := by
        simp only [addL_merge]; rw [if_pos hov]
      rw [e]
      obtain ⟨i1, i2, i3, i4⟩ := ih (m.1, max m.2 r.2) true hv' hg.2 hs' hm1 hse
        (le_trans hm2 (le_max_left _ _))
      refine ⟨?_, i2, i3, by simp only [List.length_cons]; omega⟩
      intro x
      rw [i1 x, covers_cons]
      simp only
      have : (m.1 ≤ x ∧ x ≤ max m.2 r.2) ↔ ((m.1 ≤ x ∧ x ≤ m.2) ∨ (r.1 ≤ x ∧ x ≤ r.2)) := by
        rcases le_total m.2 r.2 with hle | hle
        · rw [max_eq_right hle]; constructor
          · intro ⟨a, b⟩; by_cases hc : x ≤ m.2
            · exact Or.inl ⟨a, hc⟩
            · exact Or.inr ⟨by omega, b⟩
          · rintro (⟨a, b⟩ | ⟨a, b⟩) <;> constructor <;> omega
        · rw [max_eq_left hle]; constructor
          · intro ⟨a, b⟩; exact Or.inl ⟨a, b⟩
          · rintro (⟨a, b⟩ | ⟨a, b⟩) <;> constructor <;> omega
      rw [this]
      tauto
    · have hlt : end_ < r.1 := by
        by_contra hc
        apply hov
        constructor <;> omega
      have hmono : (r :: rs).Pairwise (fun a b => a.1 ≤ b.1) := by
        rw [List.pairwise_cons]
        refine ⟨fun s h => by have := hg.1 s h; omega, ?_⟩
        have : ∀ (l : List (Int × Int)), (∀ s ∈ l, s.1 ≤ s.2) →
            l.Pairwise (fun r s => r.2 + 1 < s.1) → l.Pairwise (fun a b => a.1 ≤ b.1) := by
          intro l
          induction l with
          | nil => intro _ _; exact List.Pairwise.nil
          | cons a l ihl =>
            intro h1 h2
            rw [List.pairwise_cons] at h2 ⊢
            refine ⟨fun s h => ?_, ihl (fun s h => h1 s (List.mem_cons_of_mem _ h)) h2.2⟩
            have := h2.1 s h
            have := h1 a (List.mem_cons_self _ _)
            omega
        exact this rs hv' hg.2
      by_cases hd : d = true
      · have e : addL_merge start end_ m [] d (r :: rs) = m :: r :: rs := by
          simp only [addL_merge]; rw [if_neg hov, if_pos hlt, if_pos ⟨trivial, hd⟩]
        rw [e]
        refine ⟨?_, ?_, ?_, by simp⟩
        · intro x; rw [covers_cons]
        · rw [List.pairwise_cons]
          refine ⟨?_, hmono⟩
          intro s h
          have := hs s h
          omega
        · intro t ht
          rw [List.mem_cons] at ht
          rcases ht with rfl | ht
          · exact le_refl _
          · have := hs t ht; omega
      · have e : addL_merge start end_ m [] d (r :: rs) = m :: (start, end_) :: r :: rs := by
          simp only [addL_merge]; rw [if_neg hov, if_pos hlt, if_neg (fun c => hd c.2)]
          simp
        rw [e]
        refine ⟨?_, ?_, ?_, by simp⟩
        · intro x; rw [covers_cons, covers_cons]
          simp only
          constructor
          · rintro (h1 | h1 | h1)
            · exact Or.inl h1
            · exact Or.inl ⟨by omega, by omega⟩
            · exact Or.inr h1
          · rintro (h1 | h1)
            · exact Or.inl h1
            · exact Or.inr (Or.inr h1)
        · rw [List.pairwise_cons, List.pairwise_cons]
          refine ⟨?_, ?_, hmono⟩
          · intro s h
            rw [List.mem_cons] at h
            rcases h with rfl | h
            · exact hm1
            · have := hs s h; omega
          · intro s h
            exact hs s h
        · intro t ht
          rw [List.mem_cons] at ht
          rcases ht with rfl | ht
          · exact le_refl _
          · rw [List.mem_cons] at ht
            rcases ht with rfl | ht
            · exact hm1
            · have := hs t ht; omega

theorem addL_spec (start end_ : Int) (hse : start ≤ end_) :
    ∀ (l : List (Int × Int)), WellFormed l →
      (∀ x, Covers (addL start end_ l) x ↔ Covers l x ∨ (start ≤ x ∧ x ≤ end_)) ∧
      (addL start end_ l).Pairwise (fun r s => r.1 ≤ s.1) ∧
      (∀ c, c ≤ start → (∀ s ∈ l, c ≤ s.1) → ∀ t ∈ addL start end_ l, c ≤ t.1) ∧
      (addL start end_ l).length ≤ l.length + 1 := by
  intro l
  induction l with
  | nil =>
    intro _
    refine ⟨?_, ?_, ?_, ?_⟩
    · intro x; simp [addL, covers_cons, covers_nil]
    · simp [addL]
    · intro c hc _ t ht
      simp only [addL, List.mem_singleton] at ht
      subst ht; exact hc
    · simp [addL]
  | cons r rs ih =>
    intro hwf
    obtain ⟨hr, hgap, hwf'⟩ := wellFormed_cons.1 hwf
    obtain ⟨i1, i2, i3, i4⟩ := ih hwf'
    by_cases hov : start ≤ r.2 + 1 ∧ end_ ≥ r.1 - 1
    · have e : addL start end_ (r :: rs) =
          addL_merge start end_ (min start r.1, max end_ r.2) [] false rs := by
        simp only [addL]; rw [if_pos hov]
      rw [e]
      obtain ⟨m1, m2, m3, m4⟩ := addL_merge_spec start end_ rs (min start r.1, max end_ r.2) false
        hwf'.1 hwf'.2 (fun s h => by have := hgap s h; omega) (min_le_left _ _) hse
        (le_max_left _ _)
      refine ⟨?_, m2, ?_, by simp only [List.length_cons]; omega⟩
      · intro x
        rw [m1 x, covers_cons]
        simp only
        have : (min start r.1 ≤ x ∧ x ≤ max end_ r.2) ↔
            ((r.1 ≤ x ∧ x ≤ r.2) ∨ (start ≤ x ∧ x ≤ end_)) := by
          rcases le_total start r.1 with h1 | h1 <;> rcases le_total end_ r.2 with h2 | h2
          · rw [min_eq_left h1, max_eq_right h2]; constructor
            · intro ⟨a, b⟩; by_cases hc : x ≤ end_
              · exact Or.inr ⟨a, hc⟩
              · exact Or.inl ⟨by omega, b⟩
            · rintro (⟨a, b⟩ | ⟨a, b⟩) <;> constructor <;> omega
          · rw [min_eq_left h1, max_eq_left h2]; constructor
            · intro ⟨a, b⟩; exact Or.inr ⟨a, b⟩
            · rintro (⟨a, b⟩ | ⟨a, b⟩) <;> constructor <;> omega
          · rw [min_eq_right h1, max_eq_right h2]; constructor
            · intro ⟨a, b⟩; exact Or.inl ⟨a, b⟩
            · rintro (⟨a, b⟩ | ⟨a, b⟩) <;> constructor <;> omega
          · rw [min_eq_right h1, max_eq_left h2]; constructor
            · intro ⟨a, b⟩; by_cases hc : x ≤ r.2
              · exact Or.inl ⟨a, hc⟩
              · exact Or.inr ⟨by omega, b⟩
            · rintro (⟨a, b⟩ | ⟨a, b⟩) <;> constructor <;> omega
        rw [this]
        tauto
      · intro c hc hcs t ht
        have h1 := m3 t ht
        have h2 := hcs r (List.mem_cons_self _ _)
        simp only at h1
        have : c ≤ min start r.1 := le_min hc h2
        omega
    · by_cases hlt : end_ < r.1
      · have e : addL start end_ (r :: rs) = (start, end_) :: r :: rs := by
          simp only [addL]; rw [if_neg hov, if_pos hlt]
        rw [e]
        have hmono : (r :: rs).Pairwise (fun a b => a.1 ≤ b.1) := by
          have : ∀ (l : List (Int × Int)), (∀ s ∈ l, s.1 ≤ s.2) →
              l.Pairwise (fun r s => r.2 + 1 < s.1) → l.Pairwise (fun a b => a.1 ≤ b.1) := by
            intro l
            induction l with
            | nil => intro _ _; exact List.Pairwise.nil
            | cons a l ihl =>
              intro h1 h2
              rw [List.pairwise_cons] at h2 ⊢
              refine ⟨fun s h => ?_, ihl (fun s h => h1 s (List.mem_cons_of_mem _ h)) h2.2⟩
              have := h2.1 s h
              have := h1 a (List.mem_cons_self _ _)
              omega
          exact this _ hwf.1 hwf.2
        refine ⟨?_, ?_, ?_, by simp⟩
        · intro x; rw [covers_cons]; simp only; tauto
        · rw [List.pairwise_cons]
          refine ⟨?_, hmono⟩
          intro s h
          simp only
          rw [List.mem_cons] at h
          rcases h with rfl | h
          · omega
          · have := hgap s h; omega
        · intro c hc hcs t ht
          rw [List.mem_cons] at ht
          rcases ht with rfl | ht
          · exact hc
          · exact hcs t ht
      · have e : addL start end_ (r :: rs) = r :: addL start end_ rs := by
          simp only [addL]; rw [if_neg hov, if_neg hlt]
        rw [e]
        have hsr : r.1 ≤ start := by
          by_contra hc
          apply hov
          constructor <;> omega
        refine ⟨?_, ?_, ?_, by simp only [List.length_cons]; omega⟩
        · intro x; rw [covers_cons, covers_cons, i1 x]; tauto
        · rw [List.pairwise_cons]
          refine ⟨?_, i2⟩
          exact i3 r.1 hsr (fun s h => by have := hgap s h; omega)
        · intro c hc hcs t ht
          rw [List.mem_cons] at ht
          rcases ht with rfl | ht
          · exact hcs _ (List.mem_cons_self _ _)
          · exact i3 c hc (fun s h => hcs s (List.mem_cons_of_mem _ h)) t ht

/-- Membership after add, away from storage growth and integer overflow.  Let a
well-formed set (possibly empty) be stored in its own array, which has never grown
(`max_item` is at most the size of the array) and has a free node left
(`next_item + 1 < max_item`), and let no bound of the set be `INT_MIN` as a start or
`INT_MAX` as an end.  Then for every `start <= end` and every integer `x`,
`charclass_add` returns, the nodes in use stay inside the array, and afterwards
`charclass_contains(set, x)` returns true if and only if `start <= x <= end` or `x` was
covered by a range of the set before the call. -/
theorem charclass_add_contains (fuel : Nat) (h : Heap) (set : charclass)
    (l : List (Int × Int)) (start end_ x : Int)
    (hst : Stored h set l) (hwf : WellFormed l) (hse : start ≤ end_) (hno : NoOverflow l)
    (hng : set.next_item + 1 < set.max_item) (hsz : set.max_item ≤ h.size set.first)
    (hf : l.length + 1 < fuel) :
    ∃ h' set' b, charclass_add fuel h set start end_ = Except.ok (h', set') ∧
      set'.next_item < h.size set.first ∧
      charclass_contains fuel h' set' x = Except.ok b ∧
      (b = true ↔ (start ≤ x ∧ x ≤ end_) ∨ Covers l x) := by
  obtain ⟨h', k', heq, hk1, _, hk3, hst'⟩ :=
    charclass_add_sim fuel h set l start end_ hst hse hno hng (by omega)
  obtain ⟨s1, s2, _, s4⟩ := addL_spec start end_ hse l hwf
  rcases hst' with ⟨h0, _⟩ | ⟨_, ns, hr, hseg, _, _⟩
  · simp only at h0; omega
  · have hlen : ns.length < fuel := by
      have := congrArg List.length hr
      simp only [List.length_map] at this
      omega
    refine ⟨h', _, containsL x (addL start end_ l), heq, by simp only; omega, ?_, ?_⟩
    · unfold charclass_contains
      have : ¬ k' = 0 := by omega
      simp only [this, if_false]
      rw [contains_loop_sim x h' ns _ fuel hseg hlen, hr]
    · rw [containsL_iff x _ s2, s1 x]
      tauto

theorem remove_loop_sim (start end_ : Int) (set : charclass) (root : Ptr)
    (hn1 : 1 ≤ set.next_item) (hn2 : set.next_item + 1 < set.max_item) :
    ∀ (len : Nat) (suf : List Node) (fuel : Nat) (h : Heap) (P : List Node)
      (item lastitem : Ptr),
      suf.length = len → len < fuel →
      Seg h root item P → Seg h item none suf →
      ((P ++ suf).map Prod.fst).Nodup →
      (∀ a ∈ (P ++ suf).map Prod.fst, a.1 = set.first ∧ a.2 ≤ set.next_item) →
      ((P = [] ∧ lastitem = none) ∨ (∃ P0 x, P = P0 ++ [x] ∧ lastitem = some x.1)) →
      P ++ suf ≠ [] →
      ∃ h' k',
        charclass_remove_loop fuel h set start end_ item lastitem =
          .ok (h', { set with next_item := k' }) ∧
        (∀ a : Nat × Nat, a.1 ≠ set.first → h'.get a = h.get a) ∧
        ((P.map Prod.snd ++ removeL start end_ (suf.map Prod.snd) = [] ∧ k' = 0) ∨
          (set.next_item ≤ k' ∧ k' ≤ set.next_item + 1 ∧ ∃ ns,
            ns.map Prod.snd = P.map Prod.snd ++ removeL start end_ (suf.map Prod.snd) ∧
            Seg h' root none ns ∧ (ns.map Prod.fst).Nodup ∧
            ∀ a ∈ ns.map Prod.fst, a.1 = set.first ∧ a.2 ≤ k')) := by
  intro len
  induction len with
  | zero =>
    intro suf fuel h P item lastitem hlen hf hP hS hnd hib hla hne
    have hsuf : suf = [] := List.length_eq_zero.1 hlen
    subst hsuf
    have hi : item = none := hS
    subst hi
    cases fuel with
    | zero => omega
    | succ f =>
      refine ⟨h, set.next_item, ?_, fun _ _ => rfl,
        Or.inr ⟨le_refl _, by omega, P, by simp [removeL], ?_, ?_, ?_⟩⟩
      · simp [charclass_remove_loop]
      · exact hP
      · simpa using hnd
      · simpa using hib
  | succ len ih =>
    intro suf fuel h P item lastitem hlen hf hP hS hnd hib hla hne
    match suf, hlen with
    | n :: rest, hlen =>
      obtain ⟨hi, hn_s, hn_e, hrest⟩ := hS
      subst hi
      have hlen' : rest.length = len := by simpa using hlen
      cases fuel with
      | zero => omega
      | succ f =>
        have hf' : len < f := by omega
        simp only [List.map_append, List.map_cons] at hnd hib
        obtain ⟨hnP, hnR⟩ := nd_mid hnd
        have hS : Seg h (some n.1) none (n :: rest) := ⟨rfl, hn_s, hn_e, hrest⟩
        have hnb : n.1.1 = set.first := (hib n.1 (by simp)).1
        have hnf : ∀ a : Nat × Nat, a.1 ≠ set.first → a ≠ n.1 := fun a ha e => ha (e ▸ hnb)
        unfold charclass_remove_loop
        simp only [hn_s, hn_e]
        by_cases c1 : n.2.1 > end_
        · -- everything is sorted: stop
          simp only [c1, if_true]
          refine ⟨h, set.next_item, rfl, fun _ _ => rfl, Or.inr ⟨le_refl _, by omega, P ++ n :: rest, ?_,
            Seg_append.2 ⟨_, hP, hS⟩, by simpa using hnd, by simpa using hib⟩⟩
          simp only [List.map_append, List.map_cons, removeL]
          rw [if_pos c1]
        · simp only [c1, if_false]
          by_cases c2 : start > n.2.2
          · -- not in a range we have yet
            simp only [c2, if_true]
            have hrm : removeL start end_ ((n :: rest).map Prod.snd) =
                n.2 :: removeL start end_ (rest.map Prod.snd) := by
              simp only [List.map_cons, removeL]
              rw [if_neg c1, if_pos c2]
            rw [hrm]
            obtain ⟨h', k', heq, hfr, hres⟩ := ih rest f h (P ++ [n]) (h.get n.1).next (some n.1)
              hlen' hf' (Seg_append.2 ⟨some n.1, hP, rfl, hn_s, hn_e, rfl⟩) hrest
              (by simpa using hnd) (by intro a ha; exact hib a (by simpa using ha))
              (Or.inr ⟨P, n, rfl, rfl⟩) (by simp)
            refine ⟨h', k', heq, hfr, ?_⟩
            simpa using hres
          · simp only [c2, if_false]
            by_cases c3 : start ≤ n.2.1 ∧ end_ ≥ n.2.2
            · -- the range is completely contained and is removed
              simp only [c3, and_self, if_true]
              have hrm : removeL start end_ ((n :: rest).map Prod.snd) =
                  removeL start end_ (rest.map Prod.snd) := by
                simp only [List.map_cons, removeL]
                rw [if_neg c1, if_neg c2, if_pos c3]
              rw [hrm]
              rcases hla with ⟨e1, e2⟩ | ⟨P0, x, e1, e2⟩
              · subst e1
                subst e2
                have hroot : root = some n.1 := hP
                simp only
                match rest, hrest, hlen', hnd, hib, hnR, ih with
                | [], hrest, hlen', hnd, hib, hnR, ih =>
                  -- everything is gone
                  have hnx : (h.get n.1).next = none := hrest
                  simp only [hnx]
                  exact ⟨h, 0, rfl, fun _ _ => rfl, Or.inl ⟨by simp [removeL], rfl⟩⟩
                | nx :: rest', hrest, hlen', hnd, hib, hnR, ih =>
                  obtain ⟨hnx, hx_s, hx_e, hrest'⟩ := hrest
                  simp only [hnx]
                  simp only [List.map_cons, List.mem_cons, not_or] at hnR
                  have hne1 : nx.1 ≠ n.1 := fun e => hnR.1 e.symm
                  have hnR' : n.1 ∉ rest'.map Prod.fst := hnR.2
                  obtain ⟨h', k', heq, hfr, hres⟩ := ih ((n.1, nx.2) :: rest') f
                    (((h.setStart n.1 (h.get nx.1).start).setEnd n.1
                      ((h.setStart n.1 (h.get nx.1).start).get nx.1).end_).setNext n.1
                      (((h.setStart n.1 (h.get nx.1).start).setEnd n.1
                      ((h.setStart n.1 (h.get nx.1).start).get nx.1).end_).get nx.1).next)
                    [] (some n.1) none (by simpa using hlen') hf' hroot
                    (by
                      refine ⟨rfl, ?_, ?_, ?_⟩
                      · simp [get_setNext, get_setStart, get_setEnd, hx_s]
                      · simp [get_setNext, get_setStart, get_setEnd, hne1, hx_e]
                      · simp only [get_setNext, get_setStart, get_setEnd, hne1, if_true, if_false]
                        refine Seg_congr ?_ hrest'
                        intro k hk
                        have : k.1 ≠ n.1 := fun e => hnR' (e ▸ mem_fst hk)
                        simp [get_setNext, get_setStart, get_setEnd, this])
                    (by
                      simp only [List.nil_append, List.map_cons]
                      exact hnd.sublist (by simp))
                    (by
                      intro a ha
                      apply hib
                      simp only [List.nil_append, List.map_cons, List.mem_cons, List.map_nil,
                        List.mem_append, List.not_mem_nil, false_or] at ha ⊢
                      tauto)
                    (Or.inl ⟨rfl, rfl⟩) (by simp)
                  refine ⟨h', k', heq, fun a ha => ?_, ?_⟩
                  · rw [hfr a ha]
                    simp [get_setNext, get_setStart, get_setEnd, hnf a ha]
                  simpa using hres
              · subst e1
                subst e2
                simp only
                obtain ⟨mid, hP0, hx1, hx2, hx3, hx4⟩ := Seg_append.1 hP
                subst hx1
                have hnd' : (P0.map Prod.fst ++ x.1 :: (n.1 :: rest.map Prod.fst)).Nodup := by
                  simpa using hnd
                obtain ⟨hxP, hxR⟩ := nd_mid hnd'
                simp only [List.mem_cons, not_or] at hxR
                have hxb : x.1.1 = set.first := (hib x.1 (by simp)).1
                obtain ⟨h', k', heq, hfr, hres⟩ := ih rest f (h.setNext x.1 (h.get n.1).next)
                  (P0 ++ [x]) (h.get n.1).next (some x.1) hlen' hf'
                  (by
                    refine Seg_append.2 ⟨some x.1, Seg_congr ?_ hP0, rfl, ?_, ?_, ?_⟩
                    · intro k hk
                      have : k.1 ≠ x.1 := fun e => hxP (e ▸ mem_fst hk)
                      simp [get_setNext, this]
                    · simp [get_setNext, hx2]
                    · simp [get_setNext, hx3]
                    · simp [Seg, get_setNext])
                  (by
                    refine Seg_congr ?_ hrest
                    intro k hk
                    have : k.1 ≠ x.1 := fun e => hxR.2 (e ▸ mem_fst hk)
                    simp [get_setNext, this])
                  (by
                    simp only [List.map_append, List.map_cons, List.map_nil]
                    exact hnd'.sublist (by simp))
                  (by
                    intro a ha
                    apply hib
                    simp only [List.map_append, List.map_cons, List.map_nil, List.mem_append,
                      List.mem_cons, List.not_mem_nil, or_false] at ha ⊢
                    tauto)
                  (Or.inr ⟨P0, x, rfl, rfl⟩) (by simp)
                refine ⟨h', k', heq, fun a ha => ?_, hres⟩
                rw [hfr a ha]
                have : a ≠ x.1 := fun e => ha (e ▸ hxb)
                simp [get_setNext, this]
            · simp only [c3, if_false]
              by_cases c4 : start > n.2.1 ∧ end_ ≥ n.2.2
              · -- cut the end of the range off
                simp only [c4, and_self, if_true]
                have hrm : removeL start end_ ((n :: rest).map Prod.snd) =
                    (n.2.1, start - 1) :: removeL start end_ (rest.map Prod.snd) := by
                  simp only [List.map_cons, removeL]
                  rw [if_neg c1, if_neg c2, if_neg c3, if_pos c4]
                rw [hrm]
                obtain ⟨h', k', heq, hfr, hres⟩ := ih rest f (h.setEnd n.1 (start - 1))
                  (P ++ [(n.1, (n.2.1, start - 1))]) (h.get n.1).next (some n.1) hlen' hf'
                  (by
                    refine Seg_append.2 ⟨some n.1, Seg_congr ?_ hP, rfl, ?_, ?_, ?_⟩
                    · intro k hk
                      have : k.1 ≠ n.1 := fun e => hnP (e ▸ mem_fst hk)
                      simp [get_setEnd, this]
                    · simp [get_setEnd, hn_s]
                    · simp [get_setEnd]
                    · simp [Seg, get_setEnd])
                  (by
                    refine Seg_congr ?_ hrest
                    intro k hk
                    have : k.1 ≠ n.1 := fun e => hnR (e ▸ mem_fst hk)
                    simp [get_setEnd, this])
                  (by simpa using hnd) (by intro a ha; exact hib a (by simpa using ha))
                  (Or.inr ⟨P, _, rfl, rfl⟩) (by simp)
                refine ⟨h', k', heq, fun a ha => ?_, ?_⟩
                · rw [hfr a ha]
                  simp [get_setEnd, hnf a ha]
                simpa using hres
              · simp only [c4, if_false]
                by_cases c5 : end_ < n.2.2 ∧ start ≤ n.2.1
                · -- cut the start of the range off
                  simp only [c5, and_self, if_true]
                  have hrm : removeL start end_ ((n :: rest).map Prod.snd) =
                      (end_ + 1, n.2.2) :: rest.map Prod.snd := by
                    simp only [List.map_cons, removeL]
                    rw [if_neg c1, if_neg c2, if_neg c3, if_neg c4, if_pos c5]
                  rw [hrm]
                  refine ⟨_, set.next_item, rfl,
                    (fun a ha => by simp [get_setStart, hnf a ha]),
                    Or.inr ⟨le_refl _, by omega,
                    P ++ (n.1, (end_ + 1, n.2.2)) :: rest, by simp, ?_, by simpa using hnd,
                    by simpa using hib⟩⟩
                  refine Seg_append.2 ⟨some n.1, Seg_congr ?_ hP, rfl, ?_, ?_, ?_⟩
                  · intro k hk
                    have : k.1 ≠ n.1 := fun e => hnP (e ▸ mem_fst hk)
                    simp [get_setStart, this]
                  · simp [get_setStart]
                  · simp [get_setStart, hn_e]
                  · simp only [get_setStart, if_true]
                    refine Seg_congr ?_ hrest
                    intro k hk
                    have : k.1 ≠ n.1 := fun e => hnR (e ▸ mem_fst hk)
                    simp [get_setStart, this]
                · simp only [c5, if_false]
                  have c6 : start > n.2.1 ∧ end_ < n.2.2 := by
                    constructor <;> by_contra hc <;> (apply c3; constructor <;> omega)
                  -- split the range in two
                  simp only [c6, and_self, if_true, next_nogrow f h set hn1 hn2]
                  have hrm : removeL start end_ ((n :: rest).map Prod.snd) =
                      (n.2.1, start - 1) :: (end_ + 1, n.2.2) :: rest.map Prod.snd := by
                    simp only [List.map_cons, removeL]
                    rw [if_neg c1, if_neg c2, if_neg c3, if_neg c4, if_neg c5]
                  rw [hrm]
                  obtain ⟨f1, f2, f3, f4, f5, f6, f7⟩ := addr_insert hnd hib
                  refine ⟨_, set.next_item + 1, rfl,
                    (fun a ha => by
                      have h2 : a ≠ (set.first, set.next_item + 1) := fun e => ha (e ▸ rfl)
                      simp [get_setNext, get_setStart, get_setEnd, hnf a ha, h2]),
                    Or.inr ⟨by omega, le_refl _,
                    P ++ (n.1, (n.2.1, start - 1)) ::
                      ((set.first, set.next_item + 1), (end_ + 1, n.2.2)) :: rest,
                    by simp, ?_, by simpa using f6, by simpa using f7⟩⟩
                  refine Seg_insert (h := h) (i := (h.get n.1).next) hP hrest f4 f5 f1 f3 ?_ ?_ ?_
                  · simp [get_setNext, get_setStart, get_setEnd, f2, Ne.symm f2, hn_e]
                  · simp [get_setNext, get_setStart, get_setEnd, f2, Ne.symm f2, hn_s]
                  · intro a h1 h2
                    simp [get_setNext, get_setStart, get_setEnd, h1, h2]

/-- What `charclass_remove` does to a stored chain: the set afterwards stores
`removeL start end_ l`, and no node outside the set's own array is written. -/
theorem charclass_remove_frame (fuel : Nat) (h : Heap) (set : charclass)
    (l : List (Int × Int)) (start end_ : Int) (hst : Stored h set l) (hse : start ≤ end_)
    (hng : set.next_item + 1 < set.max_item) (hf : l.length < fuel) :
    ∃ h' k', charclass_remove fuel h set start end_ = .ok (h', { set with next_item := k' }) ∧
      k' ≤ set.next_item + 1 ∧
      Stored h' { set with next_item := k' } (removeL start end_ l) ∧
      ∀ a : Nat × Nat, a.1 ≠ set.first → h'.get a = h.get a := by
  have hnot : ¬ start > end_ := by omega
  rcases hst with ⟨h0, hl⟩ | ⟨h1, ns, hr, hseg, hnd, hib⟩
  · subst hl
    refine ⟨h, set.next_item, ?_, by omega, Or.inl ⟨h0, rfl⟩, fun _ _ => rfl⟩
    unfold charclass_remove
    rw [if_neg hnot, if_pos h0]
  · have hne : ¬ set.next_item = 0 := by omega
    have hlen : ns.length < fuel := by
      have := congrArg List.length hr
      simp only [List.length_map] at this
      omega
    have hns : ns ≠ [] := by
      intro e; subst e
      exact absurd hseg (by simp [Seg])
    obtain ⟨h', k', heq, hfr, hres⟩ :=
      remove_loop_sim start end_ set (some (set.first, 0)) h1 hng ns.length ns fuel h []
        (some (set.first, 0)) none rfl hlen rfl hseg (by simpa using hnd) (by simpa using hib)
        (Or.inl ⟨rfl, rfl⟩) (by simpa using hns)
    refine ⟨h', k', ?_, ?_, ?_, hfr⟩
    · unfold charclass_remove
      simp only [hnot, if_false, hne, heq]
    · rcases hres with ⟨_, e⟩ | ⟨_, e, _⟩ <;> omega
    · rcases hres with ⟨e1, e2⟩ | ⟨e1, e2, ns', e3, e4, e5, e6⟩
      · refine Or.inl ⟨e2, ?_⟩
        rw [← hr]; simpa using e1
      · refine Or.inr ⟨by simp only; omega, ns', ?_, e4, e5, e6⟩
        rw [e3, ← hr]; simp

/-- What `charclass_remove` does to a stored chain: the set afterwards stores
`removeL start end_ l`. -/
theorem charclass_remove_sim (fuel : Nat) (h : Heap) (set : charclass) (l : List (Int × Int))
    (start end_ : Int) (hst : Stored h set l) (hse : start ≤ end_)
    (hng : set.next_item + 1 < set.max_item) (hf : l.length < fuel) :
    ∃ h' k', charclass_remove fuel h set start end_ = .ok (h', { set with next_item := k' }) ∧
      k' ≤ set.next_item + 1 ∧
      Stored h' { set with next_item := k' } (removeL start end_ l) := by
  obtain ⟨h', k', q1, q2, q3, _⟩ :=
    charclass_remove_frame fuel h set l start end_ hst hse hng hf
  exact ⟨h', k', q1, q2, q3⟩

theorem removeL_sub (start end_ : Int) :
    ∀ (l : List (Int × Int)), ∀ t ∈ removeL start end_ l, ∃ s ∈ l, s.1 ≤ t.1 ∧ t.2 ≤ s.2 := by
  intro l
  induction l with
  | nil => intro t ht; simp [removeL] at ht
  | cons r rs ih =>
    intro t ht
    simp only [removeL] at ht
    split_ifs at ht with c1 c2 c3 c4 c5
    · exact ⟨t, ht, le_refl _, le_refl _⟩
    · rw [List.mem_cons] at ht
      rcases ht with rfl | ht
      · exact ⟨t, List.mem_cons_self _ _, le_refl _, le_refl _⟩
      · obtain ⟨s, hs, h1⟩ := ih t ht
        exact ⟨s, List.mem_cons_of_mem _ hs, h1⟩
    · obtain ⟨s, hs, h1⟩ := ih t ht
      exact ⟨s, List.mem_cons_of_mem _ hs, h1⟩
    · rw [List.mem_cons] at ht
      rcases ht with rfl | ht
      · exact ⟨r, List.mem_cons_self _ _, le_refl _, by simp only; omega⟩
      · obtain ⟨s, hs, h1⟩ := ih t ht
        exact ⟨s, List.mem_cons_of_mem _ hs, h1⟩
    · rw [List.mem_cons] at ht
      rcases ht with rfl | ht
      · exact ⟨r, List.mem_cons_self _ _, by simp only; omega, le_refl _⟩
      · exact ⟨t, List.mem_cons_of_mem _ ht, le_refl _, le_refl _⟩
    · rw [List.mem_cons] at ht
      rcases ht with rfl | ht
      · exact ⟨r, List.mem_cons_self _ _, le_refl _, by simp only; omega⟩
      · rw [List.mem_cons] at ht
        rcases ht with rfl | ht
        · exact ⟨r, List.mem_cons_self _ _, by simp only; omega, le_refl _⟩
        · exact ⟨t, List.mem_cons_of_mem _ ht, le_refl _, le_refl _⟩

theorem removeL_spec (start end_ : Int) (hse : start ≤ end_) :
    ∀ (l : List (Int × Int)), WellFormed l →
      WellFormed (removeL start end_ l) ∧
      (∀ x, Covers (removeL start end_ l) x ↔ Covers l x ∧ ¬ (start ≤ x ∧ x ≤ end_)) := by
  intro l
  induction l with
  | nil =>
    intro _
    exact ⟨by simp [removeL, wellFormed_nil], fun x => by simp [removeL, covers_nil]⟩
  | cons r rs ih =>
    intro hwf
    obtain ⟨hr, hgap, hwf'⟩ := wellFormed_cons.1 hwf
    obtain ⟨i1, i2⟩ := ih hwf'
    have hgap' : ∀ t ∈ removeL start end_ rs, r.2 + 1 < t.1 := by
      intro t ht
      obtain ⟨s, hs, h1, _⟩ := removeL_sub start end_ rs t ht
      have := hgap s hs
      omega
    have hrs_gt : ∀ x, Covers rs x → r.2 + 1 < x := by
      rintro x ⟨s, hs, h1, _⟩
      have := hgap s hs
      omega
    simp only [removeL]
    split_ifs with c1 c2 c3 c4 c5
    · refine ⟨hwf, fun x => ?_⟩
      constructor
      · intro hc
        refine ⟨hc, ?_⟩
        rw [covers_cons] at hc
        rcases hc with hc | hc
        · omega
        · have := hrs_gt x hc; omega
      · exact fun hc => hc.1
    · refine ⟨wellFormed_cons.2 ⟨hr, hgap', i1⟩, fun x => ?_⟩
      rw [covers_cons, covers_cons, i2 x]
      constructor
      · rintro (hc | hc)
        · exact ⟨Or.inl hc, by omega⟩
        · exact ⟨Or.inr hc.1, hc.2⟩
      · rintro ⟨hc | hc, hn⟩
        · exact Or.inl hc
        · exact Or.inr ⟨hc, hn⟩
    · refine ⟨i1, fun x => ?_⟩
      rw [covers_cons, i2 x]
      constructor
      · rintro ⟨hc, hn⟩
        exact ⟨Or.inr hc, hn⟩
      · rintro ⟨hc | hc, hn⟩
        · exact absurd ⟨by omega, by omega⟩ hn
        · exact ⟨hc, hn⟩
    · refine ⟨wellFormed_cons.2 ⟨by simp only; omega, fun t ht => by
        have := hgap' t ht; simp only; omega, i1⟩, fun x => ?_⟩
      rw [covers_cons, covers_cons, i2 x]
      simp only
      constructor
      · rintro (hc | hc)
        · exact ⟨Or.inl ⟨hc.1, by omega⟩, by omega⟩
        · exact ⟨Or.inr hc.1, hc.2⟩
      · rintro ⟨hc | hc, hn⟩
        · refine Or.inl ⟨hc.1, ?_⟩
          by_contra hx
          exact hn ⟨by omega, by omega⟩
        · exact Or.inr ⟨hc, hn⟩
    · refine ⟨wellFormed_cons.2 ⟨by simp only; omega, fun t ht => by
        have := hgap t ht; simp only; omega, hwf'⟩, fun x => ?_⟩
      rw [covers_cons, covers_cons]
      simp only
      constructor
      · rintro (hc | hc)
        · exact ⟨Or.inl ⟨by omega, hc.2⟩, by omega⟩
        · have := hrs_gt x hc
          exact ⟨Or.inr hc, by omega⟩
      · rintro ⟨hc | hc, hn⟩
        · refine Or.inl ⟨?_, hc.2⟩
          by_contra hx
          exact hn ⟨by omega, by omega⟩
        · exact Or.inr hc
    · have c6 : start > r.1 ∧ end_ < r.2 := by
        constructor <;> by_contra hc <;> (apply c3; constructor <;> omega)
      refine ⟨wellFormed_cons.2 ⟨by simp only; omega, ?_,
        wellFormed_cons.2 ⟨by simp only; omega, fun t ht => by
          have := hgap t ht; simp only; omega, hwf'⟩⟩, fun x => ?_⟩
      · intro t ht
        rw [List.mem_cons] at ht
        rcases ht with rfl | ht
        · simp only; omega
        · have := hgap t ht; simp only; omega
      · rw [covers_cons, covers_cons, covers_cons]
        simp only
        constructor
        · rintro (hc | hc | hc)
          · exact ⟨Or.inl ⟨hc.1, by omega⟩, by omega⟩
          · exact ⟨Or.inl ⟨by omega, hc.2⟩, by omega⟩
          · have := hrs_gt x hc
            exact ⟨Or.inr hc, by omega⟩
        · rintro ⟨hc | hc, hn⟩
          · by_cases hx : x < start
            · exact Or.inl ⟨hc.1, by omega⟩
            · refine Or.inr (Or.inl ⟨?_, hc.2⟩)
              by_contra hx2
              exact hn ⟨by omega, by omega⟩
          · exact Or.inr (Or.inr hc)

theorem wellFormed_covers_ne_nil {l : List (Int × Int)} (hwf : WellFormed l) (hne : l ≠ []) :
    ∃ x, Covers l x := by
  match l, hne with
  | r :: rs, _ =>
    exact ⟨r.1, r, List.mem_cons_self _ _, le_refl _, hwf.1 r (List.mem_cons_self _ _)⟩

theorem stored_next_item_zero {h : Heap} {set : charclass} {l : List (Int × Int)}
    (hst : Stored h set l) : set.next_item = 0 ↔ l = [] := by
  rcases hst with ⟨h0, hl⟩ | ⟨h1, ns, hr, hseg, _, _⟩
  · simp [h0, hl]
  · have hns : ns ≠ [] := by
      intro e; subst e
      exact absurd hseg (by simp [Seg])
    have : l ≠ [] := by
      rw [← hr]; simpa using hns
    constructor
    · intro e; omega
    · intro e; exact absurd e this

/-- The canonical difference computed by `charclass_remove`, away from storage growth.
Let a well-formed set be stored in its own array, which has never grown (`max_item` is
at most the size of the array) and has a free node left (`next_item + 1 < max_item`).
Then for every `start <= end` the call returns and the nodes in use stay inside the
array; afterwards the set is empty (`next_item` is 0) exactly when every value the set
covered lay in `[start, end]`, and the chain it stores is well-formed and covers
exactly the values that were covered before and lie outside `[start, end]`. -/
theorem charclass_remove_difference (fuel : Nat) (h : Heap) (set : charclass)
    (l : List (Int × Int)) (start end_ : Int)
    (hst : Stored h set l) (hwf : WellFormed l) (hse : start ≤ end_)
    (hng : set.next_item + 1 < set.max_item) (hsz : set.max_item ≤ h.size set.first)
    (hf : l.length < fuel) :
    ∃ h' set' l', charclass_remove fuel h set start end_ = Except.ok (h', set') ∧
      set'.next_item < h.size set.first ∧
      Stored h' set' l' ∧
      (set'.next_item = 0 ↔ ∀ x, Covers l x → start ≤ x ∧ x ≤ end_) ∧
      WellFormed l' ∧
      (∀ x, Covers l' x ↔ Covers l x ∧ ¬ (start ≤ x ∧ x ≤ end_)) := by
  obtain ⟨h', k', heq, hk, hst'⟩ := charclass_remove_sim fuel h set l start end_ hst hse hng hf
  obtain ⟨r1, r2⟩ := removeL_spec start end_ hse l hwf
  refine ⟨h', _, removeL start end_ l, heq, by simp only; omega, hst', ?_, r1, r2⟩
  rw [stored_next_item_zero hst']
  constructor
  · intro e x hc
    by_contra hn
    have := (r2 x).2 ⟨hc, hn⟩
    rw [e, covers_nil] at this
    exact this
  · intro hall
    by_contra hne
    obtain ⟨x, hx⟩ := wellFormed_covers_ne_nil r1 hne
    have := (r2 x).1 hx
    exact this.2 (hall x this.1)

theorem charclass_remove_difference_witness :
    Stored (buildSet [(5, 10), (20, 25)]).1 (buildSet [(5, 10), (20, 25)]).2 [(5, 10), (20, 25)] ∧
    WellFormed [(5, 10), (20, 25)] ∧
    (∃ h' set', charclass_remove 3 (buildSet [(5, 10), (20, 25)]).1
        (buildSet [(5, 10), (20, 25)]).2 7 22 = Except.ok (h', set') ∧
      charclass.ranges 3 h' set' = [(5, 6), (23, 25)]) ∧
    ∃ h' set' l', charclass_remove 3 (buildSet [(5, 10), (20, 25)]).1
        (buildSet [(5, 10), (20, 25)]).2 7 22 = Except.ok (h', set') ∧
      set'.next_item < (buildSet [(5, 10), (20, 25)]).1.size
        (buildSet [(5, 10), (20, 25)]).2.first ∧
      Stored h' set' l' ∧
      (set'.next_item = 0 ↔ ∀ x, Covers [(5, 10), (20, 25)] x → (7 : Int) ≤ x ∧ x ≤ 22) ∧
      WellFormed l' ∧
      (∀ x, Covers l' x ↔ Covers [(5, 10), (20, 25)] x ∧ ¬ ((7 : Int) ≤ x ∧ x ≤ 22)) :=
  have hst : Stored (buildSet [(5, 10), (20, 25)]).1 (buildSet [(5, 10), (20, 25)]).2
      [(5, 10), (20, 25)] :=
    Or.inr ⟨by decide, [((0, 0), (5, 10)), ((0, 2), (20, 25))], rfl,
      ⟨rfl, rfl, rfl, rfl, rfl, rfl, rfl⟩, by decide, by decide⟩
  have hwf : WellFormed [(5, 10), (20, 25)] := by unfold WellFormed; decide
  ⟨hst, hwf, ⟨_, _, rfl, by decide⟩,
    charclass_remove_difference 3 _ _ _ 7 22 hst hwf (by decide) (by decide) (by decide)
      (by decide)⟩

theorem negate_loop_sim (max : Int) :
    ∀ (rest : List Node) (n : Node) (fuel : Nat) (h : Heap),
      (n :: rest).length < fuel →
      Seg h (some n.1) none (n :: rest) →
      ((n :: rest).map Prod.fst).Nodup →
      ∃ h' ns, charclass_negate_loop fuel h max (some n.1) = .ok h' ∧
        ns.map Prod.snd = negLoopL max ((n :: rest).map Prod.snd) ∧
        Seg h' (some n.1) none ns ∧
        (ns.map Prod.fst).Sublist ((n :: rest).map Prod.fst) ∧
        ∀ a, a ∉ (n :: rest).map Prod.fst → h'.get a = h.get a := by
  intro rest
  induction rest with
  | nil =>
    intro n fuel h hf hS hnd
    obtain ⟨_, hn_s, hn_e, hnx⟩ := hS
    have hnx' : (h.get n.1).next = none := hnx
    match fuel, hf with
    | f + 2, _ =>
      refine ⟨(h.setStart n.1 (n.2.2 + 1)).setEnd n.1 max, [(n.1, (n.2.2 + 1, max))], ?_, ?_, ?_,
        ?_, ?_⟩
      · simp only [charclass_negate_loop, hnx', hn_e]
      · simp [negLoopL]
      · simp [Seg, get_setStart, get_setEnd, hnx']
      · simp
      · intro a ha
        have : a ≠ n.1 := by
          intro e; apply ha; simp [e]
        simp [get_setStart, get_setEnd, this]
  | cons nx rest ih =>
    intro n fuel h hf hS hnd
    obtain ⟨_, hn_s, hn_e, hnxp, hx_s, hx_e, hrest⟩ := hS
    simp only [List.map_cons, List.nodup_cons, List.mem_cons, not_or] at hnd
    obtain ⟨⟨hne, hnR⟩, hxR, hndR⟩ := hnd
    match fuel, hf with
    | f + 1, hf =>
      have hf' : (nx :: rest).length < f := by
        simp only [List.length_cons] at hf ⊢; omega
      by_cases hmax : nx.2.2 = max
      · refine ⟨((h.setStart n.1 (n.2.2 + 1)).setEnd n.1 (nx.2.1 - 1)).setNext n.1 none,
          [(n.1, (n.2.2 + 1, nx.2.1 - 1))], ?_, ?_, ?_, ?_, ?_⟩
        · simp only [charclass_negate_loop, hnxp, hn_e, get_setStart, get_setEnd,
            Ne.symm hne, if_false, hx_s, hx_e, hmax, if_true]
        · simp only [List.map_cons, negLoopL]
          rw [if_pos hmax]
          rfl
        · simp [Seg, get_setNext, get_setStart, get_setEnd]
        · simp
        · intro a ha
          have : a ≠ n.1 := by
            intro e; apply ha; simp [e]
          simp [get_setNext, get_setStart, get_setEnd, this]
      · have hS' : Seg ((h.setStart n.1 (n.2.2 + 1)).setEnd n.1 (nx.2.1 - 1)) (some nx.1) none
            (nx :: rest) := by
          refine Seg_congr ?_ (show Seg h (some nx.1) none (nx :: rest) from ⟨rfl, hx_s, hx_e, hrest⟩)
          intro k hk
          have : k.1 ≠ n.1 := by
            intro e
            rw [List.mem_cons] at hk
            rcases hk with rfl | hk
            · exact hne e.symm
            · exact hnR (e ▸ mem_fst hk)
          simp [get_setStart, get_setEnd, this]
        obtain ⟨h', ns, heq, hr, hseg, hsub, hfr⟩ := ih nx f _ hf' hS'
          (by simp only [List.map_cons, List.nodup_cons]; exact ⟨hxR, hndR⟩)
        have hn_not : n.1 ∉ (nx :: rest).map Prod.fst := by
          simp only [List.map_cons, List.mem_cons, not_or]
          exact ⟨hne, hnR⟩
        have hcell := hfr n.1 hn_not
        refine ⟨h', (n.1, (n.2.2 + 1, nx.2.1 - 1)) :: ns, ?_, ?_, ?_, ?_, ?_⟩
        · simp only [charclass_negate_loop, hnxp, hn_e, get_setStart, get_setEnd,
            Ne.symm hne, if_false, hx_s, hx_e, hmax]
          exact heq
        · simp only [List.map_cons, negLoopL]
          rw [if_neg hmax]
          simp only [List.map_cons] at hr
          rw [hr]
        · refine ⟨rfl, ?_, ?_, ?_⟩
          · rw [hcell]; simp [get_setStart, get_setEnd]
          · rw [hcell]; simp [get_setStart, get_setEnd]
          · rw [hcell]
            simp only [get_setStart, get_setEnd, if_true, hnxp]
            exact hseg
        · simp only [List.map_cons]
          exact List.Sublist.cons₂ _ (by simpa using hsub)
        · intro a ha
          simp only [List.map_cons, List.mem_cons, not_or] at ha
          rw [hfr a (by simp only [List.map_cons, List.mem_cons, not_or]; exact ⟨ha.2.1, ha.2.2⟩)]
          simp [get_setStart, get_setEnd, ha.1]

/-- What `charclass_negate` does to the stored chain of a non-empty set: the set
afterwards stores `negateL max l`, `max` being the top of the domain. -/
theorem charclass_negate_sim (fuel : Nat) (h : Heap) (set : charclass) (l : List (Int × Int))
    (sf_unicode : Bool) (csize : Int) (hst : Stored h set l) (hl : l ≠ [])
    (hng : set.next_item + 1 < set.max_item) (hf : l.length + 1 < fuel) :
    ∃ h' k', charclass_negate fuel h set sf_unicode csize =
        .ok (h', { set with next_item := k' }) ∧ k' ≤ set.next_item + 1 ∧
      Stored h' { set with next_item := k' }
        (negateL (if sf_unicode then UNICODE_MAX else csize - 1) l) := by
  rcases hst with ⟨_, hl0⟩ | ⟨h1, ns, hr, hseg, hnd, hib⟩
  · exact absurd hl0 hl
  have hne : ¬ set.next_item = 0 := by omega
  have hlen : ns.length = l.length := by
    have := congrArg List.length hr
    simpa using this
  match ns, hr, hseg, hnd, hib, hlen with
  | [], _, hseg, _, _, _ => exact absurd hseg (by simp [Seg])
  | nf :: nrest, hr, hseg, hnd, hib, hlen =>
    obtain ⟨hc, hf_s, hf_e, hrest⟩ := hseg
    have hc' : nf.1 = (set.first, 0) := (Option.some.inj hc).symm
    subst hr
    generalize hmax : (if sf_unicode then UNICODE_MAX else csize - 1) = max
    simp only [List.map_cons, List.nodup_cons] at hnd
    obtain ⟨hcR, hndR⟩ := hnd
    unfold charclass_negate
    simp only [hne, if_false, hmax, ← hc', hf_s, hf_e]
    by_cases c1 : nf.2.1 > 0
    · simp only [c1, if_true]
      by_cases c2 : nf.2.2 = max
      · -- the first range reaches the top of the domain
        simp only [c2, ne_eq, not_true_eq_false, if_false]
        refine ⟨_, set.next_item, rfl, by omega, Or.inr ⟨h1,
          (nf.1, (0, nf.2.1 - 1)) :: nrest, ?_, ?_, ?_, ?_⟩⟩
        · simp only [List.map_cons, negateL]
          rw [if_pos c1, if_neg (by simpa using c2)]
        · refine ⟨by rw [hc'], by simp [get_setStart, get_setEnd],
            by simp [get_setStart, get_setEnd], ?_⟩
          simp only [get_setStart, get_setEnd, if_true]
          refine Seg_congr ?_ hrest
          intro k hk
          have : k.1 ≠ nf.1 := fun e => hcR (e ▸ mem_fst hk)
          simp [get_setStart, get_setEnd, this]
        · simp only [List.map_cons, List.nodup_cons]; exact ⟨hcR, hndR⟩
        · simpa using hib
      · -- a new item holding the first range is inserted after the first
        simp only [c2, ne_eq, not_false_eq_true, if_true,
          next_nogrow fuel _ set h1 hng]
        have hib' : ∀ a ∈ ([] : List (Nat × Nat)) ++ nf.1 :: nrest.map Prod.fst,
            a.1 = set.first ∧ a.2 ≤ set.next_item := by simpa using hib
        obtain ⟨_, f2, f3, _, _, f6, f7⟩ := addr_insert (P := []) (x := nf.1)
          (S := nrest.map Prod.fst)
          (by simp only [List.nil_append, List.nodup_cons]; exact ⟨hcR, hndR⟩) hib'
        generalize hH : (((((((h.setStart nf.1 0).setEnd nf.1 (nf.2.1 - 1)).setNext
            (set.first, set.next_item + 1) none).setNext (set.first, set.next_item + 1)
            ((((h.setStart nf.1 0).setEnd nf.1 (nf.2.1 - 1)).setNext
              (set.first, set.next_item + 1) none).get nf.1).next).setStart
            (set.first, set.next_item + 1) nf.2.1).setEnd
            (set.first, set.next_item + 1) nf.2.2).setNext
            nf.1 (some (set.first, set.next_item + 1))) = H
        have g1 : H.get (set.first, set.next_item + 1) = ⟨(h.get nf.1).next, nf.2.1, nf.2.2⟩ := by
          rw [← hH]
          simp [get_setNext, get_setStart, get_setEnd, f2, Ne.symm f2]
        have g2 : H.get nf.1 = ⟨some (set.first, set.next_item + 1), 0, nf.2.1 - 1⟩ := by
          rw [← hH]
          simp [get_setNext, get_setStart, get_setEnd, f2, Ne.symm f2]
        have g3 : ∀ a, a ≠ (set.first, set.next_item + 1) → a ≠ nf.1 → H.get a = h.get a := by
          intro a h1 h2
          rw [← hH]
          simp [get_setNext, get_setStart, get_setEnd, h1, h2]
        have hS : Seg H (some (set.first, set.next_item + 1)) none
            (((set.first, set.next_item + 1), nf.2) :: nrest) := by
          refine ⟨rfl, by rw [g1], by rw [g1], ?_⟩
          rw [g1]
          refine Seg_congr ?_ hrest
          intro k hk
          apply g3
          · intro e; exact f3 (e ▸ mem_fst hk)
          · intro e; exact hcR (e ▸ mem_fst hk)
        have hnd2 : ((((set.first, set.next_item + 1), nf.2) :: nrest).map Prod.fst).Nodup := by
          simp only [List.map_cons, List.nodup_cons]
          exact ⟨f3, hndR⟩
        obtain ⟨h', ns', heq, hr', hseg', hsub, hfr⟩ :=
          negate_loop_sim max nrest ((set.first, set.next_item + 1), nf.2) fuel H
            (by simp only [List.length_cons] at hlen ⊢; omega) hS hnd2
        have hc_not : nf.1 ∉ (((set.first, set.next_item + 1), nf.2) :: nrest).map Prod.fst := by
          simp only [List.map_cons, List.mem_cons, not_or]
          exact ⟨Ne.symm f2, hcR⟩
        refine ⟨h', set.next_item + 1, by rw [heq], le_refl _, Or.inr ⟨by simp,
          (nf.1, (0, nf.2.1 - 1)) :: ns', ?_, ?_, ?_, ?_⟩⟩
        · simp only [List.map_cons, negateL]
          rw [if_pos c1, if_pos (by simpa using c2), hr']
          simp
        · have hcell := hfr nf.1 hc_not
          refine ⟨by rw [hc'], by rw [hcell, g2], by rw [hcell, g2], ?_⟩
          rw [hcell, g2]
          exact hseg'
        · simp only [List.map_cons, List.nodup_cons]
          exact ⟨fun hm => hc_not (hsub.subset hm), hnd2.sublist hsub⟩
        · intro a ha
          simp only [List.map_cons, List.mem_cons] at ha
          rcases ha with e | ha
          · rw [e]; exact f7 nf.1 (by simp)
          · have := hsub.subset ha
            simp only [List.map_cons, List.mem_cons] at this
            rcases this with e | this
            · rw [e]; exact ⟨rfl, le_refl _⟩
            · exact f7 a (by simp [this])
    · simp only [c1, if_false]
      by_cases c2 : nf.2.2 = max
      · -- the set spans the whole domain
        simp only [c2, if_true]
        refine ⟨h, 0, rfl, by omega, Or.inl ⟨rfl, ?_⟩⟩
        simp only [List.map_cons, negateL]
        rw [if_neg c1, if_pos c2]
      · simp only [c2, if_false]
        have hS : Seg h (some nf.1) none (nf :: nrest) := ⟨rfl, hf_s, hf_e, hrest⟩
        have hnd2 : ((nf :: nrest).map Prod.fst).Nodup := by
          simp only [List.map_cons, List.nodup_cons]
          exact ⟨hcR, hndR⟩
        obtain ⟨h', ns', heq, hr', hseg', hsub, hfr⟩ :=
          negate_loop_sim max nrest nf fuel h (by omega) hS hnd2
        refine ⟨h', set.next_item, by rw [heq], by omega, Or.inr ⟨h1, ns', ?_, ?_, ?_, ?_⟩⟩
        · rw [hr']
          simp only [List.map_cons, negateL]
          rw [if_neg c1, if_neg c2]
        · rw [← hc']; exact hseg'
        · exact hnd2.sublist hsub
        · intro a ha
          exact hib a (hsub.subset ha)

theorem negLoopL_spec (max : Int) :
    ∀ (rs : List (Int × Int)) (c : Int × Int),
      WellFormed (c :: rs) → (∀ r ∈ c :: rs, r.2 ≤ max) → c.2 < max →
      WellFormed (negLoopL max (c :: rs)) ∧
      (∀ t ∈ negLoopL max (c :: rs), c.2 + 1 ≤ t.1 ∧ t.2 ≤ max) ∧
      negLoopL max (c :: rs) ≠ [] ∧
      (∀ x, c.2 < x → x ≤ max → (Covers (negLoopL max (c :: rs)) x ↔ ¬ Covers rs x)) := by
  intro rs
  induction rs with
  | nil =>
    intro c _ _ hc
    refine ⟨?_, ?_, ?_, ?_⟩
    · simp only [negLoopL]
      exact wellFormed_cons.2 ⟨by simp only; omega, by simp, wellFormed_nil⟩
    · intro t ht
      simp only [negLoopL, List.mem_singleton] at ht
      subst ht
      simp
    · simp [negLoopL]
    · intro x h1 h2
      simp only [negLoopL, covers_cons, covers_nil]
      constructor
      · intro _ hf; exact hf
      · intro _; exact Or.inl ⟨by omega, h2⟩
  | cons nx rs ih =>
    intro c hwf hb hc
    obtain ⟨hcv, hgap, hwf'⟩ := wellFormed_cons.1 hwf
    obtain ⟨hnv, hgap', hwf''⟩ := wellFormed_cons.1 hwf'
    have hg1 := hgap nx (List.mem_cons_self _ _)
    have hnb := hb nx (List.mem_cons_of_mem _ (List.mem_cons_self _ _))
    have hrs_gt : ∀ x, Covers rs x → nx.2 + 1 < x := by
      rintro x ⟨s, hs, h1, _⟩
      have := hgap' s hs
      omega
    by_cases hmax : nx.2 = max
    · have e : negLoopL max (c :: nx :: rs) = [(c.2 + 1, nx.1 - 1)] := by
        simp only [negLoopL]; rw [if_pos hmax]
      rw [e]
      refine ⟨wellFormed_cons.2 ⟨by simp only; omega, by simp, wellFormed_nil⟩, ?_, by simp, ?_⟩
      · intro t ht
        simp only [List.mem_singleton] at ht
        subst ht
        simp only; omega
      · intro x h1 h2
        simp only [covers_cons, covers_nil, or_false]
        constructor
        · rintro ⟨_, h3⟩ (h4 | h4)
          · omega
          · have := hrs_gt x h4; omega
        · intro hn
          refine ⟨by omega, ?_⟩
          by_contra h3
          exact hn (Or.inl ⟨by omega, by omega⟩)
    · have e : negLoopL max (c :: nx :: rs) = (c.2 + 1, nx.1 - 1) :: negLoopL max (nx :: rs) := by
        simp only [negLoopL]; rw [if_neg hmax]
      rw [e]
      obtain ⟨i1, i2, _, i4⟩ := ih nx hwf' (fun r hr => hb r (List.mem_cons_of_mem _ hr))
        (lt_of_le_of_ne hnb hmax)
      refine ⟨wellFormed_cons.2 ⟨by simp only; omega, fun t ht => by
        have := (i2 t ht).1; simp only; omega, i1⟩, ?_, by simp, ?_⟩
      · intro t ht
        rw [List.mem_cons] at ht
        rcases ht with rfl | ht
        · simp only; omega
        · have := i2 t ht; omega
      · intro x h1 h2
        rw [covers_cons, covers_cons]
        simp only
        by_cases hx : nx.2 < x
        · rw [i4 x hx h2]
          constructor
          · rintro (h3 | h3)
            · omega
            · rintro (h4 | h4)
              · omega
              · exact h3 h4
          · intro hn
            exact Or.inr (fun h4 => hn (Or.inr h4))
        · have hnt : ¬ Covers (negLoopL max (nx :: rs)) x := by
            rintro ⟨t, ht, h3, _⟩
            have := (i2 t ht).1
            omega
          constructor
          · rintro (h3 | h3)
            · rintro (h4 | h4)
              · omega
              · have := hrs_gt x h4; omega
            · exact absurd h3 hnt
          · intro hn
            refine Or.inl ⟨by omega, ?_⟩
            by_contra h3
            exact hn (Or.inl ⟨by omega, by omega⟩)

theorem wellFormed_top_last {max : Int} {f : Int × Int} {rs : List (Int × Int)}
    (hwf : WellFormed (f :: rs)) (hb : ∀ r ∈ f :: rs, r.2 ≤ max) (hf : f.2 = max) : rs = [] := by
  match rs with
  | [] => rfl
  | s :: rs' =>
    exfalso
    obtain ⟨_, hgap, hwf'⟩ := wellFormed_cons.1 hwf
    have h1 := hgap s (List.mem_cons_self _ _)
    have h2 := hb s (List.mem_cons_of_mem _ (List.mem_cons_self _ _))
    have h3 := hwf'.1 s (List.mem_cons_self _ _)
    omega

theorem negateL_spec (max : Int) (l : List (Int × Int)) (hwf : WellFormed l) (hl : l ≠ [])
    (hin : ∀ r ∈ l, 0 ≤ r.1 ∧ r.2 ≤ max) :
    (negateL max l = [] ↔ l = [(0, max)]) ∧
    WellFormed (negateL max l) ∧
    (∀ t ∈ negateL max l, 0 ≤ t.1 ∧ t.2 ≤ max) ∧
    (∀ x, 0 ≤ x → x ≤ max → (Covers (negateL max l) x ↔ ¬ Covers l x)) := by
  match l, hl with
  | f :: rs, _ =>
    obtain ⟨hfv, hgap, hwf'⟩ := wellFormed_cons.1 hwf
    have hfb := hin f (List.mem_cons_self _ _)
    have hb : ∀ r ∈ f :: rs, r.2 ≤ max := fun r hr => (hin r hr).2
    have hrs_gt : ∀ x, Covers rs x → f.2 + 1 < x := by
      rintro x ⟨s, hs, h1, _⟩
      have := hgap s hs
      omega
    by_cases c1 : f.1 > 0
    · by_cases c2 : f.2 = max
      · have hrs := wellFormed_top_last hwf hb c2
        subst hrs
        have e : negateL max [f] = [(0, f.1 - 1)] := by
          simp only [negateL]; rw [if_pos c1, if_neg (by simpa using c2)]
        rw [e]
        refine ⟨?_, wellFormed_cons.2 ⟨by simp only; omega, by simp, wellFormed_nil⟩, ?_, ?_⟩
        · constructor
          · intro h; exact absurd h (by simp)
          · intro h
            have : f = (0, max) := by simpa using h
            rw [this] at c1
            simp at c1
        · intro t ht
          simp only [List.mem_singleton] at ht
          subst ht
          simp only; omega
        · intro x h1 h2
          simp only [covers_cons, covers_nil, or_false]
          constructor
          · rintro ⟨_, h3⟩ ⟨h4, _⟩; omega
          · intro hn
            refine ⟨h1, ?_⟩
            by_contra h3
            exact hn ⟨by omega, by omega⟩
      · have e : negateL max (f :: rs) = (0, f.1 - 1) :: negLoopL max (f :: rs) := by
          simp only [negateL]; rw [if_pos c1, if_pos (by simpa using c2)]
        rw [e]
        obtain ⟨i1, i2, _, i4⟩ := negLoopL_spec max rs f hwf hb (lt_of_le_of_ne hfb.2 c2)
        refine ⟨?_, wellFormed_cons.2 ⟨by simp only; omega, fun t ht => by
          have := (i2 t ht).1; simp only; omega, i1⟩, ?_, ?_⟩
        · constructor
          · intro h; exact absurd h (by simp)
          · intro h
            have : f = (0, max) := by
              have := congrArg List.head? h
              simpa using this
            rw [this] at c1
            simp at c1
        · intro t ht
          rw [List.mem_cons] at ht
          rcases ht with rfl | ht
          · simp only; omega
          · have := i2 t ht; omega
        · intro x h1 h2
          rw [covers_cons, covers_cons]
          simp only
          by_cases hx : f.2 < x
          · rw [i4 x hx h2]
            constructor
            · rintro (h3 | h3)
              · omega
              · rintro (h4 | h4)
                · omega
                · exact h3 h4
            · intro hn
              exact Or.inr (fun h4 => hn (Or.inr h4))
          · have hnt : ¬ Covers (negLoopL max (f :: rs)) x := by
              rintro ⟨t, ht, h3, _⟩
              have := (i2 t ht).1
              omega
            constructor
            · rintro (h3 | h3)
              · rintro (h4 | h4)
                · omega
                · have := hrs_gt x h4; omega
              · exact absurd h3 hnt
            · intro hn
              refine Or.inl ⟨h1, ?_⟩
              by_contra h3
              exact hn (Or.inl ⟨by omega, by omega⟩)
    · by_cases c2 : f.2 = max
      · have hrs := wellFormed_top_last hwf hb c2
        subst hrs
        have e : negateL max [f] = [] := by
          simp only [negateL]; rw [if_neg c1, if_pos c2]
        rw [e]
        refine ⟨?_, wellFormed_nil, by simp, ?_⟩
        · constructor
          · intro _
            have : f = (0, max) := Prod.ext (by simp only; omega) c2
            rw [this]
          · intro _; rfl
        · intro x h1 h2
          simp only [covers_cons, covers_nil, or_false, false_iff, not_not]
          exact ⟨by omega, by omega⟩
      · have e : negateL max (f :: rs) = negLoopL max (f :: rs) := by
          simp only [negateL]; rw [if_neg c1, if_neg c2]
        rw [e]
        obtain ⟨i1, i2, i3, i4⟩ := negLoopL_spec max rs f hwf hb (lt_of_le_of_ne hfb.2 c2)
        refine ⟨?_, i1, ?_, ?_⟩
        · constructor
          · intro h; exact absurd h i3
          · intro h
            have : f = (0, max) := by
              have := congrArg List.head? h
              simpa using this
            rw [this] at c2
            simp at c2
        · intro t ht
          have := i2 t ht
          omega
        · intro x h1 h2
          rw [covers_cons]
          by_cases hx : f.2 < x
          · rw [i4 x hx h2]
            constructor
            · rintro h3 (h4 | h4)
              · omega
              · exact h3 h4
            · intro hn h4
              exact hn (Or.inr h4)
          · constructor
            · rintro ⟨t, ht, h3, _⟩
              have := (i2 t ht).1
              omega
            · intro hn
              exact absurd (Or.inl ⟨by omega, by omega⟩) hn

/-- In a well-formed list no range covers the value just below or just above another
range: every range is a maximal run of the covered values. -/
theorem wellFormed_maximal {l : List (Int × Int)} (hwf : WellFormed l) :
    ∀ t ∈ l, ¬ Covers l (t.1 - 1) ∧ ¬ Covers l (t.2 + 1) := by
  have key : ∀ t ∈ l, ∀ s ∈ l, s = t ∨ s.2 + 1 < t.1 ∨ t.2 + 1 < s.1 := by
    have hp := hwf.2
    clear hwf
    induction l with
    | nil => intro t ht; simp at ht
    | cons a l ih =>
      rw [List.pairwise_cons] at hp
      intro t ht s hs
      rw [List.mem_cons] at ht hs
      rcases ht with rfl | ht <;> rcases hs with rfl | hs
      · exact Or.inl rfl
      · exact Or.inr (Or.inr (hp.1 s hs))
      · exact Or.inr (Or.inl (hp.1 t ht))
      · exact ih hp.2 t ht s hs
  intro t ht
  have htv := hwf.1 t ht
  constructor
  · rintro ⟨s, hs, h1, h2⟩
    have hsv := hwf.1 s hs
    rcases key t ht s hs with rfl | h | h <;> omega
  · rintro ⟨s, hs, h1, h2⟩
    have hsv := hwf.1 s hs
    rcases key t ht s hs with rfl | h | h <;> omega

/-- The complement computed by `charclass_negate` on a non-empty set, away from storage
growth.  Let a non-empty well-formed set whose ranges lie within `[0, max]` (`max` is
0x10FFFF in full-Unicode operation, else `csize - 1`) be stored in its own array, which
has never grown (`max_item` is at most the size of the array) and has a free node left
(`next_item + 1 < max_item`).  Then the call returns and the nodes in use stay inside
the array; the set is left empty if it was the single range `[0, max]`, and otherwise
the chain it stores is well-formed, lies within `[0, max]`, covers exactly the values
of `[0, max]` the set did not cover, and each of its ranges is a maximal run: it starts
at 0 or just above a value the set covered, and ends at `max` or just below one. -/
theorem charclass_negate_complement (fuel : Nat) (h : Heap) (set : charclass)
    (l : List (Int × Int)) (sf_unicode : Bool) (csize : Int)
    (hst : Stored h set l) (hl : l ≠ []) (hwf : WellFormed l)
    (hin : ∀ r ∈ l, 0 ≤ r.1 ∧ r.2 ≤ (if sf_unicode then UNICODE_MAX else csize - 1))
    (hng : set.next_item + 1 < set.max_item) (hsz : set.max_item ≤ h.size set.first)
    (hf : l.length + 1 < fuel) :
    ∃ h' set' l', charclass_negate fuel h set sf_unicode csize = Except.ok (h', set') ∧
      set'.next_item < h.size set.first ∧
      Stored h' set' l' ∧
      (l = [(0, if sf_unicode then UNICODE_MAX else csize - 1)] → set'.next_item = 0) ∧
      (l ≠ [(0, if sf_unicode then UNICODE_MAX else csize - 1)] →
        set'.next_item ≠ 0 ∧ WellFormed l' ∧
        (∀ t ∈ l', 0 ≤ t.1 ∧ t.2 ≤ (if sf_unicode then UNICODE_MAX else csize - 1)) ∧
        (∀ x, 0 ≤ x → x ≤ (if sf_unicode then UNICODE_MAX else csize - 1) →
          (Covers l' x ↔ ¬ Covers l x)) ∧
        (∀ t ∈ l', (t.1 = 0 ∨ Covers l (t.1 - 1)) ∧
          (t.2 = (if sf_unicode then UNICODE_MAX else csize - 1) ∨ Covers l (t.2 + 1)))) := by
  obtain ⟨h', k', heq, hk, hst'⟩ := charclass_negate_sim fuel h set l sf_unicode csize hst hl hng hf
  generalize (if sf_unicode then UNICODE_MAX else csize - 1) = max at hin hst' ⊢
  obtain ⟨n1, n2, n3, n4⟩ := negateL_spec max l hwf hl hin
  refine ⟨h', _, negateL max l, heq, by simp only; omega, hst', ?_, ?_⟩
  · intro e
    rw [stored_next_item_zero hst']
    exact n1.2 e
  · intro hne
    refine ⟨?_, n2, n3, n4, ?_⟩
    · intro e
      exact hne (n1.1 ((stored_next_item_zero hst').1 e))
    · intro t ht
      obtain ⟨m1, m2⟩ := wellFormed_maximal n2 t ht
      have hb := n3 t ht
      have hv := n2.1 t ht
      constructor
      · by_cases h0 : t.1 = 0
        · exact Or.inl h0
        · right
          by_contra hc
          exact m1 ((n4 (t.1 - 1) (by omega) (by omega)).2 hc)
      · by_cases h0 : t.2 = max
        · exact Or.inl h0
        · right
          by_contra hc
          exact m2 ((n4 (t.2 + 1) (by omega) (by omega)).2 hc)

theorem charclass_negate_complement_witness :
    Stored (buildSet [(65, 90)]).1 (buildSet [(65, 90)]).2 [(65, 90)] ∧
    (∃ h' set', charclass_negate 3 (buildSet [(65, 90)]).1 (buildSet [(65, 90)]).2 false 256 =
        Except.ok (h', set') ∧ charclass.ranges 3 h' set' = [(0, 64), (91, 255)]) ∧
    ∃ h' set' l', charclass_negate 3 (buildSet [(65, 90)]).1 (buildSet [(65, 90)]).2 false 256 =
        Except.ok (h', set') ∧
      set'.next_item < (buildSet [(65, 90)]).1.size (buildSet [(65, 90)]).2.first ∧
      Stored h' set' l' ∧
      (([(65, 90)] : List (Int × Int)) = [(0, if false then UNICODE_MAX else 256 - 1)] →
        set'.next_item = 0) ∧
      (([(65, 90)] : List (Int × Int)) ≠ [(0, if false then UNICODE_MAX else 256 - 1)] →
        set'.next_item ≠ 0 ∧ WellFormed l' ∧
        (∀ t ∈ l', 0 ≤ t.1 ∧ t.2 ≤ (if false then UNICODE_MAX else 256 - 1)) ∧
        (∀ x, 0 ≤ x → x ≤ (if false then UNICODE_MAX else 256 - 1) →
          (Covers l' x ↔ ¬ Covers [(65, 90)] x)) ∧
        (∀ t ∈ l', (t.1 = 0 ∨ Covers [(65, 90)] (t.1 - 1)) ∧
          (t.2 = (if false then UNICODE_MAX else 256 - 1) ∨ Covers [(65, 90)] (t.2 + 1)))) :=
  have hst : Stored (buildSet [(65, 90)]).1 (buildSet [(65, 90)]).2 [(65, 90)] :=
    Or.inr ⟨by decide, [((0, 0), (65, 90))], rfl, ⟨rfl, rfl, rfl, rfl⟩, by decide, by decide⟩
  ⟨hst, ⟨_, _, rfl, by decide⟩,
    charclass_negate_complement 3 _ _ _ false 256 hst (by decide)
      (by unfold WellFormed; decide) (by decide) (by decide) (by decide) (by decide)⟩

theorem charclass_add_contains_witness :
    Stored (buildSet [(5, 10)]).1 (buildSet [(5, 10)]).2 [(5, 10)] ∧
    WellFormed [(5, 10)] ∧
    (∃ h' set', charclass_add 3 (buildSet [(5, 10)]).1 (buildSet [(5, 10)]).2 11 15 =
        Except.ok (h', set') ∧ charclass.ranges 3 h' set' = [(5, 15)]) ∧
    ∃ h' set' b, charclass_add 3 (buildSet [(5, 10)]).1 (buildSet [(5, 10)]).2 11 15 =
        Except.ok (h', set') ∧
      set'.next_item < (buildSet [(5, 10)]).1.size (buildSet [(5, 10)]).2.first ∧
      charclass_contains 3 h' set' 12 = Except.ok b ∧
      (b = true ↔ ((11 : Int) ≤ 12 ∧ (12 : Int) ≤ 15) ∨ Covers [(5, 10)] 12) :=
  have hst : Stored (buildSet [(5, 10)]).1 (buildSet [(5, 10)]).2 [(5, 10)] :=
    Or.inr ⟨by decide, [((0, 0), (5, 10))], rfl, ⟨rfl, rfl, rfl, rfl⟩, by decide, by decide⟩
  have hwf : WellFormed [(5, 10)] := by unfold WellFormed; decide
  ⟨hst, hwf, ⟨_, _, rfl, by decide⟩,
    charclass_add_contains 3 _ _ _ 11 15 12 hst hwf (by decide) (by unfold NoOverflow; decide)
      (by decide) (by decide) (by decide)⟩

/-- C5 (defect): `charclass_add` does not keep the chain disjoint.  Adding `[11, 12]` to
the well-formed set `{[5,10], [20,25]}` merges it into the first range and then, on
reaching `[20,25]`, inserts it a second time: the chain becomes
`[5,12], [11,12], [20,25]`, which is not well-formed. -/
theorem charclass_add_duplicates :
    Stored (buildSet [(5, 10), (20, 25)]).1 (buildSet [(5, 10), (20, 25)]).2
      [(5, 10), (20, 25)] ∧
    WellFormed [(5, 10), (20, 25)] ∧
    ∃ h' set', charclass_add 4 (buildSet [(5, 10), (20, 25)]).1
        (buildSet [(5, 10), (20, 25)]).2 11 12 = Except.ok (h', set') ∧
      charclass.ranges 4 h' set' = [(5, 12), (11, 12), (20, 25)] ∧
      ¬ WellFormed (charclass.ranges 4 h' set') :=
  ⟨Or.inr ⟨by decide, [((0, 0), (5, 10)), ((0, 2), (20, 25))], rfl,
      ⟨rfl, rfl, rfl, rfl, rfl, rfl, rfl⟩, by decide, by decide⟩,
    by unfold WellFormed; decide,
    _, _, rfl, by decide, by unfold WellFormed; decide⟩

/-- C9 (defect): negating the empty set yields `[1, max]`, not `[0, max]`: the
short-circuit for the empty set stores `min`, which is 1, as the start.  Here the set
is fresh from `charclass_init` and the domain is `[0, 255]`. -/
theorem charclass_negate_empty_starts_at_1 :
    ∃ h' set', charclass_negate 2 (charclass_init Heap.blank false).2
        (charclass_init Heap.blank false).1 false 256 = Except.ok (h', set') ∧
      charclass.ranges 2 h' set' = [(1, 255)] ∧
      charclass_contains 2 h' set' 0 = Except.ok false :=
  ⟨_, _, rfl, by decide, by decide⟩

/-- C10 (defect): double negation does not restore membership of 0 for the empty set
and for the set spanning the whole domain.  With domain `[0, 255]`, negating the
empty set twice leaves `{[0,0]}`, and negating `{[0,255]}` twice leaves `{[1,255]}`. -/
theorem charclass_negate_twice_changes_zero :
    (∃ h1 s1 h2 s2, charclass_negate 2 (charclass_init Heap.blank false).2
        (charclass_init Heap.blank false).1 false 256 = Except.ok (h1, s1) ∧
      charclass_negate 2 h1 s1 false 256 = Except.ok (h2, s2) ∧
      charclass.ranges 2 h2 s2 = [(0, 0)]) ∧
    (∃ h1 s1 h2 s2, charclass_negate 3 (buildSet [(0, 255)]).1 (buildSet [(0, 255)]).2
        false 256 = Except.ok (h1, s1) ∧
      charclass_negate 3 h1 s1 false 256 = Except.ok (h2, s2) ∧
      charclass.ranges 3 (buildSet [(0, 255)]).1 (buildSet [(0, 255)]).2 = [(0, 255)] ∧
      charclass.ranges 3 h2 s2 = [(1, 255)] ∧
      charclass_contains 3 h2 s2 0 = Except.ok false) :=
  ⟨⟨_, _, _, _, rfl, rfl, by decide⟩, ⟨_, _, _, _, rfl, rfl, by decide, by decide, by decide⟩⟩

theorem pairwise_gap_starts (l : List (Int × Int)) (hv : ∀ r ∈ l, r.1 ≤ r.2)
    (hp : l.Pairwise (fun r s => r.2 + 1 < s.1)) : l.Pairwise (fun r s => r.1 < s.1) := by
  induction l with
  | nil => exact List.Pairwise.nil
  | cons a l ih =>
    rw [List.pairwise_cons] at hp ⊢
    refine ⟨fun s hs => ?_, ih (fun r hr => hv r (List.mem_cons_of_mem _ hr)) hp.2⟩
    have := hp.1 s hs
    have := hv a (List.mem_cons_self _ _)
    omega

theorem chain_gap_pairwise (l : List (Int × Int)) (hv : ∀ r ∈ l, r.1 ≤ r.2)
    (hc : l.Chain' (fun r s => r.2 < s.1 - 1)) : l.Pairwise (fun r s => r.2 + 1 < s.1) := by
  induction l with
  | nil => exact List.Pairwise.nil
  | cons a l ih =>
    have hv' : ∀ r ∈ l, r.1 ≤ r.2 := fun r hr => hv r (List.mem_cons_of_mem _ hr)
    have hp := ih hv' (List.Chain'.tail hc)
    rw [List.pairwise_cons]
    refine ⟨?_, hp⟩
    intro s hs
    match l, hs, hc, hp, hv' with
    | b :: l', hs, hc, hp, hv' =>
      have hab : a.2 < b.1 - 1 := (List.chain'_cons.1 hc).1
      rw [List.mem_cons] at hs
      rcases hs with rfl | hs
      · omega
      · rw [List.pairwise_cons] at hp
        have := hp.1 s hs
        have := hv' b (List.mem_cons_self _ _)
        omega

/-- `WellFormed` is the RangeSet invariant as the data model lists it: every range has
`start <= end`, the ranges are strictly ascending by start, pairwise disjoint, and no
range is adjacent to the next one (`end < next start - 1`). -/
theorem wellFormed_iff_invariants (l : List (Int × Int)) :
    WellFormed l ↔
      (∀ r ∈ l, r.1 ≤ r.2) ∧ l.Pairwise (fun r s => r.1 < s.1) ∧
      l.Pairwise (fun r s => r.2 < s.1) ∧ l.Chain' (fun r s => r.2 < s.1 - 1) := by
  constructor
  · rintro ⟨hv, hp⟩
    exact ⟨hv, pairwise_gap_starts l hv hp, hp.imp (fun h => by omega),
      (List.Pairwise.chain' hp).imp (fun h => by omega)⟩
  · rintro ⟨hv, _, _, hc⟩
    exact ⟨hv, chain_gap_pairwise l hv hc⟩

theorem negLoopL_length (max : Int) :
    ∀ (l : List (Int × Int)), (negLoopL max l).length ≤ l.length := by
  intro l
  induction l with
  | nil => simp [negLoopL]
  | cons c rs ih =>
    match rs, ih with
    | [], _ => simp [negLoopL]
    | nx :: rs', ih =>
      simp only [negLoopL]
      split_ifs
      · simp
      · simp only [List.length_cons] at ih ⊢
        omega

theorem negateL_length (max : Int) (l : List (Int × Int)) :
    (negateL max l).length ≤ l.length + 1 := by
  match l with
  | [] => simp [negateL]
  | f :: rs =>
    have := negLoopL_length max (f :: rs)
    simp only [negateL]
    split_ifs <;> simp only [List.length_cons, List.length_nil] at this ⊢ <;> omega

/-- Double negation on proper sets: for every non-empty well-formed stored set whose
ranges lie within `[0, max]` and which is not the single range `[0, max]`, two
consecutive calls of `charclass_negate` under the same domain both return, the nodes
in use stay inside the array, and the chain stored afterwards covers exactly the values
of `[0, max]` that the set covered before (the array has never grown, `max_item` being
at most its size, and has room for two more nodes: `next_item + 2 < max_item`). -/
theorem charclass_negate_twice_proper (fuel : Nat) (h : Heap) (set : charclass)
    (l : List (Int × Int)) (sf_unicode : Bool) (csize : Int)
    (hst : Stored h set l) (hl : l ≠ []) (hwf : WellFormed l)
    (hin : ∀ r ∈ l, 0 ≤ r.1 ∧ r.2 ≤ (if sf_unicode then UNICODE_MAX else csize - 1))
    (hfull : l ≠ [(0, if sf_unicode then UNICODE_MAX else csize - 1)])
    (hng : set.next_item + 2 < set.max_item) (hsz : set.max_item ≤ h.size set.first)
    (hf : l.length + 2 < fuel) :
    ∃ h1 s1 h2 s2 l2, charclass_negate fuel h set sf_unicode csize = Except.ok (h1, s1) ∧
      charclass_negate fuel h1 s1 sf_unicode csize = Except.ok (h2, s2) ∧
      s2.next_item < h.size set.first ∧
      Stored h2 s2 l2 ∧ WellFormed l2 ∧
      ∀ x, 0 ≤ x → x ≤ (if sf_unicode then UNICODE_MAX else csize - 1) →
        (Covers l2 x ↔ Covers l x) := by
  obtain ⟨h1, k1, heq1, hk1, hst1⟩ :=
    charclass_negate_sim fuel h set l sf_unicode csize hst hl (by omega) (by omega)
  generalize hmax : (if sf_unicode then UNICODE_MAX else csize - 1) = max at hin hfull hst1 ⊢
  obtain ⟨n1, n2, n3, n4⟩ := negateL_spec max l hwf hl hin
  have hl1 : negateL max l ≠ [] := fun e => hfull (n1.1 e)
  have hlen := negateL_length max l
  obtain ⟨h2, k2, heq2, hk2, hst2⟩ :=
    charclass_negate_sim fuel h1 { set with next_item := k1 } (negateL max l) sf_unicode csize
      hst1 hl1 (by simp only; omega) (by omega)
  rw [hmax] at hst2
  obtain ⟨_, m2, _, m4⟩ := negateL_spec max (negateL max l) n2 hl1 n3
  refine ⟨h1, _, h2, _, negateL max (negateL max l), heq1, heq2, ?_, hst2, m2, ?_⟩
  · simp only at hk2 ⊢
    omega
  intro x hx0 hx1
  rw [m4 x hx0 hx1, n4 x hx0 hx1]
  exact not_not

theorem charclass_negate_twice_proper_witness :
    Stored (buildSet [(65, 90)]).1 (buildSet [(65, 90)]).2 [(65, 90)] ∧
    (∃ h1 s1 h2 s2, charclass_negate 4 (buildSet [(65, 90)]).1 (buildSet [(65, 90)]).2
        false 256 = Except.ok (h1, s1) ∧
      charclass_negate 4 h1 s1 false 256 = Except.ok (h2, s2) ∧
      charclass.ranges 4 h2 s2 = [(65, 90)]) ∧
    ∃ h1 s1 h2 s2 l2, charclass_negate 4 (buildSet [(65, 90)]).1 (buildSet [(65, 90)]).2
        false 256 = Except.ok (h1, s1) ∧
      charclass_negate 4 h1 s1 false 256 = Except.ok (h2, s2) ∧
      s2.next_item < (buildSet [(65, 90)]).1.size (buildSet [(65, 90)]).2.first ∧
      Stored h2 s2 l2 ∧ WellFormed l2 ∧
      ∀ x, 0 ≤ x → x ≤ (if false then UNICODE_MAX else 256 - 1) →
        (Covers l2 x ↔ Covers [(65, 90)] x) :=
  have hst : Stored (buildSet [(65, 90)]).1 (buildSet [(65, 90)]).2 [(65, 90)] :=
    Or.inr ⟨by decide, [((0, 0), (65, 90))], rfl, ⟨rfl, rfl, rfl, rfl⟩, by decide, by decide⟩
  ⟨hst, ⟨_, _, _, _, rfl, rfl, by decide⟩,
    charclass_negate_twice_proper 4 _ _ _ false 256 hst (by decide)
      (by unfold WellFormed; decide) (by decide) (by decide) (by decide) (by decide)
      (by decide)⟩

/-! ## Encoded lengths and the single-byte range compile -/

/-- C15: the encoded length of a codepoint.  In single-byte mode `codepointlen` is 1 for
every codepoint.  In UTF-8 mode it is 1 for 0 <= cp <= 0x7F, 2 for 0x80 <= cp <= 0x7FF,
3 for 0x800 <= cp <= 0xFFFF and 4 for 0x10000 <= cp <= 0x10FFFF; for cp > 0x10FFFF and
for cp < 0 it is 0, so never one of 1..4. -/
theorem codepointlen_values (cp : Int) :
    codepointlen cp encoding.ASCII = 1 ∧
    (0 ≤ cp ∧ cp ≤ 0x7F → codepointlen cp encoding.UTF8 = 1) ∧
    (0x80 ≤ cp ∧ cp ≤ 0x7FF → codepointlen cp encoding.UTF8 = 2) ∧
    (0x800 ≤ cp ∧ cp ≤ 0xFFFF → codepointlen cp encoding.UTF8 = 3) ∧
    (0x10000 ≤ cp ∧ cp ≤ 0x10FFFF → codepointlen cp encoding.UTF8 = 4) ∧
    (cp > 0x10FFFF ∨ cp < 0 →
      codepointlen cp encoding.UTF8 = 0 ∧
      ¬ (1 ≤ codepointlen cp encoding.UTF8 ∧ codepointlen cp encoding.UTF8 ≤ 4)) := by
  simp only [codepointlen, utf8len, UTF8_MIN, UTF8_ENDBYTE1, UTF8_ENDBYTE2, UTF8_ENDBYTE3,
    UTF8_ENDBYTE4, UNICODE_MAX]
  refine ⟨trivial, ?_, ?_, ?_, ?_, ?_⟩
  · intro h; split_ifs <;> omega
  · intro h; split_ifs <;> omega
  · intro h; split_ifs <;> omega
  · intro h; split_ifs <;> omega
  · intro h; split_ifs <;> omega

theorem codepointlen_values_witness :
    codepointlen 0x41 encoding.UTF8 = 1 ∧ codepointlen 0x3A9 encoding.UTF8 = 2 ∧
    codepointlen 0x20AC encoding.UTF8 = 3 ∧ codepointlen 0x1F600 encoding.UTF8 = 4 ∧
    codepointlen 0x110000 encoding.UTF8 = 0 ∧ codepointlen (-1) encoding.UTF8 = 0 :=
  ⟨(codepointlen_values 0x41).2.1 (by decide), (codepointlen_values 0x3A9).2.2.1 (by decide),
    (codepointlen_values 0x20AC).2.2.2.1 (by decide),
    (codepointlen_values 0x1F600).2.2.2.2.1 (by decide),
    ((codepointlen_values 0x110000).2.2.2.2.2 (by decide)).1,
    ((codepointlen_values (-1)).2.2.2.2.2 (by decide)).1⟩

/-- C20: codepoints above the Unicode maximum are a recoverable error.  For every
cp > 0x10FFFF, `mkcodepoint(cp, UTF8)` reports one `synerr` diagnostic, makes no class
and returns the empty fragment; for every pair of `int` values start <= end with
end > 0x10FFFF, `mkrange(start, end, UTF8)` returns (it is not fatal) the empty
fragment, having reported one diagnostic and built nothing. -/
theorem out_of_range_recoverable :
    (∀ (st : Scanner) (cp : Nat), (cp : Int) > 0x10FFFF →
      mkcodepoint st cp encoding.UTF8 = (Frag.NIL, synerr st)) ∧
    (∀ (fuel : Nat) (st : Scanner) (start end_ : Int), start ≤ end_ → end_ > 0x10FFFF →
      end_ < 2 ^ 31 →
      mkrange fuel st start end_ encoding.UTF8 = Except.ok (Frag.NIL, synerr st)) := by
  have hcp : ∀ (st : Scanner) (cp : Nat), (cp : Int) > 0x10FFFF →
      mkutf8codepoint st cp = (Frag.NIL, synerr st) := by
    intro st cp h
    unfold mkutf8codepoint
    simp only [UTF8_ENDBYTE1, UTF8_ENDBYTE2, UTF8_ENDBYTE3, UTF8_ENDBYTE4, UNICODE_MAX]
    rw [if_neg (by omega), if_neg (by omega), if_neg (by omega), if_neg (by omega)]
  refine ⟨fun st cp h => by unfold mkcodepoint; exact hcp st cp h, ?_⟩
  intro fuel st start end_ hse hend hint
  unfold mkrange mkutf8range
  simp only
  rw [if_neg (by omega)]
  by_cases he : start = end_
  · rw [if_pos he, hcp st _ (by omega)]
  · rw [if_neg he, if_pos (by simp only [UNICODE_MAX]; omega)]

theorem out_of_range_recoverable_witness :
    mkcodepoint Scanner.start 0x110000 encoding.UTF8 = (Frag.NIL, synerr Scanner.start) ∧
    mkrange 5 Scanner.start 0x41 0x110000 encoding.UTF8 =
      Except.ok (Frag.NIL, synerr Scanner.start) ∧
    mkrange 5 Scanner.start 0x110000 0x110000 encoding.UTF8 =
      Except.ok (Frag.NIL, synerr Scanner.start) :=
  ⟨out_of_range_recoverable.1 Scanner.start 0x110000 (by decide),
    out_of_range_recoverable.2 5 Scanner.start 0x41 0x110000 (by decide) (by decide) (by decide),
    out_of_range_recoverable.2 5 Scanner.start 0x110000 0x110000 (by decide) (by decide)
      (by decide)⟩

/-! ## Fatal errors of `charclass_add` and `charclass_remove` -/

theorem next_copy_not_fatal : ∀ (fuel : Nat) (h : Heap) (block index : Nat) (nextitem : Ptr)
    (newitem : Nat × Nat), next_copy fuel h block index nextitem newitem ≠ .error Fault.fatal := by
  intro fuel
  induction fuel with
  | zero => intro h b i n m; simp [next_copy]
  | succ f ih =>
    intro h b i n m
    unfold next_copy
    cases n with
    | none => simp
    | some ni => exact ih _ _ _ _ _

theorem next_not_fatal (fuel : Nat) (h : Heap) (set : charclass) :
    next fuel h set ≠ .error Fault.fatal := by
  unfold next
  simp only
  split_ifs <;> first
    | (simp; done)
    | (split
       · rename_i e hnc
         intro hc
         injection hc with hc
         subst hc
         exact next_copy_not_fatal _ _ _ _ _ _ hnc
       · simp)

theorem add_loop_not_fatal : ∀ (fuel : Nat) (h : Heap) (set : charclass) (start end_ : Int)
    (item lastitem newitem : Ptr),
    charclass_add_loop fuel h set start end_ item lastitem newitem ≠ .error Fault.fatal := by
  intro fuel
  induction fuel with
  | zero => intro h set s e it li ni; simp [charclass_add_loop]
  | succ f ih =>
    intro h set s e it li ni
    unfold charclass_add_loop
    cases it with
    | none => simp
    | some it =>
      simp only
      split_ifs
      · cases ni with
        | none => exact ih _ _ _ _ _ _ _
        | some n => exact ih _ _ _ _ _ _ _
      · cases li with
        | none =>
          simp only
          split
          · rename_i e hnx
            intro hc
            injection hc with hc
            subst hc
            exact next_not_fatal _ _ _ hnx
          · simp
        | some l =>
          simp only
          split
          · rename_i e hnx
            intro hc
            injection hc with hc
            subst hc
            exact next_not_fatal _ _ _ hnx
          · simp
      · exact ih _ _ _ _ _ _ _

theorem remove_loop_not_fatal : ∀ (fuel : Nat) (h : Heap) (set : charclass) (start end_ : Int)
    (item lastitem : Ptr),
    charclass_remove_loop fuel h set start end_ item lastitem ≠ .error Fault.fatal := by
  intro fuel
  induction fuel with
  | zero => intro h set s e it li; simp [charclass_remove_loop]
  | succ f ih =>
    intro h set s e it li
    unfold charclass_remove_loop
    cases it with
    | none => simp
    | some it =>
      simp only
      split_ifs
      · simp
      · exact ih _ _ _ _ _ _
      · cases li with
        | some l => exact ih _ _ _ _ _ _
        | none =>
          simp only
          cases (h.get it).next with
          | none => simp
          | some nx => exact ih _ _ _ _ _ _
      · exact ih _ _ _ _ _ _
      · simp
      · split
        · rename_i e hnx
          intro hc
          injection hc with hc
          subst hc
          exact next_not_fatal _ _ _ hnx
        · simp
      · exact ih _ _ _ _ _ _

theorem charclass_add_fatal_iff (fuel : Nat) (h : Heap) (set : charclass) (start end_ : Int) :
    charclass_add fuel h set start end_ = .error Fault.fatal ↔ start > end_ := by
  unfold charclass_add
  by_cases hse : start > end_
  · simp [hse]
  · rw [if_neg hse]
    simp only [hse, iff_false]
    split_ifs
    · simp
    · split
      · rename_i e hl
        intro hc
        injection hc with hc
        subst hc
        exact add_loop_not_fatal _ _ _ _ _ _ _ _ hl
      · rename_i h1 set1 li ni hl
        cases ni with
        | some n => simp
        | none =>
          simp only
          split
          · rename_i e hnx
            intro hc
            injection hc with hc
            subst hc
            exact next_not_fatal _ _ _ hnx
          · cases li <;> simp

theorem charclass_remove_fatal_iff (fuel : Nat) (h : Heap) (set : charclass)
    (start end_ : Int) :
    charclass_remove fuel h set start end_ = .error Fault.fatal ↔ start > end_ := by
  unfold charclass_remove
  by_cases hse : start > end_
  · simp [hse]
  · rw [if_neg hse]
    simp only [hse, iff_false]
    split_ifs
    · simp
    · exact remove_loop_not_fatal _ _ _ _ _ _ _

/-- C18: inverted ranges are rejected.  For every set and all integers start and end,
`charclass_add` fails fatally exactly when start > end, and so does
`charclass_remove`; `charclass_remove` with start <= end on an empty set returns and
leaves the memory and the set as they were, so the set is still empty. -/
theorem inverted_ranges_rejected (fuel : Nat) (h : Heap) (set : charclass)
    (start end_ : Int) :
    (charclass_add fuel h set start end_ = .error Fault.fatal ↔ start > end_) ∧
    (charclass_remove fuel h set start end_ = .error Fault.fatal ↔ start > end_) ∧
    (start ≤ end_ → set.next_item = 0 →
      charclass_remove fuel h set start end_ = .ok (h, set)) := by
  refine ⟨charclass_add_fatal_iff fuel h set start end_,
    charclass_remove_fatal_iff fuel h set start end_, ?_⟩
  intro hse h0
  unfold charclass_remove
  rw [if_neg (by omega), if_pos h0]

theorem inverted_ranges_rejected_witness :
    charclass_add 4 (buildSet [(5, 10)]).1 (buildSet [(5, 10)]).2 9 3 = .error Fault.fatal ∧
    charclass_remove 4 (buildSet [(5, 10)]).1 (buildSet [(5, 10)]).2 9 3 =
      .error Fault.fatal ∧
    charclass_remove 4 (buildSet []).1 (buildSet []).2 3 9 =
      .ok ((buildSet []).1, (buildSet []).2) ∧ (buildSet []).2.next_item = 0 :=
  ⟨(inverted_ranges_rejected 4 _ _ 9 3).1.2 (by decide),
    (inverted_ranges_rejected 4 _ _ 9 3).2.1.2 (by decide),
    (inverted_ranges_rejected 4 _ _ 3 9).2.2 (by decide) rfl, rfl⟩

/-! ## Operation sequences against the reference subset -/

/-- C13 (defect): an operation sequence after which `charclass_contains` disagrees with
the reference subset.  On the initially empty single-byte set the calls add(5,10),
add(20,25), add(11,12), remove(11,11), remove(12,12), all within 0..255 and far from
any storage growth, leave the chain `[5,10], [11,11], [20,25]`: `charclass_add` stored
`[11,12]` twice (the defect of C5), the first removal trimmed the merged range and
stopped there, and the second trimmed the duplicate.  The set is non-empty and
`charclass_contains(set, 11)` returns true, while 11 is not in the reference. -/
theorem ops_sequence_differs_from_reference :
    ∃ h set,
      runOps 8 (buildSet []) [SetOp.add 5 10, SetOp.add 20 25, SetOp.add 11 12,
        SetOp.remove 11 11, SetOp.remove 12 12] = .ok (h, set) ∧
      set.next_item ≠ 0 ∧ set.next_item + 1 < set.max_item ∧
      charclass.ranges 8 h set = [(5, 10), (11, 11), (20, 25)] ∧
      charclass_contains 8 h set 11 = .ok true ∧
      reference [SetOp.add 5 10, SetOp.add 20 25, SetOp.add 11 12,
        SetOp.remove 11 11, SetOp.remove 12 12] 11 = false :=
  ⟨_, _, rfl, by decide, by decide, by decide, by decide, by decide⟩

/-! ## `charclass_minlen` and `charclass_maxlen` -/

theorem maxlen_loop_sim (h : Heap) : ∀ (ns : List Node) (n : Node) (fuel : Nat),
    Seg h (some n.1) none (n :: ns) → ns.length < fuel →
    ∃ a, charclass_maxlen_loop fuel h n.1 = .ok a ∧
      (h.get a).end_ = (List.getLast (n :: ns) (List.cons_ne_nil _ _)).2.2 := by
  intro ns
  induction ns with
  | nil =>
    intro n fuel hs hf
    obtain ⟨_, _, h3, h4⟩ := hs
    have h4 : (h.get n.1).next = none := h4
    cases fuel with
    | zero => omega
    | succ f =>
      refine ⟨n.1, ?_, by simpa using h3⟩
      unfold charclass_maxlen_loop
      rw [h4]
  | cons m ns ih =>
    intro n fuel hs hf
    obtain ⟨_, _, _, h4⟩ := hs
    have hnx : (h.get n.1).next = some m.1 := h4.1
    cases fuel with
    | zero => omega
    | succ f =>
      obtain ⟨a, ha, he⟩ := ih m f (by
        refine ⟨rfl, h4.2.1, h4.2.2.1, h4.2.2.2⟩) (by simpa using hf)
      refine ⟨a, ?_, ?_⟩
      · unfold charclass_maxlen_loop
        rw [hnx]
        exact ha
      · rw [he, List.getLast_cons (List.cons_ne_nil _ _)]

theorem stored_nonempty {h : Heap} {set : charclass} {l : List (Int × Int)}
    (hst : Stored h set l) (hne : l ≠ []) :
    1 ≤ set.next_item ∧ ∃ ns : List Node, ns.map Prod.snd = l ∧
      Seg h (some (set.first, 0)) none ns ∧ (ns.map Prod.fst).Nodup ∧
      ∀ a ∈ ns.map Prod.fst, a.1 = set.first ∧ a.2 ≤ set.next_item := by
  rcases hst with ⟨_, hl⟩ | hr
  · exact absurd hl hne
  · exact hr

theorem maxlen_sim (fuel : Nat) (h : Heap) (set : charclass) (l : List (Int × Int))
    (hne : l ≠ []) (hst : Stored h set l) (hf : l.length ≤ fuel) :
    charclass_maxlen fuel h set = .ok (codepointlen (l.getLast hne).2 set.mode) := by
  obtain ⟨h1, ns, hr, hseg, _, _⟩ := stored_nonempty hst hne
  subst hr
  match ns, hne, hseg, hf with
  | n :: ns', hne, hseg, hf =>
    have en : n.1 = (set.first, 0) := (Option.some.inj hseg.1).symm
    rw [← en] at hseg
    obtain ⟨a, ha, he⟩ := maxlen_loop_sim h ns' n fuel hseg (by simpa using hf)
    unfold charclass_maxlen
    rw [if_neg (by omega), ← en, ha]
    simp only [he, List.getLast_map]

theorem wellFormed_ascending {l : List (Int × Int)} (hwf : WellFormed l) : Ascending l :=
  ⟨hwf.1, (pairwise_gap_starts l hwf.1 hwf.2).imp (fun h => le_of_lt h)⟩

theorem addL_merge_asc (start end_ : Int) (hse : start ≤ end_) :
    ∀ (rs : List (Int × Int)) (m : Int × Int) (K : List (Int × Int)) (d : Bool),
      m.1 ≤ start → end_ ≤ m.2 →
      (∀ k ∈ K, m.1 ≤ k.1 ∧ k.1 ≤ k.2 ∧ k.2 < start) →
      (∀ t ∈ rs, m.1 ≤ t.1 ∧ t.1 ≤ t.2) →
      (K ++ rs).Pairwise (fun r s => r.1 ≤ s.1) →
      Ascending (addL_merge start end_ m K d rs) ∧
      (∀ x, Covers (addL_merge start end_ m K d rs) x ↔ (m.1 ≤ x ∧ x ≤ m.2) ∨ Covers rs x) ∧
      (∀ t ∈ addL_merge start end_ m K d rs, m.1 ≤ t.1) ∧
      (addL_merge start end_ m K d rs).length ≤ K.length + rs.length + 2 := by
  intro rs
  induction rs with
  | nil =>
    intro m K d hm1 hm2 hK _ hp
    simp only [addL_merge, List.append_nil] at hp ⊢
    refine ⟨⟨?_, ?_⟩, ?_, ?_, by simp⟩
    · intro r hr
      rcases List.mem_cons.1 hr with e | hr
      · rw [e]; omega
      · exact (hK r hr).2.1
    · rw [List.pairwise_cons]
      exact ⟨fun k hk => (hK k hk).1, hp⟩
    · intro x
      rw [covers_cons, covers_nil]
      constructor
      · rintro (h1 | ⟨k, hk, h1, h2⟩)
        · exact Or.inl h1
        · have := hK k hk
          exact Or.inl ⟨by omega, by omega⟩
      · rintro (h1 | h1)
        · exact Or.inl h1
        · exact absurd h1 (by simp)
    · intro t ht
      rcases List.mem_cons.1 ht with e | ht
      · rw [e]
      · exact (hK t ht).1
  | cons t rs ih =>
    intro m K d hm1 hm2 hK hrs hp
    have ht := hrs t (List.mem_cons_self _ _)
    have hrs' : ∀ u ∈ rs, m.1 ≤ u.1 ∧ u.1 ≤ u.2 := fun u hu => hrs u (List.mem_cons_of_mem _ hu)
    have hp' := List.pairwise_append.1 hp
    have hprs := List.pairwise_cons.1 hp'.2.1
    simp only [addL_merge]
    by_cases hov : start ≤ t.2 + 1 ∧ end_ ≥ t.1 - 1
    · rw [if_pos hov]
      obtain ⟨i1, i2, i3, i4⟩ := ih (m.1, max m.2 t.2) [] true hm1
        (le_trans hm2 (le_max_left _ _)) (by simp) hrs' (by simpa using hprs.2)
      refine ⟨i1, fun x => ?_, i3, ?_⟩
      · rw [i2 x, covers_cons]
        simp only
        rcases le_total m.2 t.2 with hle | hle
        · rw [max_eq_right hle]
          constructor
          · rintro (h1 | h1)
            · by_cases hx : x ≤ m.2
              · exact Or.inl ⟨h1.1, hx⟩
              · exact Or.inr (Or.inl ⟨by omega, h1.2⟩)
            · exact Or.inr (Or.inr h1)
          · rintro (h1 | h1 | h1)
            · exact Or.inl ⟨h1.1, by omega⟩
            · exact Or.inl ⟨by omega, h1.2⟩
            · exact Or.inr h1
        · rw [max_eq_left hle]
          constructor
          · rintro (h1 | h1)
            · exact Or.inl h1
            · exact Or.inr (Or.inr h1)
          · rintro (h1 | h1 | h1)
            · exact Or.inl h1
            · exact Or.inl ⟨by omega, by omega⟩
            · exact Or.inr h1
      · simp only [List.length_nil, List.length_cons] at i4 ⊢
        omega
    · rw [if_neg hov]
      by_cases hlt : end_ < t.1
      · rw [if_pos hlt]
        have hasc : Ascending (m :: (K ++ (start, end_) :: t :: rs)) := by
          refine ⟨?_, ?_⟩
          · intro r hr
            simp only [List.mem_cons, List.mem_append] at hr
            rcases hr with e | hr | e | e | hr
            · rw [e]; omega
            · exact (hK r hr).2.1
            · rw [e]; exact hse
            · rw [e]; exact ht.2
            · exact (hrs' r hr).2
          · rw [List.pairwise_cons, List.pairwise_append, List.pairwise_cons, List.pairwise_cons]
            refine ⟨?_, hp'.1, ⟨?_, hprs⟩, ?_⟩
            · intro r hr
              simp only [List.mem_cons, List.mem_append] at hr
              rcases hr with hr | e | e | hr
              · exact (hK r hr).1
              · rw [e]; exact hm1
              · rw [e]; exact ht.1
              · exact (hrs' r hr).1
            · intro r hr
              simp only
              rcases List.mem_cons.1 hr with e | hr
              · rw [e]; omega
              · have := hprs.1 r hr
                omega
            · intro k hk r hr
              rcases List.mem_cons.1 hr with e | hr
              · rw [e]
                have := hK k hk
                simp only
                omega
              · exact hp'.2.2 k hk r hr
        have hcov : ∀ x, Covers (m :: (K ++ (start, end_) :: t :: rs)) x ↔
            (m.1 ≤ x ∧ x ≤ m.2) ∨ Covers (t :: rs) x := by
          intro x
          rw [covers_cons, covers_append, covers_cons]
          simp only
          constructor
          · rintro (h1 | ⟨k, hk, h1, h2⟩ | h1 | h1)
            · exact Or.inl h1
            · have := hK k hk
              exact Or.inl ⟨by omega, by omega⟩
            · exact Or.inl ⟨by omega, by omega⟩
            · exact Or.inr h1
          · rintro (h1 | h1)
            · exact Or.inl h1
            · exact Or.inr (Or.inr (Or.inr h1))
        have hlow : ∀ r ∈ m :: (K ++ (start, end_) :: t :: rs), m.1 ≤ r.1 := by
          intro r hr
          simp only [List.mem_cons, List.mem_append] at hr
          rcases hr with e | hr | e | e | hr
          · rw [e]
          · exact (hK r hr).1
          · rw [e]; exact hm1
          · rw [e]; exact ht.1
          · exact (hrs' r hr).1
        by_cases hkd : K = [] ∧ d = true
        · rw [if_pos hkd]
          obtain ⟨hk0, _⟩ := hkd
          subst hk0
          refine ⟨⟨fun r hr => hasc.1 r (by
              simp only [List.mem_cons, List.nil_append] at hr ⊢; tauto), ?_⟩, ?_, ?_, ?_⟩
          · exact hasc.2.sublist (by simp)
          · intro x
            rw [covers_cons]
          · intro r hr
            exact hlow r (by simp only [List.mem_cons, List.nil_append] at hr ⊢; tauto)
          · simp
        · rw [if_neg hkd]
          exact ⟨hasc, hcov, hlow, by simp; omega⟩
      · rw [if_neg hlt]
        have ht2 : t.2 < start := by
          by_contra hc
          exact hov ⟨by omega, by omega⟩
        obtain ⟨i1, i2, i3, i4⟩ := ih m (K ++ [t]) d hm1 hm2
          (by
            intro k hk
            rcases List.mem_append.1 hk with hk | hk
            · exact hK k hk
            · rw [List.mem_singleton.1 hk]
              exact ⟨ht.1, ht.2, ht2⟩)
          hrs' (by simpa using hp)
        refine ⟨i1, fun x => ?_, i3, ?_⟩
        · rw [i2 x, covers_cons]
          constructor
          · rintro (h1 | h1)
            · exact Or.inl h1
            · exact Or.inr (Or.inr h1)
          · rintro (h1 | h1 | h1)
            · exact Or.inl h1
            · exact Or.inl ⟨by omega, by omega⟩
            · exact Or.inr h1
        · simp only [List.length_append, List.length_cons, List.length_nil] at i4 ⊢
          omega

/-- On every ascending chain `charclass_add` keeps the chain ascending and adds exactly
the values of `[start, end]` to what is covered, also when it stores a range twice. -/
theorem addL_asc (start end_ : Int) (hse : start ≤ end_) :
    ∀ (l : List (Int × Int)), Ascending l →
      Ascending (addL start end_ l) ∧
      (∀ x, Covers (addL start end_ l) x ↔ Covers l x ∨ (start ≤ x ∧ x ≤ end_)) ∧
      (∀ c, c ≤ start → (∀ s ∈ l, c ≤ s.1) → ∀ t ∈ addL start end_ l, c ≤ t.1) ∧
      (addL start end_ l).length ≤ l.length + 1 := by
  intro l
  induction l with
  | nil =>
    intro _
    refine ⟨⟨?_, ?_⟩, ?_, ?_, ?_⟩
    · intro r hr
      simp only [addL, List.mem_singleton] at hr
      rw [hr]; exact hse
    · simp [addL]
    · intro x; simp [addL, covers_cons, covers_nil]
    · intro c hc _ t ht
      simp only [addL, List.mem_singleton] at ht
      rw [ht]; exact hc
    · simp [addL]
  | cons r rs ih =>
    intro hasc
    have hr := hasc.1 r (List.mem_cons_self _ _)
    have hv' : ∀ s ∈ rs, s.1 ≤ s.2 := fun s h => hasc.1 s (List.mem_cons_of_mem _ h)
    have hp := List.pairwise_cons.1 hasc.2
    simp only [addL]
    by_cases hov : start ≤ r.2 + 1 ∧ end_ ≥ r.1 - 1
    · rw [if_pos hov]
      obtain ⟨i1, i2, i3, i4⟩ := addL_merge_asc start end_ hse rs (min start r.1, max end_ r.2)
        [] false (min_le_left _ _) (le_max_left _ _) (by simp)
        (fun t ht => ⟨le_trans (min_le_right _ _) (hp.1 t ht), hv' t ht⟩) (by simpa using hp.2)
      refine ⟨i1, fun x => ?_, ?_, ?_⟩
      · rw [i2 x, covers_cons]
        simp only
        have h1 : min start r.1 ≤ start := min_le_left _ _
        have h2 : min start r.1 ≤ r.1 := min_le_right _ _
        have h3 : end_ ≤ max end_ r.2 := le_max_left _ _
        have h4 : r.2 ≤ max end_ r.2 := le_max_right _ _
        have h5 : min start r.1 = start ∨ min start r.1 = r.1 := min_choice _ _
        have h6 : max end_ r.2 = end_ ∨ max end_ r.2 = r.2 := max_choice _ _
        constructor
        · rintro (h | h)
          · by_cases hx : r.1 ≤ x ∧ x ≤ r.2
            · exact Or.inl (Or.inl hx)
            · refine Or.inr ⟨?_, ?_⟩ <;> omega
          · exact Or.inl (Or.inr h)
        · rintro ((h | h) | h)
          · exact Or.inl ⟨by omega, by omega⟩
          · exact Or.inr h
          · exact Or.inl ⟨by omega, by omega⟩
      · intro c hc hl t ht
        have := i3 t ht
        have h2 := hl r (List.mem_cons_self _ _)
        have : c ≤ min start r.1 := le_min hc h2
        simp only at *
        omega
      · simp only [List.length_nil, List.length_cons] at i4 ⊢
        omega
    · rw [if_neg hov]
      by_cases hlt : end_ < r.1
      · rw [if_pos hlt]
        refine ⟨⟨?_, ?_⟩, ?_, ?_, by simp⟩
        · intro s hs
          rcases List.mem_cons.1 hs with e | hs
          · rw [e]; exact hse
          · exact hasc.1 s hs
        · rw [List.pairwise_cons]
          refine ⟨?_, hasc.2⟩
          intro s hs
          simp only
          rcases List.mem_cons.1 hs with e | hs
          · rw [e]; omega
          · have := hp.1 s hs
            omega
        · intro x
          rw [covers_cons]
          simp only
          tauto
        · intro c hc hl t ht
          rcases List.mem_cons.1 ht with e | ht
          · rw [e]; exact hc
          · exact hl t ht
      · rw [if_neg hlt]
        have hr2 : r.2 + 1 < start := by
          by_contra hc
          exact hov ⟨by omega, by omega⟩
        obtain ⟨i1, i2, i3, i4⟩ := ih ⟨hv', hp.2⟩
        refine ⟨⟨?_, ?_⟩, ?_, ?_, ?_⟩
        · intro s hs
          rcases List.mem_cons.1 hs with e | hs
          · rw [e]; exact hr
          · exact i1.1 s hs
        · rw [List.pairwise_cons]
          exact ⟨fun t ht => i3 r.1 (by omega) hp.1 t ht, i1.2⟩
        · intro x
          rw [covers_cons, covers_cons, i2 x]
          tauto
        · intro c hc hl t ht
          rcases List.mem_cons.1 ht with e | ht
          · rw [e]; exact hl r (List.mem_cons_self _ _)
          · exact i3 c hc (fun s hs => hl s (List.mem_cons_of_mem _ hs)) t ht
        · simp only [List.length_cons]
          omega

/-- Any property of starts and of ends that holds for the new range and for every range
of the chain holds for every range of the chain after `charclass_add`: the bounds it
stores are bounds it was given. -/
theorem addL_merge_bounds (s e : Int) (A B : Int → Prop) (hs : A s) (he : B e) :
    ∀ (rs : List (Int × Int)) (m : Int × Int) (K : List (Int × Int)) (d : Bool),
      A m.1 → B m.2 → (∀ r ∈ K, A r.1 ∧ B r.2) → (∀ r ∈ rs, A r.1 ∧ B r.2) →
      ∀ r ∈ addL_merge s e m K d rs, A r.1 ∧ B r.2 := by
  intro rs
  induction rs with
  | nil =>
    intro m K d hm1 hm2 hK _ r hr
    simp only [addL_merge, List.mem_cons] at hr
    rcases hr with rfl | hr
    · exact ⟨hm1, hm2⟩
    · exact hK r hr
  | cons x rs ih =>
    intro m K d hm1 hm2 hK hrs r hr
    have hx := hrs x (List.mem_cons_self _ _)
    have hrs' : ∀ r ∈ rs, A r.1 ∧ B r.2 := fun r h => hrs r (List.mem_cons_of_mem _ h)
    simp only [addL_merge] at hr
    split_ifs at hr with c1 c2 c3
    · refine ih (m.1, max m.2 x.2) [] true hm1 ?_ (fun _ h => absurd h (List.not_mem_nil _)) hrs'
        r hr
      rcases max_choice m.2 x.2 with h | h
      · rw [h]; exact hm2
      · rw [h]; exact hx.2
    · simp only [List.mem_cons] at hr
      rcases hr with rfl | rfl | hr
      · exact ⟨hm1, hm2⟩
      · exact hx
      · exact hrs' r hr
    · simp only [List.mem_cons, List.mem_append] at hr
      rcases hr with rfl | hr | rfl | rfl | hr
      · exact ⟨hm1, hm2⟩
      · exact hK r hr
      · exact ⟨hs, he⟩
      · exact hx
      · exact hrs' r hr
    · refine ih m (K ++ [x]) d hm1 hm2 ?_ hrs' r hr
      intro t ht
      simp only [List.mem_append, List.mem_singleton] at ht
      rcases ht with ht | rfl
      · exact hK t ht
      · exact hx

theorem addL_bounds (s e : Int) (A B : Int → Prop) (hs : A s) (he : B e) :
    ∀ (l : List (Int × Int)), (∀ r ∈ l, A r.1 ∧ B r.2) →
      ∀ r ∈ addL s e l, A r.1 ∧ B r.2 := by
  intro l
  induction l with
  | nil =>
    intro _ r hr
    simp only [addL, List.mem_singleton] at hr
    subst hr
    exact ⟨hs, he⟩
  | cons x rs ih =>
    intro hl r hr
    have hx := hl x (List.mem_cons_self _ _)
    have hrs' : ∀ r ∈ rs, A r.1 ∧ B r.2 := fun r h => hl r (List.mem_cons_of_mem _ h)
    simp only [addL] at hr
    split_ifs at hr with c1 c2
    · refine addL_merge_bounds s e A B hs he rs (min s x.1, max e x.2) [] false ?_ ?_
        (fun _ h => absurd h (List.not_mem_nil _)) hrs' r hr
      · rcases min_choice s x.1 with h | h
        · simp only [h]; exact hs
        · simp only [h]; exact hx.1
      · rcases max_choice e x.2 with h | h
        · simp only [h]; exact he
        · simp only [h]; exact hx.2
    · simp only [List.mem_cons] at hr
      rcases hr with rfl | rfl | hr
      · exact ⟨hs, he⟩
      · exact hx
      · exact hrs' r hr
    · simp only [List.mem_cons] at hr
      rcases hr with rfl | hr
      · exact hx
      · exact ih hrs' r hr

/-- `charclass_add` of a range whose bounds are away from `INT_MIN` and `INT_MAX` keeps
the chain free of overflow. -/
theorem addL_noOverflow (s e : Int) (l : List (Int × Int)) (hl : NoOverflow l)
    (hse : NoOverflow [(s, e)]) : NoOverflow (addL s e l) := by
  have h0 := hse (s, e) (List.mem_singleton.2 rfl)
  intro r hr
  have := addL_bounds s e (fun x => INT_MIN < x ∧ x ≤ INT_MAX)
    (fun y => INT_MIN ≤ y ∧ y < INT_MAX) ⟨h0.1, h0.2.1⟩ ⟨h0.2.2.1, h0.2.2.2⟩ l
    (fun t ht => ⟨⟨(hl t ht).1, (hl t ht).2.1⟩, (hl t ht).2.2.1, (hl t ht).2.2.2⟩) r hr
  exact ⟨this.1.1, this.1.2, this.2.1, this.2.2⟩

/-! ## `charclass_set_diff` and `charclass_set_union` -/

theorem removeL_length (start end_ : Int) :
    ∀ (l : List (Int × Int)), (removeL start end_ l).length ≤ l.length + 1 := by
  intro l
  induction l with
  | nil => simp [removeL]
  | cons r rs ih =>
    simp only [removeL]
    split_ifs <;> simp only [List.length_cons] <;> omega

theorem charclass_contains_sim (fuel : Nat) (h : Heap) (set : charclass)
    (l : List (Int × Int)) (x : Int) (hst : Stored h set l) (hne : l ≠ [])
    (hf : l.length < fuel) :
    charclass_contains fuel h set x = .ok (containsL x l) := by
  obtain ⟨h1, ns, hr, hseg, _, _⟩ := stored_nonempty hst hne
  unfold charclass_contains
  rw [if_neg (by omega), contains_loop_sim x h ns _ fuel hseg (by rw [← hr] at hf; simpa using hf),
    hr]

theorem stored_congr (h h' : Heap) {set : charclass} {l : List (Int × Int)}
    (hfr : ∀ a : Nat × Nat, a.1 = set.first → h'.get a = h.get a) (hst : Stored h set l) :
    Stored h' set l := by
  rcases hst with h0 | ⟨h1, ns, hr, hseg, hnd, hib⟩
  · exact Or.inl h0
  · refine Or.inr ⟨h1, ns, hr, Seg_congr ?_ hseg, hnd, hib⟩
    intro k hk
    exact hfr k.1 (hib k.1 (mem_fst hk)).1

theorem diff_loop_sim (n b2 : Nat) :
    ∀ (ns2 : List Node) (fuel : Nat) (h : Heap) (set1 : charclass) (l1 : List (Int × Int))
      (item : Ptr),
      ns2.length < fuel → Stored h set1 l1 → WellFormed l1 →
      Seg h item none ns2 → (∀ a ∈ ns2.map Prod.fst, a.1 = b2) → set1.first ≠ b2 →
      (∀ r ∈ ns2.map Prod.snd, r.1 ≤ r.2) →
      set1.next_item + ns2.length < set1.max_item → l1.length + ns2.length ≤ n →
      ∃ h' k' l', charclass_set_diff_loop n fuel h set1 item =
          .ok (h', { set1 with next_item := k' }) ∧
        k' ≤ set1.next_item + ns2.length ∧
        Stored h' { set1 with next_item := k' } l' ∧ WellFormed l' ∧
        (∀ x, Covers l' x ↔ Covers l1 x ∧ ¬ Covers (ns2.map Prod.snd) x) ∧
        ∀ a : Nat × Nat, a.1 ≠ set1.first → h'.get a = h.get a := by
  intro ns2
  induction ns2 with
  | nil =>
    intro fuel h set1 l1 item hf hst hwf hseg _ _ _ _ _
    have hi : item = none := hseg
    subst hi
    cases fuel with
    | zero => simp at hf
    | succ f =>
      refine ⟨h, set1.next_item, l1, rfl, by omega, hst, hwf, fun x => ?_, fun _ _ => rfl⟩
      simp [covers_nil]
  | cons n2 rest ih =>
    intro fuel h set1 l1 item hf hst hwf hseg hb hd hv hng hn
    obtain ⟨hi, hs, he, hrest⟩ := hseg
    subst hi
    cases fuel with
    | zero => simp at hf
    | succ f =>
      have hse : n2.2.1 ≤ n2.2.2 := hv n2.2 (by simp)
      simp only [List.length_cons] at hng hn hf
      obtain ⟨h1, k1, heq, hk1, hst1, hfr1⟩ :=
        charclass_remove_frame n h set1 l1 n2.2.1 n2.2.2 hst hse (by omega) (by omega)
      obtain ⟨hwf1, hcov1⟩ := removeL_spec n2.2.1 n2.2.2 hse l1 hwf
      have hn2b : n2.1.1 ≠ set1.first := by
        have := hb n2.1 (by simp)
        rw [this]
        exact Ne.symm hd
      unfold charclass_set_diff_loop
      simp only [hs, he, heq]
      by_cases hk0 : k1 = 0
      · rw [if_pos hk0]
        have hl0 : removeL n2.2.1 n2.2.2 l1 = [] := (stored_next_item_zero hst1).1 hk0
        refine ⟨h1, k1, _, rfl, by simp only [List.length_cons]; omega, hst1, hwf1, fun x => ?_, hfr1⟩
        rw [hl0, covers_nil]
        constructor
        · exact False.elim
        · rintro ⟨h1, h2⟩
          have := (hcov1 x).not.1 (by rw [hl0, covers_nil]; exact id)
          apply h2
          simp only [List.map_cons, covers_cons]
          left
          by_contra hc
          exact this ⟨h1, hc⟩
      · rw [if_neg hk0]
        have hlen := removeL_length n2.2.1 n2.2.2 l1
        obtain ⟨h', k', l', q1, qk, q2, q3, q4, q5⟩ := ih f h1 { set1 with next_item := k1 }
          (removeL n2.2.1 n2.2.2 l1) (h1.get n2.1).next (by omega) hst1 hwf1
          (by
            rw [hfr1 n2.1 hn2b]
            refine Seg_congr ?_ hrest
            intro k hk
            apply hfr1
            have := hb k.1 (by simp [mem_fst hk])
            rw [this]
            exact Ne.symm hd)
          (fun a ha => hb a (by simp only [List.map_cons, List.mem_cons]; exact Or.inr ha))
          hd
          (fun r hr => hv r (by simp only [List.map_cons, List.mem_cons]; exact Or.inr hr))
          (by simp only; omega) (by omega)
        refine ⟨h', k', l', q1, by simp only [List.length_cons] at qk ⊢; omega, q2, q3,
          fun x => ?_, fun a ha => (q5 a ha).trans (hfr1 a ha)⟩
        rw [q4 x, hcov1 x]
        simp only [List.map_cons, covers_cons]
        tauto

/-- Difference membership, away from storage growth.  Let the non-empty well-formed
sets A (`set1`) and B (`set2`) of the same mode lie in distinct arrays of one memory,
the array of A having never grown (`max_item` is at most its size) and having room
for one more node per range of B.  Then `charclass_set_diff(A, B)` returns a set whose
nodes in use lie inside the array and whose chain `l'` covers x if and only if
`charclass_contains(A, x)` was true and `charclass_contains(B, x)` was not true before
the call; the returned set is empty (`next_item` 0) exactly when nothing is covered. -/
theorem charclass_set_diff_membership (fuel : Nat) (h : Heap) (set1 set2 : charclass)
    (l1 l2 : List (Int × Int)) (hs1 : Stored h set1 l1) (hs2 : Stored h set2 l2)
    (hd : set1.first ≠ set2.first) (hne1 : l1 ≠ []) (hne2 : l2 ≠ [])
    (hwf1 : WellFormed l1) (hwf2 : WellFormed l2) (hm : set1.mode = set2.mode)
    (hng : set1.next_item + l2.length < set1.max_item)
    (hsz : set1.max_item ≤ h.size set1.first)
    (hf : l1.length + l2.length < fuel) :
    ∃ h' set' l', charclass_set_diff fuel h set1 set2 = .ok (h', some set') ∧
      set'.next_item < h.size set1.first ∧
      Stored h' set' l' ∧ (set'.next_item = 0 ↔ ∀ x, ¬ Covers l' x) ∧
      ∀ x, ∃ bA bB, charclass_contains fuel h set1 x = .ok bA ∧
        charclass_contains fuel h set2 x = .ok bB ∧
        (Covers l' x ↔ bA = true ∧ ¬ bB = true) := by
  obtain ⟨hk1, _⟩ := stored_nonempty hs1 hne1
  obtain ⟨hk2, ns2, hr2, hseg2, _, hib2⟩ := stored_nonempty hs2 hne2
  have hlen2 : ns2.length = l2.length := by rw [← hr2]; simp
  have hp1 : 0 < l1.length := List.length_pos.2 hne1
  have hp2 : 0 < l2.length := List.length_pos.2 hne2
  obtain ⟨h', k', l', q1, qk, q2, q3, q4, _⟩ := diff_loop_sim fuel set2.first ns2 fuel h set1 l1
    (some (set2.first, 0)) (by omega) hs1 hwf1 hseg2 (fun a ha => (hib2 a ha).1) hd
    (by rw [hr2]; exact hwf2.1) (by omega) (by omega)
  refine ⟨charclass_free h' set2, { set1 with next_item := k' }, l', ?_, by simp only; omega,
    stored_congr h' (charclass_free h' set2) (fun _ _ => rfl) q2, ?_, fun x => ?_⟩
  · unfold charclass_set_diff
    rw [if_neg (by simpa using hm), if_neg (by omega), if_neg (by omega), q1]
  · rw [stored_next_item_zero q2]
    constructor
    · intro e x
      rw [e, covers_nil]
      exact id
    · intro hx
      by_contra hne
      obtain ⟨x, hc⟩ := wellFormed_covers_ne_nil q3 hne
      exact hx x hc
  · refine ⟨_, _, charclass_contains_sim fuel h set1 l1 x hs1 hne1 (by omega),
      charclass_contains_sim fuel h set2 l2 x hs2 hne2 (by omega), ?_⟩
    rw [q4 x, hr2, containsL_iff x l1 (wellFormed_ascending hwf1).2,
      containsL_iff x l2 (wellFormed_ascending hwf2).2]

theorem union_loop_sim (n b2 : Nat) :
    ∀ (ns2 : List Node) (fuel : Nat) (h : Heap) (set1 : charclass) (l1 : List (Int × Int))
      (item : Ptr),
      ns2.length < fuel → Stored h set1 l1 → l1 ≠ [] → Ascending l1 →
      NoOverflow l1 → NoOverflow (ns2.map Prod.snd) →
      Seg h item none ns2 → (∀ a ∈ ns2.map Prod.fst, a.1 = b2) → set1.first ≠ b2 →
      (∀ r ∈ ns2.map Prod.snd, r.1 ≤ r.2) →
      set1.next_item + ns2.length < set1.max_item → l1.length + ns2.length ≤ n →
      ∃ h' k' l', charclass_set_union_loop n fuel h set1 item =
          .ok (h', { set1 with next_item := k' }) ∧
        k' ≤ set1.next_item + ns2.length ∧
        Stored h' { set1 with next_item := k' } l' ∧ l' ≠ [] ∧ Ascending l' ∧
        l'.length ≤ l1.length + ns2.length ∧
        (∀ x, Covers l' x ↔ Covers l1 x ∨ Covers (ns2.map Prod.snd) x) ∧
        ∀ a : Nat × Nat, a.1 ≠ set1.first → h'.get a = h.get a := by
  intro ns2
  induction ns2 with
  | nil =>
    intro fuel h set1 l1 item hf hst hne hasc _ _ hseg _ _ _ _ _
    have hi : item = none := hseg
    subst hi
    cases fuel with
    | zero => simp at hf
    | succ f =>
      refine ⟨h, set1.next_item, l1, rfl, by omega, hst, hne, hasc, by simp, fun x => ?_,
        fun _ _ => rfl⟩
      simp [covers_nil]
  | cons n2 rest ih =>
    intro fuel h set1 l1 item hf hst hne hasc hno1 hno2 hseg hb hd hv hng hn
    obtain ⟨hi, hs, he, hrest⟩ := hseg
    subst hi
    cases fuel with
    | zero => simp at hf
    | succ f =>
      have hse : n2.2.1 ≤ n2.2.2 := hv n2.2 (by simp)
      simp only [List.length_cons] at hng hn hf
      obtain ⟨h1, k1, heq, hk0, _, hk1, hst1, hfr1⟩ :=
        charclass_add_frame n h set1 l1 n2.2.1 n2.2.2 hst hse hno1 (by omega) (by omega)
      obtain ⟨hasc1, hcov1, _, hlen⟩ := addL_asc n2.2.1 n2.2.2 hse l1 hasc
      have hne1 : addL n2.2.1 n2.2.2 l1 ≠ [] := by
        intro e
        have := (stored_next_item_zero hst1).2 e
        simp only at this
        omega
      have hn2b : n2.1.1 ≠ set1.first := by
        have := hb n2.1 (by simp)
        rw [this]
        exact Ne.symm hd
      unfold charclass_set_union_loop
      simp only [hs, he, heq]
      have hno2' : NoOverflow (rest.map Prod.snd) := noOverflow_tail hno2
      have hnoA : NoOverflow (addL n2.2.1 n2.2.2 l1) :=
        addL_noOverflow n2.2.1 n2.2.2 l1 hno1 (fun r hr => by
          rw [List.mem_singleton] at hr
          subst hr
          exact hno2 n2.2 (by simp))
      obtain ⟨h', k', l', q1, qk, q2, q3, q4, q5, q6, q7⟩ := ih f h1 { set1 with next_item := k1 }
        (addL n2.2.1 n2.2.2 l1) (h1.get n2.1).next (by omega) hst1 hne1 hasc1 hnoA hno2'
        (by
          rw [hfr1 n2.1 hn2b]
          refine Seg_congr ?_ hrest
          intro k hk
          apply hfr1
          have := hb k.1 (by simp [mem_fst hk])
          rw [this]
          exact Ne.symm hd)
        (fun a ha => hb a (by simp only [List.map_cons, List.mem_cons]; exact Or.inr ha))
        hd
        (fun r hr => hv r (by simp only [List.map_cons, List.mem_cons]; exact Or.inr hr))
        (by simp only; omega) (by omega)
      refine ⟨h', k', l', q1, by simp only [List.length_cons] at qk ⊢; omega, q2, q3, q4,
        by simp only [List.length_cons]; omega, fun x => ?_,
        fun a ha => (q7 a ha).trans (hfr1 a ha)⟩
      rw [q6 x, hcov1 x]
      simp only [List.map_cons, covers_cons]
      tauto

/-- Union membership, away from storage growth and integer overflow.  Let the non-empty
well-formed sets A (`set1`) and B (`set2`) of the same mode lie in distinct arrays of
one memory, the array of A having never grown (`max_item` is at most its size) and
having room for one more node per range of B, and let no range of A or B start at
`INT_MIN` or end at `INT_MAX`.  Then `charclass_set_union(A, B)` returns a set whose
nodes in use lie inside the array, and for every integer x `charclass_contains` on it
returns `charclass_contains(A, x) OR charclass_contains(B, x)`, both evaluated before
the call. -/
theorem charclass_set_union_membership (fuel : Nat) (h : Heap) (set1 set2 : charclass)
    (l1 l2 : List (Int × Int)) (x : Int) (hs1 : Stored h set1 l1) (hs2 : Stored h set2 l2)
    (hd : set1.first ≠ set2.first) (hne1 : l1 ≠ []) (hne2 : l2 ≠ [])
    (hwf1 : WellFormed l1) (hwf2 : WellFormed l2) (hm : set1.mode = set2.mode)
    (hno1 : NoOverflow l1) (hno2 : NoOverflow l2)
    (hng : set1.next_item + l2.length < set1.max_item)
    (hsz : set1.max_item ≤ h.size set1.first)
    (hf : l1.length + l2.length < fuel) :
    ∃ h' set' b bA bB, charclass_set_union fuel h set1 set2 = .ok (h', set') ∧
      set'.next_item < h.size set1.first ∧
      charclass_contains fuel h' set' x = .ok b ∧
      charclass_contains fuel h set1 x = .ok bA ∧
      charclass_contains fuel h set2 x = .ok bB ∧ b = (bA || bB) := by
  obtain ⟨hk1, _⟩ := stored_nonempty hs1 hne1
  obtain ⟨hk2, ns2, hr2, hseg2, _, hib2⟩ := stored_nonempty hs2 hne2
  have hlen2 : ns2.length = l2.length := by rw [← hr2]; simp
  have hp1 : 0 < l1.length := List.length_pos.2 hne1
  have hp2 : 0 < l2.length := List.length_pos.2 hne2
  obtain ⟨h', k', l', q1, qk, q2, q3, q4, q5, q6, _⟩ := union_loop_sim fuel set2.first ns2 fuel h
    set1 l1 (some (set2.first, 0)) (by omega) hs1 hne1 (wellFormed_ascending hwf1) hno1
    (by rw [hr2]; exact hno2) hseg2
    (fun a ha => (hib2 a ha).1) hd (by rw [hr2]; exact hwf2.1) (by omega) (by omega)
  refine ⟨charclass_free h' set2, { set1 with next_item := k' }, _, _, _, ?_,
    by simp only; omega,
    charclass_contains_sim fuel _ _ l' x (stored_congr h' (charclass_free h' set2) (fun _ _ => rfl) q2) q3 (by omega),
    charclass_contains_sim fuel h set1 l1 x hs1 hne1 (by omega),
    charclass_contains_sim fuel h set2 l2 x hs2 hne2 (by omega), ?_⟩
  · unfold charclass_set_union
    rw [if_neg (by simpa using hm), if_neg (by omega), if_neg (by omega), q1]
  · have e1 := containsL_iff x l' q4.2
    have e2 := containsL_iff x l1 (wellFormed_ascending hwf1).2
    have e3 := containsL_iff x l2 (wellFormed_ascending hwf2).2
    have e4 := q6 x
    rw [hr2] at e4
    rw [Bool.eq_iff_iff, Bool.or_eq_true, e1, e2, e3, e4]

theorem charclass_set_diff_membership_witness :
    (∃ h' set', charclass_set_diff 4 (buildTwo false [(5, 10), (20, 25)] [(8, 21)]).1
        (buildTwo false [(5, 10), (20, 25)] [(8, 21)]).2.1
        (buildTwo false [(5, 10), (20, 25)] [(8, 21)]).2.2 = .ok (h', some set') ∧
      charclass.ranges 4 h' set' = [(5, 7), (22, 25)]) ∧
    ∃ h' set' l', charclass_set_diff 4 (buildTwo false [(5, 10), (20, 25)] [(8, 21)]).1
        (buildTwo false [(5, 10), (20, 25)] [(8, 21)]).2.1
        (buildTwo false [(5, 10), (20, 25)] [(8, 21)]).2.2 = .ok (h', some set') ∧
      set'.next_item < (buildTwo false [(5, 10), (20, 25)] [(8, 21)]).1.size
        (buildTwo false [(5, 10), (20, 25)] [(8, 21)]).2.1.first ∧
      Stored h' set' l' ∧ (set'.next_item = 0 ↔ ∀ x, ¬ Covers l' x) ∧
      ∀ x, ∃ bA bB,
        charclass_contains 4 (buildTwo false [(5, 10), (20, 25)] [(8, 21)]).1
          (buildTwo false [(5, 10), (20, 25)] [(8, 21)]).2.1 x = .ok bA ∧
        charclass_contains 4 (buildTwo false [(5, 10), (20, 25)] [(8, 21)]).1
          (buildTwo false [(5, 10), (20, 25)] [(8, 21)]).2.2 x = .ok bB ∧
        (Covers l' x ↔ bA = true ∧ ¬ bB = true) :=
  ⟨⟨_, _, rfl, by decide⟩,
    charclass_set_diff_membership 4 _ _ _ [(5, 10), (20, 25)] [(8, 21)]
      (Or.inr ⟨by decide, [((0, 0), (5, 10)), ((0, 2), (20, 25))], rfl,
        ⟨rfl, rfl, rfl, rfl, rfl, rfl, rfl⟩, by decide, by decide⟩)
      (Or.inr ⟨by decide, [((1, 0), (8, 21))], rfl, ⟨rfl, rfl, rfl, rfl⟩, by decide,
        by decide⟩)
      (by decide) (by decide) (by decide) (by unfold WellFormed; decide)
      (by unfold WellFormed; decide) rfl (by decide) (by decide) (by decide)⟩

theorem charclass_set_union_membership_witness :
    (∃ h' set', charclass_set_union 4 (buildTwo false [(5, 10), (20, 25)] [(8, 21)]).1
        (buildTwo false [(5, 10), (20, 25)] [(8, 21)]).2.1
        (buildTwo false [(5, 10), (20, 25)] [(8, 21)]).2.2 = .ok (h', set') ∧
      charclass.ranges 4 h' set' = [(5, 25)]) ∧
    ∃ h' set' b bA bB, charclass_set_union 4 (buildTwo false [(5, 10), (20, 25)] [(8, 21)]).1
        (buildTwo false [(5, 10), (20, 25)] [(8, 21)]).2.1
        (buildTwo false [(5, 10), (20, 25)] [(8, 21)]).2.2 = .ok (h', set') ∧
      set'.next_item < (buildTwo false [(5, 10), (20, 25)] [(8, 21)]).1.size
        (buildTwo false [(5, 10), (20, 25)] [(8, 21)]).2.1.first ∧
      charclass_contains 4 h' set' 15 = .ok b ∧
      charclass_contains 4 (buildTwo false [(5, 10), (20, 25)] [(8, 21)]).1
        (buildTwo false [(5, 10), (20, 25)] [(8, 21)]).2.1 15 = .ok bA ∧
      charclass_contains 4 (buildTwo false [(5, 10), (20, 25)] [(8, 21)]).1
        (buildTwo false [(5, 10), (20, 25)] [(8, 21)]).2.2 15 = .ok bB ∧
      b = (bA || bB) :=
  ⟨⟨_, _, rfl, by decide⟩,
    charclass_set_union_membership 4 _ _ _ [(5, 10), (20, 25)] [(8, 21)] 15
      (Or.inr ⟨by decide, [((0, 0), (5, 10)), ((0, 2), (20, 25))], rfl,
        ⟨rfl, rfl, rfl, rfl, rfl, rfl, rfl⟩, by decide, by decide⟩)
      (Or.inr ⟨by decide, [((1, 0), (8, 21))], rfl, ⟨rfl, rfl, rfl, rfl⟩, by decide,
        by decide⟩)
      (by decide) (by decide) (by decide) (by unfold WellFormed; decide)
      (by unfold WellFormed; decide) rfl (by unfold NoOverflow; decide)
      (by unfold NoOverflow; decide) (by decide) (by decide) (by decide)⟩

/-! ## Termination of `mkutf8rangecont` on non-negative arguments -/

theorem land_bounds (x t : Int) (hx : 0 ≤ x) (ht : 0 ≤ t) :
    0 ≤ Int.land x t ∧ Int.land x t ≤ t := by
  obtain ⟨a, rfl⟩ := Int.eq_ofNat_of_zero_le hx
  obtain ⟨b, rfl⟩ := Int.eq_ofNat_of_zero_le ht
  have e : Int.land (a : Int) (b : Int) = ((a &&& b : Nat) : Int) := rfl
  rw [e]
  exact ⟨Int.ofNat_nonneg _, Int.ofNat_le.2 Nat.and_le_right⟩

theorem land_bounds_any (x t : Int) (ht : 0 ≤ t) :
    0 ≤ Int.land x t ∧ Int.land x t ≤ t := by
  cases x with
  | ofNat a => exact land_bounds (Int.ofNat a) t (Int.ofNat_nonneg a) ht
  | negSucc a =>
    obtain ⟨b, rfl⟩ := Int.eq_ofNat_of_zero_le ht
    have e : Int.land (Int.negSucc a) (b : Int) = ((Nat.ldiff b a : Nat) : Int) := rfl
    rw [e]
    refine ⟨Int.ofNat_nonneg _, Int.ofNat_le.2 (Nat.le_of_testBit fun i hi => ?_)⟩
    rw [Nat.testBit_ldiff] at hi
    simp only [Bool.and_eq_true] at hi
    exact hi.1

/-- One level of `mkutf8rangecont`, for a start of either sign: when every recursive
call returns, the call returns. -/
theorem rangecont_step_any (fuel : Nat) (st : Scanner) (start end_ : Int) (cont : Bool)
    (b : Nat) (hb : mkutf8rangecont_bytes end_ cont = .ok (some b))
    (h1 : 0 ≤ end_)
    (ht : 0 ≤ ((1 : Int) <<< (((b - 1) * 6 : Nat) : Int)) - 1)
    (H : ∀ (st' : Scanner) (s' e' : Int), 0 ≤ s' → 0 ≤ e' →
      e' ≤ ((1 : Int) <<< (((b - 1) * 6 : Nat) : Int)) - 1 →
      ∃ r, mkutf8rangecont fuel st' s' e' true = .ok r) :
    ∃ r, mkutf8rangecont (fuel + 1) st start end_ cont = .ok r := by
  have hs := land_bounds_any start _ ht
  have he := land_bounds end_ _ h1 ht
  have H' : ∀ (st' : Scanner) (s' e' : Int) (e : Fault), 0 ≤ s' → 0 ≤ e' →
      e' ≤ ((1 : Int) <<< (((b - 1) * 6 : Nat) : Int)) - 1 →
      mkutf8rangecont fuel st' s' e' true ≠ .error e := by
    intro st' s' e' e a1 a2 a3 hc
    obtain ⟨r, hr⟩ := H st' s' e' a1 a2 a3
    rw [hr] at hc
    exact absurd hc (by simp)
  unfold mkutf8rangecont
  split
  · rename_i e heq
    rw [hb] at heq
    exact absurd heq (by simp)
  · rename_i heq
    rw [hb] at heq
    exact absurd heq (by simp)
  · rename_i bytes heq
    rw [hb] at heq
    have hbb : bytes = b := by
      injection heq with heq
      injection heq with heq
      exact heq.symm
    subst hbb
    lift_lets
    intro masklen top remstart remend b1start0 b1end0 tag b1start b1end state rangestart
      rangeend part1 state_1
    have r1 : 0 ≤ remstart := hs.1
    have r2 : 0 ≤ remend := he.1
    have r3 : remend ≤ top := he.2
    have r4 : 0 ≤ top := ht
    have HH : ∀ (st' : Scanner) (s' e' : Int), 0 ≤ s' → 0 ≤ e' → e' ≤ top →
        ∃ r, mkutf8rangecont fuel st' s' e' true = .ok r := H
    have hp1 : ∃ v, part1 = .ok v := by
      simp only [part1]
      split_ifs with c
      · obtain ⟨r, hr⟩ := HH st remstart top r1 r4 (le_refl _)
        rw [hr]
        exact ⟨_, rfl⟩
      · exact ⟨_, rfl⟩
    obtain ⟨⟨ret1, st1⟩, hp1⟩ := hp1
    clear_value part1 state state_1 rangestart rangeend b1start b1end tag b1start0 b1end0
      remstart remend top
    subst hp1
    clear H H' hs he hb heq
    have tail : ∀ (ret : Frag) (st2 : Scanner), ∃ r,
        (if remend < top ∨ remstart ≠ 0 then
          match mkutf8rangecont fuel st2 0 remend true with
          | Except.error e => Except.error e
          | Except.ok (nextstate, st) =>
            Except.ok (if ret ≠ Frag.NIL then
              mkor ret (if nextstate ≠ Frag.NIL then link_machines state_1 nextstate
                else state_1)
              else (if nextstate ≠ Frag.NIL then link_machines state_1 nextstate
                else state_1), st)
        else Except.ok (ret, st2)) = Except.ok r := by
      intro ret st2
      by_cases c4 : remend < top ∨ remstart ≠ 0
      · rw [if_pos c4]
        obtain ⟨r, hr⟩ := HH st2 0 remend (le_refl _) r2 r3
        rw [hr]
        exact ⟨_, rfl⟩
      · rw [if_neg c4]
        exact ⟨_, rfl⟩
    by_cases c1 : b1start = b1end
    · rw [if_pos c1]
      obtain ⟨r, hr⟩ := HH st remstart remend r1 r2 r3
      rw [hr]
      exact ⟨_, rfl⟩
    rw [if_neg c1]
    by_cases c2 : bytes = 1
    · rw [if_pos c2]
      exact ⟨_, rfl⟩
    rw [if_neg c2]
    simp only []
    by_cases c3 : rangestart < rangeend
    · rw [if_pos c3]
      generalize hX : mkutf8rangecont fuel _ 0 top true = res
      cases res with
      | error e =>
        obtain ⟨r, hr⟩ := HH _ 0 top (le_refl _) r4 (le_refl _)
        rw [hr] at hX
        exact absurd hX (by simp)
      | ok v =>
        obtain ⟨ns, st3⟩ := v
        exact tail _ _
    · rw [if_neg c3]
      exact tail ret1 st1

/-- One level of `mkutf8rangecont`: when every recursive call returns, the call
returns. -/
theorem rangecont_step (fuel : Nat) (st : Scanner) (start end_ : Int) (cont : Bool)
    (b : Nat) (hb : mkutf8rangecont_bytes end_ cont = .ok (some b))
    (_ : 0 ≤ start) (h1 : 0 ≤ end_)
    (ht : 0 ≤ ((1 : Int) <<< (((b - 1) * 6 : Nat) : Int)) - 1)
    (H : ∀ (st' : Scanner) (s' e' : Int), 0 ≤ s' → 0 ≤ e' →
      e' ≤ ((1 : Int) <<< (((b - 1) * 6 : Nat) : Int)) - 1 →
      ∃ r, mkutf8rangecont fuel st' s' e' true = .ok r) :
    ∃ r, mkutf8rangecont (fuel + 1) st start end_ cont = .ok r :=
  rangecont_step_any fuel st start end_ cont b hb h1 ht H

theorem rangecont_step_top_any (fuel : Nat) (st : Scanner) (start end_ : Int) (cont : Bool)
    (b : Nat) (top : Int) (hb : mkutf8rangecont_bytes end_ cont = .ok (some b))
    (htop : ((1 : Int) <<< (((b - 1) * 6 : Nat) : Int)) - 1 = top)
    (h1 : 0 ≤ end_) (ht : 0 ≤ top)
    (H : ∀ (st' : Scanner) (s' e' : Int), 0 ≤ s' → 0 ≤ e' → e' ≤ top →
      ∃ r, mkutf8rangecont fuel st' s' e' true = .ok r) :
    ∃ r, mkutf8rangecont (fuel + 1) st start end_ cont = .ok r := by
  subst htop
  exact rangecont_step_any fuel st start end_ cont b hb h1 ht H

theorem rangecont_step_top (fuel : Nat) (st : Scanner) (start end_ : Int) (cont : Bool)
    (b : Nat) (top : Int) (hb : mkutf8rangecont_bytes end_ cont = .ok (some b))
    (htop : ((1 : Int) <<< (((b - 1) * 6 : Nat) : Int)) - 1 = top)
    (h0 : 0 ≤ start) (h1 : 0 ≤ end_) (ht : 0 ≤ top)
    (H : ∀ (st' : Scanner) (s' e' : Int), 0 ≤ s' → 0 ≤ e' → e' ≤ top →
      ∃ r, mkutf8rangecont fuel st' s' e' true = .ok r) :
    ∃ r, mkutf8rangecont (fuel + 1) st start end_ cont = .ok r := by
  subst htop
  exact rangecont_step fuel st start end_ cont b hb h0 h1 ht H

theorem bytes_cont (e : Int) (h : 0 ≤ e) :
    mkutf8rangecont_bytes e true =
      if e ≥ 4096 then .ok (some 3) else if e ≥ 64 then .ok (some 2)
      else if e > 0 then .ok (some 1) else .ok none := by
  have s12 : (1 : Int) <<< (12 : Int) = 4096 := by decide
  have s6 : (1 : Int) <<< (6 : Int) = 64 := by decide
  unfold mkutf8rangecont_bytes
  simp only [s12, s6, Bool.not_true, Bool.false_eq_true, false_and, if_false, true_and,
    false_or]
  split_ifs <;> first | rfl | omega

theorem bytes_start (e : Int) (h : 0 ≤ e) :
    mkutf8rangecont_bytes e false =
      if e > 0xffff then .ok (some 4) else if e > 0x7ff then .ok (some 3)
      else if e > 0x7f then .ok (some 2) else if e > 0 then .ok (some 1) else .ok none := by
  unfold mkutf8rangecont_bytes
  simp only [Bool.not_false, true_and, Bool.false_eq_true, false_and, or_false]
  split_ifs <;> first | rfl | omega

theorem rangecont_none (fuel : Nat) (st : Scanner) (start end_ : Int) (cont : Bool)
    (hb : mkutf8rangecont_bytes end_ cont = .ok none) :
    ∃ r, mkutf8rangecont (fuel + 1) st start end_ cont = .ok r := by
  unfold mkutf8rangecont
  rw [hb]
  exact ⟨_, rfl⟩

theorem rangecont_cont0 (fuel : Nat) (st : Scanner) (s e : Int) (_ : 0 ≤ s) (h1 : 0 ≤ e)
    (h2 : e ≤ 0) : ∃ r, mkutf8rangecont (fuel + 1) st s e true = .ok r := by
  apply rangecont_none
  rw [bytes_cont e h1, if_neg (by omega), if_neg (by omega), if_neg (by omega)]

theorem rangecont_cont1 (fuel : Nat) (st : Scanner) (s e : Int) (h0 : 0 ≤ s) (h1 : 0 ≤ e)
    (h2 : e ≤ 63) : ∃ r, mkutf8rangecont (fuel + 2) st s e true = .ok r := by
  by_cases c : e > 0
  · exact rangecont_step_top (fuel + 1) st s e true 1 0
      (by rw [bytes_cont e h1, if_neg (by omega), if_neg (by omega), if_pos c]) (by decide)
      h0 h1 (le_refl _) (fun st' s' e' a1 a2 a3 => rangecont_cont0 fuel st' s' e' a1 a2 a3)
  · exact rangecont_cont0 (fuel + 1) st s e h0 h1 (by omega)

theorem rangecont_cont2 (fuel : Nat) (st : Scanner) (s e : Int) (h0 : 0 ≤ s) (h1 : 0 ≤ e)
    (h2 : e ≤ 4095) : ∃ r, mkutf8rangecont (fuel + 3) st s e true = .ok r := by
  by_cases c : e ≥ 64
  · exact rangecont_step_top (fuel + 2) st s e true 2 63
      (by rw [bytes_cont e h1, if_neg (by omega), if_pos c]) (by decide)
      h0 h1 (by decide) (fun st' s' e' a1 a2 a3 => rangecont_cont1 fuel st' s' e' a1 a2 a3)
  · exact rangecont_cont1 (fuel + 1) st s e h0 h1 (by omega)

theorem rangecont_cont3 (fuel : Nat) (st : Scanner) (s e : Int) (h0 : 0 ≤ s) (h1 : 0 ≤ e)
    (h2 : e ≤ 262143) : ∃ r, mkutf8rangecont (fuel + 4) st s e true = .ok r := by
  by_cases c : e ≥ 4096
  · exact rangecont_step_top (fuel + 3) st s e true 3 4095
      (by rw [bytes_cont e h1, if_pos c]) (by decide)
      h0 h1 (by decide) (fun st' s' e' a1 a2 a3 => rangecont_cont2 fuel st' s' e' a1 a2 a3)
  · exact rangecont_cont2 (fuel + 1) st s e h0 h1 (by omega)

/-- With fuel 5 or more, `mkutf8rangecont` called from `mkutf8range` (so not as a
continuation) on non-negative arguments returns. -/
theorem rangecont_returns (fuel : Nat) (st : Scanner) (s e : Int) (h0 : 0 ≤ s)
    (h1 : 0 ≤ e) : ∃ r, mkutf8rangecont (fuel + 5) st s e false = .ok r := by
  have hb := bytes_start e h1
  by_cases c4 : e > 0xffff
  · rw [if_pos c4] at hb
    exact rangecont_step_top (fuel + 4) st s e false 4 262143 hb (by decide) h0 h1 (by decide)
      (fun st' s' e' a1 a2 a3 => rangecont_cont3 fuel st' s' e' a1 a2 a3)
  rw [if_neg c4] at hb
  by_cases c3 : e > 0x7ff
  · rw [if_pos c3] at hb
    exact rangecont_step_top (fuel + 4) st s e false 3 4095 hb (by decide) h0 h1 (by decide)
      (fun st' s' e' a1 a2 a3 => rangecont_cont2 (fuel + 1) st' s' e' a1 a2 a3)
  rw [if_neg c3] at hb
  by_cases c2 : e > 0x7f
  · rw [if_pos c2] at hb
    exact rangecont_step_top (fuel + 4) st s e false 2 63 hb (by decide) h0 h1 (by decide)
      (fun st' s' e' a1 a2 a3 => rangecont_cont1 (fuel + 2) st' s' e' a1 a2 a3)
  rw [if_neg c2] at hb
  by_cases c1 : e > 0
  · rw [if_pos c1] at hb
    exact rangecont_step_top (fuel + 4) st s e false 1 0 hb (by decide) h0 h1 (le_refl _)
      (fun st' s' e' a1 a2 a3 => rangecont_cont0 (fuel + 3) st' s' e' a1 a2 a3)
  rw [if_neg c1] at hb
  exact rangecont_none (fuel + 4) st s e false hb

/-- With fuel 5 or more, `mkutf8rangecont` called from `mkutf8range` returns whenever
the end is not negative, whatever the sign of the start. -/
theorem rangecont_returns_any (fuel : Nat) (st : Scanner) (s e : Int) (h1 : 0 ≤ e) :
    ∃ r, mkutf8rangecont (fuel + 5) st s e false = .ok r := by
  have hb := bytes_start e h1
  by_cases c4 : e > 0xffff
  · rw [if_pos c4] at hb
    exact rangecont_step_top_any (fuel + 4) st s e false 4 262143 hb (by decide) h1 (by decide)
      (fun st' s' e' a1 a2 a3 => rangecont_cont3 fuel st' s' e' a1 a2 a3)
  rw [if_neg c4] at hb
  by_cases c3 : e > 0x7ff
  · rw [if_pos c3] at hb
    exact rangecont_step_top_any (fuel + 4) st s e false 3 4095 hb (by decide) h1 (by decide)
      (fun st' s' e' a1 a2 a3 => rangecont_cont2 (fuel + 1) st' s' e' a1 a2 a3)
  rw [if_neg c3] at hb
  by_cases c2 : e > 0x7f
  · rw [if_pos c2] at hb
    exact rangecont_step_top_any (fuel + 4) st s e false 2 63 hb (by decide) h1 (by decide)
      (fun st' s' e' a1 a2 a3 => rangecont_cont1 (fuel + 2) st' s' e' a1 a2 a3)
  rw [if_neg c2] at hb
  by_cases c1 : e > 0
  · rw [if_pos c1] at hb
    exact rangecont_step_top_any (fuel + 4) st s e false 1 0 hb (by decide) h1 (le_refl _)
      (fun st' s' e' a1 a2 a3 => rangecont_cont0 (fuel + 3) st' s' e' a1 a2 a3)
  rw [if_neg c1] at hb
  exact rangecont_none (fuel + 4) st s e false hb

/-- With fuel 5 or more, `mkutf8range` on 0 <= start <= end returns. -/
theorem mkutf8range_returns (fuel : Nat) (st : Scanner) (start end_ : Int)
    (h0 : 0 ≤ start) (hse : start ≤ end_) :
    ∃ r, mkutf8range (fuel + 5) st start end_ = .ok r := by
  unfold mkutf8range
  rw [if_neg (by omega)]
  by_cases c1 : start = end_
  · rw [if_pos c1]
    exact ⟨_, rfl⟩
  rw [if_neg c1]
  by_cases c2 : end_ > UNICODE_MAX
  · rw [if_pos c2]
    exact ⟨_, rfl⟩
  rw [if_neg c2]
  have hmax : ∀ c : Int, 0 ≤ max start c := fun c => le_trans h0 (le_max_left _ _)
  have hmin : ∀ c : Int, 0 ≤ c → 0 ≤ min end_ c := fun c hc => le_min (by omega) hc
  have step : ∀ (cnd : Prop) [Decidable cnd] (state : Frag) (st1 : Scanner) (s e : Int),
      0 ≤ s → 0 ≤ e → ∃ v,
      (if cnd then
        match mkutf8rangecont (fuel + 5) st1 s e false with
        | Except.error e => Except.error e
        | Except.ok (nextstate, st) =>
          Except.ok (if state ≠ Frag.NIL then mkor state nextstate else nextstate, st)
      else Except.ok (state, st1)) = Except.ok v := by
    intro cnd _ state st1 s e a1 a2
    by_cases c : cnd
    · rw [if_pos c]
      obtain ⟨r, hr⟩ := rangecont_returns fuel st1 s e a1 a2
      rw [hr]
      exact ⟨_, rfl⟩
    · rw [if_neg c]
      exact ⟨_, rfl⟩
  simp only []
  have s1 : ∃ v, (if start < UTF8_ENDBYTE1 then
      mkutf8rangecont (fuel + 5) st start (min end_ UTF8_ENDBYTE1) false
      else Except.ok (Frag.NIL, st)) = Except.ok v := by
    by_cases c : start < UTF8_ENDBYTE1
    · rw [if_pos c]
      exact rangecont_returns fuel st start _ h0 (hmin _ (by decide))
    · rw [if_neg c]
      exact ⟨_, rfl⟩
  obtain ⟨⟨f1, st1⟩, e1⟩ := s1
  rw [e1]
  simp only []
  obtain ⟨⟨f2, st2⟩, e2⟩ := step (start < UTF8_ENDBYTE2 ∧ end_ > UTF8_ENDBYTE1) f1 st1
    (max start (UTF8_ENDBYTE1 + 1)) (min end_ UTF8_ENDBYTE2) (hmax _) (hmin _ (by decide))
  rw [e2]
  simp only []
  obtain ⟨⟨f3, st3⟩, e3⟩ := step (start < UTF8_ENDBYTE3 ∧ end_ > UTF8_ENDBYTE2) f2 st2
    (max start (UTF8_ENDBYTE2 + 1)) (min end_ UTF8_ENDBYTE3) (hmax _) (hmin _ (by decide))
  rw [e3]
  simp only []
  exact step (end_ > UTF8_ENDBYTE3) f3 st3
    (max start (UTF8_ENDBYTE3 + 1)) (min end_ UTF8_ENDBYTE4) (hmax _) (hmin _ (by decide))

/-- With fuel 5 or more, `mkrange` on 0 <= start <= end returns in both modes. -/
theorem mkrange_returns (fuel : Nat) (st : Scanner) (start end_ : Int) (mode : encoding)
    (h0 : 0 ≤ start) (hse : start ≤ end_) :
    ∃ r, mkrange (fuel + 5) st start end_ mode = .ok r := by
  cases mode with
  | ASCII => exact ⟨_, rfl⟩
  | UTF8 => exact mkutf8range_returns fuel st start end_ h0 hse

/-! ## Queries on empty and non-empty sets -/

theorem mkstate_loop_returns (n : Nat) (maxlen ccl : Int) (mode : encoding) (h : Heap) :
    ∀ (ns : List Node) (p : Ptr) (fuel : Nat) (st : Scanner) (state : Frag),
    Seg h p none ns → ns.length < fuel → (∀ r ∈ ns.map Prod.snd, 0 ≤ r.1 ∧ r.1 ≤ r.2) →
    ∃ r, charclass_mkstate_loop (n + 5) maxlen ccl mode fuel h st state p = .ok r := by
  intro ns
  induction ns with
  | nil =>
    intro p fuel st state hs hf _
    have : p = none := hs
    subst this
    cases fuel with
    | zero => omega
    | succ f => exact ⟨_, rfl⟩
  | cons m ns ih =>
    intro p fuel st state hs hf hv
    obtain ⟨e1, e2, e3, e4⟩ := hs
    subst e1
    have hm := hv m.2 (by simp)
    have hv' : ∀ r ∈ ns.map Prod.snd, 0 ≤ r.1 ∧ r.1 ≤ r.2 :=
      fun r hr => hv r (by simp only [List.map_cons, List.mem_cons]; exact Or.inr hr)
    cases fuel with
    | zero => omega
    | succ f =>
      unfold charclass_mkstate_loop
      simp only [e2, e3]
      by_cases c : maxlen = 1
      · rw [if_pos c]
        exact ih _ f _ _ e4 (by simpa using hf) hv'
      · rw [if_neg c]
        obtain ⟨⟨fr, st1⟩, hr⟩ := mkrange_returns n st m.2.1 m.2.2 mode hm.1 hm.2
        rw [hr]
        exact ih _ f _ _ e4 (by simpa using hf) hv'

theorem charclass_mkstate_returns (fuel : Nat) (h : Heap) (st : Scanner) (set : charclass)
    (l : List (Int × Int)) (hst : Stored h set l) (hne : l ≠ []) (h5 : 5 ≤ fuel)
    (hf : l.length < fuel) (hv : ∀ r ∈ l, 0 ≤ r.1 ∧ r.1 ≤ r.2) :
    ∃ r, charclass_mkstate fuel h st set = .ok r := by
  obtain ⟨h1, ns, hr, hseg, _, _⟩ := stored_nonempty hst hne
  obtain ⟨n, rfl⟩ : ∃ n, fuel = n + 5 := ⟨fuel - 5, by omega⟩
  have hml := maxlen_sim (n + 5) h set l hne hst (by omega)
  have hlen : ns.length < n + 5 := by rw [← hr] at hf; simpa using hf
  unfold charclass_mkstate
  rw [if_neg (by omega), hml]
  simp only []
  obtain ⟨⟨fr, st1⟩, hloop⟩ := mkstate_loop_returns n
    (codepointlen (l.getLast hne).2 set.mode)
    (if codepointlen (l.getLast hne).2 set.mode = 1 then cclinit st else (0, st)).1 set.mode h
    ns (some (set.first, 0)) (n + 5)
    (if codepointlen (l.getLast hne).2 set.mode = 1 then cclinit st else (0, st)).2
    Frag.NIL hseg hlen (by rw [hr]; exact hv)
  rw [hloop]
  exact ⟨_, rfl⟩

/-! ## `charclass_set_diff` with an empty second set, and `charclass_copy` -/

/-- C21 (defect): with an empty second set `charclass_set_diff` returns no value.  For
every set A and every empty set B of the same mode, the call frees B and then, when A
is non-empty, leaves through the bare `return;` of line 344, so the caller receives no
set (`none`); only when A is empty too does it return A.  For A = {[5,10]} and B empty
the chain of A is unchanged in memory, but the result of the call is not A. -/
theorem charclass_set_diff_empty_returns_nothing :
    (∀ (fuel : Nat) (h : Heap) (set1 set2 : charclass),
      charclass_set_diff fuel h set1 { set2 with next_item := 0, mode := set1.mode } =
        if set1.next_item = 0 then .ok (flex_free h set2.first, some set1)
        else .ok (flex_free h set2.first, none)) ∧
    (buildTwo false [(5, 10)] []).2.1.next_item = 1 ∧
    (buildTwo false [(5, 10)] []).2.2.next_item = 0 ∧
    (buildTwo false [(5, 10)] []).2.1.mode = (buildTwo false [(5, 10)] []).2.2.mode ∧
    charclass_set_diff 3 (buildTwo false [(5, 10)] []).1 (buildTwo false [(5, 10)] []).2.1
        (buildTwo false [(5, 10)] []).2.2 =
      .ok (flex_free (buildTwo false [(5, 10)] []).1 1, none) ∧
    charclass.ranges 3 (flex_free (buildTwo false [(5, 10)] []).1 1)
      (buildTwo false [(5, 10)] []).2.1 = [(5, 10)] := by
  refine ⟨?_, by decide, by decide, by decide, rfl, by decide⟩
  intro fuel h set1 set2
  unfold charclass_set_diff charclass_free
  by_cases h0 : set1.next_item = 0
  · simp [h0]
  · simp [h0]

/-- C22 (defect): `charclass_copy` does not copy the encoding mode.  The copy's `mode`
is whatever the storage from `flex_alloc` held.  For the UTF-8-mode set
{[0x80,0x90], [0x100,0x110]} and storage holding 0 (`ASCII`), the copy has the same
ranges in the same order and the set is unchanged, but the copy is in single-byte mode
and its `charclass_maxlen` is 1 where that of the set is 2; likewise the copy of the
single-byte set {[0x80,0x90]} into storage holding `UTF8` is in UTF-8 mode. -/
theorem charclass_copy_loses_mode :
    (∃ c h', charclass_copy 3 (buildSetFrom Heap.blank true [(0x80, 0x90), (0x100, 0x110)]).1
        (buildSetFrom Heap.blank true [(0x80, 0x90), (0x100, 0x110)]).2 encoding.ASCII =
        .ok (c, h') ∧
      charclass.ranges 3 h' c = [(0x80, 0x90), (0x100, 0x110)] ∧
      charclass.ranges 3 h' (buildSetFrom Heap.blank true [(0x80, 0x90), (0x100, 0x110)]).2 =
        [(0x80, 0x90), (0x100, 0x110)] ∧
      (buildSetFrom Heap.blank true [(0x80, 0x90), (0x100, 0x110)]).2.mode = encoding.UTF8 ∧
      c.mode = encoding.ASCII ∧
      charclass_maxlen 3 h' (buildSetFrom Heap.blank true [(0x80, 0x90), (0x100, 0x110)]).2 =
        .ok 2 ∧
      charclass_maxlen 3 h' c = .ok 1) ∧
    (∃ c h', charclass_copy 3 (buildSetFrom Heap.blank false [(0x80, 0x90)]).1
        (buildSetFrom Heap.blank false [(0x80, 0x90)]).2 encoding.UTF8 = .ok (c, h') ∧
      (buildSetFrom Heap.blank false [(0x80, 0x90)]).2.mode = encoding.ASCII ∧
      c.mode = encoding.UTF8) :=
  ⟨⟨_, _, rfl, by decide, by decide, by decide, by decide, by decide, by decide⟩,
    ⟨_, _, rfl, by decide, by decide⟩⟩

/-! ## The length-boundary split of `mkutf8range` -/

theorem mkutf8range_or_nil (fuel : Nat) (p : Frag × Scanner) :
    mkutf8range_or fuel [] p = .ok p := rfl

theorem mkutf8range_or_cons (fuel : Nat) (c : Int × Int) (cs : List (Int × Int))
    (state : Frag) (st : Scanner) :
    mkutf8range_or fuel (c :: cs) (state, st) =
      match mkutf8rangecont fuel st c.1 c.2 false with
      | .error e => .error e
      | .ok (nextstate, st) =>
        mkutf8range_or fuel cs
          (if state ≠ Frag.NIL then mkor state nextstate else nextstate, st) := rfl

/-- The function `mkutf8range`, past its early returns, makes exactly the calls
`mkutf8range_calls` and alternates their results. -/
theorem mkutf8range_eq_or (fuel : Nat) (st : Scanner) (start end_ : Int)
    (h1 : start < end_) (h2 : end_ ≤ UNICODE_MAX) :
    mkutf8range fuel st start end_ =
      mkutf8range_or fuel (mkutf8range_calls start end_) (Frag.NIL, st) := by
  unfold mkutf8range mkutf8range_calls
  rw [if_neg (by omega), if_neg (by omega), if_neg (by omega)]
  have stepA : ∀ (cnd : Prop) [Decidable cnd] (c : Int × Int) (state : Frag) (st1 : Scanner),
      (if cnd then
        match mkutf8rangecont fuel st1 c.1 c.2 false with
        | Except.error e => Except.error e
        | Except.ok (nextstate, st) =>
          Except.ok (if state ≠ Frag.NIL then mkor state nextstate else nextstate, st)
      else Except.ok (state, st1)) =
      mkutf8range_or fuel (if cnd then [c] else []) (state, st1) := by
    intro cnd _ c state st1
    by_cases hc : cnd
    · rw [if_pos hc, if_pos hc, mkutf8range_or_cons]
      cases mkutf8rangecont fuel st1 c.1 c.2 false with
      | error e => rfl
      | ok v => rfl
    · rw [if_neg hc, if_neg hc, mkutf8range_or_nil]
  have stepB : ∀ (a b : List (Int × Int)) (p : Frag × Scanner),
      mkutf8range_or fuel (a ++ b) p =
        match mkutf8range_or fuel a p with
        | Except.error e => Except.error e
        | Except.ok (state, st) => mkutf8range_or fuel b (state, st) := by
    intro a
    induction a with
    | nil => intro b p; rfl
    | cons c cs ih =>
      intro b p
      obtain ⟨state, st1⟩ := p
      rw [List.cons_append, mkutf8range_or_cons, mkutf8range_or_cons]
      cases mkutf8rangecont fuel st1 c.1 c.2 false with
      | error e => rfl
      | ok v => exact ih b _
  have step1 : (if start < UTF8_ENDBYTE1 then
        mkutf8rangecont fuel st start (min end_ UTF8_ENDBYTE1) false
      else Except.ok (Frag.NIL, st)) =
      mkutf8range_or fuel (if start < UTF8_ENDBYTE1 then [(start, min end_ UTF8_ENDBYTE1)]
        else []) (Frag.NIL, st) := by
    by_cases hc : start < UTF8_ENDBYTE1
    · rw [if_pos hc, if_pos hc, mkutf8range_or_cons]
      cases mkutf8rangecont fuel st start (min end_ UTF8_ENDBYTE1) false with
      | error e => rfl
      | ok v => rfl
    · rw [if_neg hc, if_neg hc, mkutf8range_or_nil]
  simp only []
  rw [step1, stepB, stepB, stepB]
  cases mkutf8range_or fuel (if start < UTF8_ENDBYTE1 then [(start, min end_ UTF8_ENDBYTE1)]
      else []) (Frag.NIL, st) with
  | error e => rfl
  | ok v =>
    obtain ⟨s1, st1⟩ := v
    simp only []
    rw [stepA (start < UTF8_ENDBYTE2 ∧ end_ > UTF8_ENDBYTE1)
      (max start (UTF8_ENDBYTE1 + 1), min end_ UTF8_ENDBYTE2) s1 st1]
    cases mkutf8range_or fuel (if start < UTF8_ENDBYTE2 ∧ end_ > UTF8_ENDBYTE1 then
        [(max start (UTF8_ENDBYTE1 + 1), min end_ UTF8_ENDBYTE2)] else []) (s1, st1) with
    | error e => rfl
    | ok v =>
      obtain ⟨s2, st2⟩ := v
      simp only []
      rw [stepA (start < UTF8_ENDBYTE3 ∧ end_ > UTF8_ENDBYTE2)
        (max start (UTF8_ENDBYTE2 + 1), min end_ UTF8_ENDBYTE3) s2 st2]
      cases mkutf8range_or fuel (if start < UTF8_ENDBYTE3 ∧ end_ > UTF8_ENDBYTE2 then
          [(max start (UTF8_ENDBYTE2 + 1), min end_ UTF8_ENDBYTE3)] else []) (s2, st2) with
      | error e => rfl
      | ok v =>
        obtain ⟨s3, st3⟩ := v
        simp only []
        exact stepA (end_ > UTF8_ENDBYTE3)
          (max start (UTF8_ENDBYTE3 + 1), min end_ UTF8_ENDBYTE4) s3 st3

/-- C23 (defect): the length-boundary split loses the boundary codepoint.  For
start = 0x7F and end = 0x80 the only sub-range that `mkutf8range` passes to
`mkutf8rangecont` is `[0x80, 0x80]`: the one-byte part is made only when
`start < 0x7F`, so 0x7F lies in no sub-range and the union is not `[start, end]`.  The
same happens at 0x7FF and at 0xFFFF, the tests being `start < 0x7FF` and
`start < 0xFFFF`. -/
theorem mkutf8range_split_drops_boundary :
    mkutf8range_calls 0x7F 0x80 = [(0x80, 0x80)] ∧
    (∀ r ∈ mkutf8range_calls 0x7F 0x80, ¬ (r.1 ≤ 0x7F ∧ 0x7F ≤ r.2)) ∧
    mkutf8range 5 Scanner.start 0x7F 0x80 =
      mkutf8range_or 5 [(0x80, 0x80)] (Frag.NIL, Scanner.start) ∧
    mkutf8range_calls 0x7FF 0x800 = [(0x800, 0x800)] ∧
    mkutf8range_calls 0xFFFF 0x10000 = [(0x10000, 0x10000)] ∧
    mkutf8range_calls 0x7F 0x10FFFF =
      [(0x80, 0x7FF), (0x800, 0xFFFF), (0x10000, 0x10FFFF)] := by
  refine ⟨by decide, by decide, ?_, by decide, by decide, by decide⟩
  rw [mkutf8range_eq_or 5 Scanner.start 0x7F 0x80 (by decide) (by decide)]
  rfl

theorem mem_ite_singleton (c : Prop) [Decidable c] (v r : Int × Int) :
    r ∈ (if c then [v] else []) ↔ c ∧ r = v := by
  split_ifs with hc <;> simp [hc]

theorem mem_mkutf8range_calls (start end_ : Int) (r : Int × Int) :
    r ∈ mkutf8range_calls start end_ ↔
      (start < 0x7f ∧ r = (start, min end_ 0x7f)) ∨
      ((start < 0x7ff ∧ end_ > 0x7f) ∧ r = (max start 0x80, min end_ 0x7ff)) ∨
      ((start < 0xffff ∧ end_ > 0x7ff) ∧ r = (max start 0x800, min end_ 0xffff)) ∨
      (end_ > 0xffff ∧ r = (max start 0x10000, min end_ 0x10ffff)) := by
  unfold mkutf8range_calls
  rw [List.mem_append, List.mem_append, List.mem_append, mem_ite_singleton,
    mem_ite_singleton, mem_ite_singleton, mem_ite_singleton]
  simp only [UTF8_ENDBYTE1, UTF8_ENDBYTE2, UTF8_ENDBYTE3, UTF8_ENDBYTE4, UNICODE_MAX]
  norm_num
  tauto

theorem utf8len_cases (x : Int) :
    utf8len x = if x < 0 then 0 else if x ≤ 0x7f then 1 else if x ≤ 0x7ff then 2
      else if x ≤ 0xffff then 3 else if x ≤ 0x10ffff then 4 else 0 := rfl

theorem mkutf8range_calls_cover (start end_ : Int) (h1 : start < end_)
    (h2 : end_ ≤ 0x10FFFF) (hb : start ≠ 0x7F ∧ start ≠ 0x7FF ∧ start ≠ 0xFFFF) (x : Int) :
    (∃ r ∈ mkutf8range_calls start end_, r.1 ≤ x ∧ x ≤ r.2) ↔ start ≤ x ∧ x ≤ end_ := by
  obtain ⟨b1, b2, b3⟩ := hb
  constructor
  · rintro ⟨r, hr, hx⟩
    rw [mem_mkutf8range_calls] at hr
    rcases hr with ⟨c, rfl⟩ | ⟨c, rfl⟩ | ⟨c, rfl⟩ | ⟨c, rfl⟩ <;> simp only at hx <;>
      simp only [le_min_iff, max_le_iff] at hx <;> omega
  · intro hx
    by_cases c1 : x ≤ 0x7f
    · exact ⟨_, (mem_mkutf8range_calls start end_ _).2 (Or.inl ⟨by omega, rfl⟩),
        by simp only [le_min_iff]; omega⟩
    by_cases c2 : x ≤ 0x7ff
    · exact ⟨_, (mem_mkutf8range_calls start end_ _).2 (Or.inr (Or.inl ⟨by omega, rfl⟩)),
        by simp only [le_min_iff, max_le_iff]; omega⟩
    by_cases c3 : x ≤ 0xffff
    · exact ⟨_, (mem_mkutf8range_calls start end_ _).2
        (Or.inr (Or.inr (Or.inl ⟨by omega, rfl⟩))),
        by simp only [le_min_iff, max_le_iff]; omega⟩
    · exact ⟨_, (mem_mkutf8range_calls start end_ _).2
        (Or.inr (Or.inr (Or.inr ⟨by omega, rfl⟩))),
        by simp only [le_min_iff, max_le_iff]; omega⟩

set_option maxHeartbeats 1000000 in
theorem mkutf8range_calls_pairwise (start end_ : Int) :
    (mkutf8range_calls start end_).Pairwise (fun r s => r.2 < s.1) := by
  unfold mkutf8range_calls
  simp only [UTF8_ENDBYTE1, UTF8_ENDBYTE2, UTF8_ENDBYTE3, UTF8_ENDBYTE4, UNICODE_MAX]
  have r1 := min_le_right end_ 0x7f
  have r2 := min_le_right end_ 0x7ff
  have r3 := min_le_right end_ 0xffff
  have j1 := le_max_right start (0x7f + 1)
  have j2 := le_max_right start (0x7ff + 1)
  have j3 := le_max_right start (0xffff + 1)
  generalize min end_ 0x7f = A1 at *
  generalize min end_ 0x7ff = A2 at *
  generalize min end_ 0xffff = A3 at *
  generalize min end_ 0x10ffff = A4 at *
  generalize max start (0x7f + 1) = B1 at *
  generalize max start (0x7ff + 1) = B2 at *
  generalize max start (0xffff + 1) = B3 at *
  split_ifs <;>
  simp only [List.nil_append, List.append_nil, List.cons_append, List.singleton_append,
    List.pairwise_cons, List.Pairwise.nil, List.mem_cons, List.mem_singleton,
    List.not_mem_nil, forall_eq_or_imp, forall_eq, and_true, true_and, IsEmpty.forall_iff,
    implies_true] <;>
  omega

set_option maxHeartbeats 1000000 in
theorem mkutf8range_calls_one_length (start end_ : Int) (h0 : 0 ≤ start) (h1 : start < end_)
    (h2 : end_ ≤ 0x10FFFF) (hb : start ≠ 0x7F ∧ start ≠ 0x7FF ∧ start ≠ 0xFFFF) :
    ∀ r ∈ mkutf8range_calls start end_, r.1 ≤ r.2 ∧
      ∀ x, r.1 ≤ x → x ≤ r.2 → utf8len x = utf8len r.1 := by
  obtain ⟨b1, b2, b3⟩ := hb
  intro r hr
  rw [mem_mkutf8range_calls] at hr
  rcases hr with ⟨c, rfl⟩ | ⟨c, rfl⟩ | ⟨c, rfl⟩ | ⟨c, rfl⟩
  · refine ⟨by simp only [le_min_iff]; omega, fun x hx1 hx2 => ?_⟩
    simp only [le_min_iff] at hx1 hx2
    rw [utf8len_cases x, utf8len_cases]
    split_ifs <;> omega
  · have k := le_max_right start 0x80
    have m := max_choice start 0x80
    refine ⟨by simp only [le_min_iff, max_le_iff]; omega, fun x hx1 hx2 => ?_⟩
    simp only [le_min_iff] at hx1 hx2
    rw [utf8len_cases x, utf8len_cases]
    generalize max start 0x80 = B at *
    split_ifs <;> omega
  · have k := le_max_right start 0x800
    have m := max_choice start 0x800
    refine ⟨by simp only [le_min_iff, max_le_iff]; omega, fun x hx1 hx2 => ?_⟩
    simp only [le_min_iff] at hx1 hx2
    rw [utf8len_cases x, utf8len_cases]
    generalize max start 0x800 = B at *
    split_ifs <;> omega
  · have k := le_max_right start 0x10000
    have m := max_choice start 0x10000
    refine ⟨by simp only [le_min_iff, max_le_iff]; omega, fun x hx1 hx2 => ?_⟩
    simp only [le_min_iff] at hx1 hx2
    rw [utf8len_cases x, utf8len_cases]
    generalize max start 0x10000 = B at *
    split_ifs <;> omega

/-- Away from the three boundary values the split is a partition: for
0 <= start < end <= 0x10FFFF with start none of 0x7F, 0x7FF, 0xFFFF, the sub-ranges
passed to `mkutf8rangecont` are non-empty, ascending and pairwise disjoint, each holds
codepoints of one encoded length only, and together they cover exactly
`[start, end]`. -/
theorem mkutf8range_calls_partition (start end_ : Int) (h0 : 0 ≤ start) (h1 : start < end_)
    (h2 : end_ ≤ 0x10FFFF) (hb : start ≠ 0x7F ∧ start ≠ 0x7FF ∧ start ≠ 0xFFFF) :
    (∀ x, (∃ r ∈ mkutf8range_calls start end_, r.1 ≤ x ∧ x ≤ r.2) ↔ start ≤ x ∧ x ≤ end_) ∧
    (mkutf8range_calls start end_).Pairwise (fun r s => r.2 < s.1) ∧
    (∀ r ∈ mkutf8range_calls start end_, r.1 ≤ r.2 ∧
      ∀ x, r.1 ≤ x → x ≤ r.2 → utf8len x = utf8len r.1) :=
  ⟨mkutf8range_calls_cover start end_ h1 h2 hb, mkutf8range_calls_pairwise start end_,
    mkutf8range_calls_one_length start end_ h0 h1 h2 hb⟩

theorem mkutf8range_calls_partition_witness :
    mkutf8range_calls 0x41 0x20AC = [(0x41, 0x7F), (0x80, 0x7FF), (0x800, 0x20AC)] ∧
    (∀ x, (∃ r ∈ mkutf8range_calls 0x41 0x20AC, r.1 ≤ x ∧ x ≤ r.2) ↔ 0x41 ≤ x ∧ x ≤ 0x20AC) ∧
    (mkutf8range_calls 0x41 0x20AC).Pairwise (fun r s => r.2 < s.1) ∧
    (∀ r ∈ mkutf8range_calls 0x41 0x20AC, r.1 ≤ r.2 ∧
      ∀ x, r.1 ≤ x → x ≤ r.2 → utf8len x = utf8len r.1) :=
  ⟨by decide, mkutf8range_calls_partition 0x41 0x20AC (by decide) (by decide) (by decide)
    (by decide)⟩

/-! ## The three-part split of `mkutf8rangecont` -/

set_option maxRecDepth 8000 in
/-- C24 (defect): the three-part split loses the interior lead byte when there is
exactly one.  `mkutf8rangecont(0x81, 0x13E, false)` has bytes = 2, b1start = 0xC2,
b1end = 0xC4 = b1start + 2, remstart = 1 > 0 and remend = 62 < top = 63, so
rangestart = rangeend = 0xC3: the middle part is made only when
`rangestart < rangeend`, and the first part, although entered for
`rangestart == rangeend`, makes the state of b1start.  The recursive calls are those
after 0xC2 (on `[1, 63]`) and after 0xC4 (on `[0, 62]`); no alternative starts with
0xC3, and the fragment rejects `C3 A9`, the encoding of 0xE9, which lies in the
range. -/
theorem rangecont_split_drops_middle_lead :
    mkutf8rangecont_bytes 0x13E false = .ok (some 2) ∧
    mkutf8rangecont_calls 0x81 0x13E false =
      [((0xC2, 0xC2), (1, 63)), ((0xC4, 0xC4), (0, 62))] ∧
    (∀ c ∈ mkutf8rangecont_calls 0x81 0x13E false, ¬ (c.1.1 ≤ 0xC3 ∧ 0xC3 ≤ c.1.2)) ∧
    (∃ f st', mkutf8rangecont 5 Scanner.start 0x81 0x13E false = .ok (f, st') ∧
      f = Frag.or (Frag.link (Frag.sym 0xC2) (Frag.sym (-1)))
        (Frag.link (Frag.sym 0xC4) (Frag.sym (-2))) ∧
      Frag.accepts st' f [0xC3, 0xA9] = false) ∧
    utf8_standard 0xE9 = [0xC3, 0xA9] ∧
    (∃ f st', mkrange 5 Scanner.start 0x81 0x13E encoding.UTF8 = .ok (f, st') ∧
      Frag.accepts st' f (utf8_standard 0xE9) = false) := by
  refine ⟨by decide, by decide, by decide, ⟨_, _, rfl, by decide, by decide⟩, by decide,
    ⟨_, _, rfl, by decide⟩⟩

/-! ## Storage growth in `next` -/

set_option maxRecDepth 100000 in
/-- C25 (defect): storage growth does not move the set to the enlarged array.  The
single-byte set `fullSet` holds 63 pairwise non-adjacent ranges and its 64-node array
is full (`next_item` 63, `max_item` 64).  `next` then counts `max_item` up to 96,
hands out a new array of 96 nodes (array 1) and returns its node 63, but `set->first`
is still array 0 with its 64 nodes: the returned node is not in the set's own storage,
although the chain from `set->first` still holds the 63 ranges.  The following call of
`next` returns `&set->first[65]`, a node beyond the end of the 64-node array, and after
70 ranges have been added the chain runs through the nodes 65 to 70 of that array. -/
theorem next_growth_keeps_old_array :
    (fullSet.2.first = 0 ∧ fullSet.2.next_item = 63 ∧ fullSet.2.max_item = 64 ∧
      fullSet.1.size 0 = 64 ∧ charclass.ranges 64 fullSet.1 fullSet.2 = spacedRanges 63) ∧
    (next 64 fullSet.1 fullSet.2).map
        (fun r => (r.2.1, r.2.2, r.1.size 0, r.1.size 1, charclass.ranges 64 r.1 r.2.1)) =
      .ok ({ first := 0, next_item := 64, max_item := 96, mode := encoding.ASCII }, (1, 63),
        64, 96, spacedRanges 63) ∧
    ((next 64 fullSet.1 fullSet.2).bind (fun r => next 64 r.1 r.2.1)).map
        (fun r => (r.2.2, r.1.size 0)) = .ok ((0, 65), 64) ∧
    (buildSetFrom Heap.blank false (spacedRanges 70)).2 =
      { first := 0, next_item := 70, max_item := 96, mode := encoding.ASCII } ∧
    (buildSetFrom Heap.blank false (spacedRanges 70)).1.size 0 = 64 ∧
    (chain_addrs 80 (buildSetFrom Heap.blank false (spacedRanges 70)).1 (some (0, 0))).filter
        (fun a => decide ((buildSetFrom Heap.blank false (spacedRanges 70)).1.size a.1 ≤ a.2)) =
      [(0, 65), (0, 66), (0, 67), (0, 68), (0, 69), (0, 70)] := by
  refine ⟨⟨by decide, by decide, by decide, by decide, by decide⟩, rfl, by decide,
    by decide, by decide, by decide⟩

/-! ## The compiled class against `charclass_contains` -/

/-- C27 (defect): the class made by `charclass_mkstate` can hold a value that
`charclass_contains` denies.  On the initially empty single-byte set the calls
add(5,10), add(20,25), add(11,12), remove(11,11) leave the chain
`[5,10], [12,12], [11,12], [20,25]` (the duplicate `[11,12]` is the defect of C5, and
the removal splits only the merged range).  `charclass_contains(set, 11)` stops at
`[12,12]` and returns false, while `charclass_mkstate` walks the whole chain and adds
11 to the class. -/
theorem mkstate_class_differs_from_contains :
    ∃ h set,
      runOps 8 (buildSet []) [SetOp.add 5 10, SetOp.add 20 25, SetOp.add 11 12,
        SetOp.remove 11 11] = .ok (h, set) ∧
      set.next_item ≠ 0 ∧ set.next_item + 1 < set.max_item ∧
      charclass.ranges 8 h set = [(5, 10), (12, 12), (11, 12), (20, 25)] ∧
      charclass_contains 8 h set 11 = .ok false ∧
      (charclass_mkstate 8 h Scanner.start set).map (fun r => (r.1, r.2.1.ccltbl)) =
        .ok (Frag.sym (-1), [[5, 6, 7, 8, 9, 10, 12, 11, 12, 20, 21, 22, 23, 24, 25]]) ∧
      (11 : Int) ∈ [5, 6, 7, 8, 9, 10, 12, 11, 12, 20, 21, 22, 23, 24, 25] :=
  ⟨_, _, rfl, by decide, by decide, by decide, by decide, by decide, by decide⟩

/-! ## `charclass_mkstate` on a multi-unit set -/

theorem land_pow_mask (a : Int) (h : 0 ≤ a) (k : Nat) :
    Int.land a ((2 : Int) ^ k - 1) = a % (2 : Int) ^ k := by
  obtain ⟨n, rfl⟩ := Int.eq_ofNat_of_zero_le h
  have hk : (1 : Nat) ≤ 2 ^ k := Nat.one_le_two_pow
  have e1 : ((2 : Int) ^ k - 1) = ((2 ^ k - 1 : Nat) : Int) := by
    rw [Nat.cast_sub hk]
    simp
  rw [e1]
  have e2 : Int.land (n : Int) ((2 ^ k - 1 : Nat) : Int) = ((n &&& (2 ^ k - 1) : Nat) : Int) := rfl
  rw [e2, Nat.and_pow_two_sub_one_eq_mod]
  simp

theorem lor_tag_nat (x t : Nat) : Int.lor (x : Int) (t : Int) = ((t ||| x : Nat) : Int) := by
  have e : Int.lor (x : Int) (t : Int) = ((x ||| t : Nat) : Int) := rfl
  rw [e, Nat.lor_comm]

theorem lor_0x80 (x : Int) (h0 : 0 ≤ x) (h : x < 64) : Int.lor x 0x80 = 0x80 + x := by
  obtain ⟨n, rfl⟩ := Int.eq_ofNat_of_zero_le h0
  have e := lor_tag_nat n 0x80
  simp only [Nat.cast_ofNat] at e
  rw [e, tag80 n (by omega)]
  simp

theorem lor_0xC0 (x : Int) (h0 : 0 ≤ x) (h : x < 32) : Int.lor x 0xC0 = 0xC0 + x := by
  obtain ⟨n, rfl⟩ := Int.eq_ofNat_of_zero_le h0
  have e := lor_tag_nat n 0xC0
  simp only [Nat.cast_ofNat] at e
  rw [e, tagC0 n (by omega)]
  simp

theorem lor_0xE0 (x : Int) (h0 : 0 ≤ x) (h : x < 16) : Int.lor x 0xE0 = 0xE0 + x := by
  obtain ⟨n, rfl⟩ := Int.eq_ofNat_of_zero_le h0
  have e := lor_tag_nat n 0xE0
  simp only [Nat.cast_ofNat] at e
  rw [e, tagE0 n (by omega)]
  simp

theorem lor_0xF0 (x : Int) (h0 : 0 ≤ x) (h : x < 16) : Int.lor x 0xF0 = 0xF0 + x := by
  obtain ⟨n, rfl⟩ := Int.eq_ofNat_of_zero_le h0
  have e := lor_tag_nat n 0xF0
  simp only [Nat.cast_ofNat] at e
  rw [e, tagF0 n (by omega)]
  simp

/-- The shape of the recursive calls of one invocation with `bytes` known, in terms of
the quotients and remainders by `D` = 2^(6 (bytes - 1)); `Q` is any consequence of the
two lead bytes being equal. -/
theorem rangecont_calls_shape_gen (Q : Prop) (start end_ : Int) (cont : Bool) (b : Nat)
    (D T : Int)
    (hb : mkutf8rangecont_bytes end_ cont = .ok (some b))
    (e1 : Int.land start T = start % D)
    (e2 : Int.land end_ T = end_ % D)
    (e3 : start >>> ((b - 1) * 6 : Nat) = start / D)
    (e4 : end_ >>> ((b - 1) * 6 : Nat) = end_ / D)
    (e5 : ((1 : Int) <<< (((b - 1) * 6 : Nat) : Int)) - 1 = T)
    (hinj :
      (if cont then Int.lor (start / D) 0x80
        else if b > 1 then
          Int.lor (start / D) (Int.xor 0xff (((1 : Int) <<< ((8 : Int) - (b : Int))) - 1))
        else start / D) =
      (if cont then Int.lor (end_ / D) 0x80
        else if b > 1 then
          Int.lor (end_ / D) (Int.xor 0xff (((1 : Int) <<< ((8 : Int) - (b : Int))) - 1))
        else end_ / D) → Q) :
    ∀ c ∈ mkutf8rangecont_calls start end_ cont,
      (c.2 = (start % D, end_ % D) ∧ Q) ∨
      (start / D ≠ end_ / D ∧
        (c.2 = (start % D, T) ∨ c.2 = (0, T) ∨ c.2 = (0, end_ % D))) := by
  intro c hc
  unfold mkutf8rangecont_calls at hc
  rw [hb] at hc
  simp only [e5] at hc
  simp only [e1, e2, e3, e4] at hc
  by_cases heq :
      (if cont then Int.lor (start / D) 0x80
        else if b > 1 then
          Int.lor (start / D) (Int.xor 0xff (((1 : Int) <<< ((8 : Int) - (b : Int))) - 1))
        else start / D) =
      (if cont then Int.lor (end_ / D) 0x80
        else if b > 1 then
          Int.lor (end_ / D) (Int.xor 0xff (((1 : Int) <<< ((8 : Int) - (b : Int))) - 1))
        else end_ / D)
  · rw [if_pos heq] at hc
    rw [List.mem_singleton] at hc
    exact Or.inl ⟨by rw [hc], hinj heq⟩
  · have hq : start / D ≠ end_ / D := by
      intro h
      apply heq
      rw [h]
    rw [if_neg heq] at hc
    refine Or.inr ⟨hq, ?_⟩
    split_ifs at hc <;>
    simp only [List.nil_append, List.append_nil, List.cons_append, List.singleton_append,
      List.mem_cons, List.mem_singleton, List.not_mem_nil, or_false] at hc <;>
    (first
      | exact absurd hc id
      | (rcases hc with hc | hc | hc <;> rw [hc] <;> simp)
      | (rcases hc with hc | hc <;> rw [hc] <;> simp)
      | (rw [hc]; simp))

/-- The shape of the recursive calls when equal lead bytes force equal quotients. -/
theorem rangecont_calls_shape (start end_ : Int) (cont : Bool) (b : Nat) (D T : Int)
    (hb : mkutf8rangecont_bytes end_ cont = .ok (some b))
    (e1 : Int.land start T = start % D)
    (e2 : Int.land end_ T = end_ % D)
    (e3 : start >>> ((b - 1) * 6 : Nat) = start / D)
    (e4 : end_ >>> ((b - 1) * 6 : Nat) = end_ / D)
    (e5 : ((1 : Int) <<< (((b - 1) * 6 : Nat) : Int)) - 1 = T)
    (hinj :
      (if cont then Int.lor (start / D) 0x80
        else if b > 1 then
          Int.lor (start / D) (Int.xor 0xff (((1 : Int) <<< ((8 : Int) - (b : Int))) - 1))
        else start / D) =
      (if cont then Int.lor (end_ / D) 0x80
        else if b > 1 then
          Int.lor (end_ / D) (Int.xor 0xff (((1 : Int) <<< ((8 : Int) - (b : Int))) - 1))
        else end_ / D) → start / D = end_ / D) :
    ∀ c ∈ mkutf8rangecont_calls start end_ cont,
      (c.2 = (start % D, end_ % D) ∧ start / D = end_ / D) ∨
      (start / D ≠ end_ / D ∧
        (c.2 = (start % D, T) ∨ c.2 = (0, T) ∨ c.2 = (0, end_ % D))) :=
  rangecont_calls_shape_gen (start / D = end_ / D) start end_ cont b D T hb e1 e2 e3 e4 e5 hinj

theorem land_mask0 (a : Int) (h : 0 ≤ a) : Int.land a 0 = a % 1 := by
  have e := land_pow_mask a h 0
  norm_num at e
  rw [e]
  simp

theorem land_mask63 (a : Int) (h : 0 ≤ a) : Int.land a 63 = a % 64 := by
  have e := land_pow_mask a h 6
  norm_num at e
  exact e

theorem land_mask4095 (a : Int) (h : 0 ≤ a) : Int.land a 4095 = a % 4096 := by
  have e := land_pow_mask a h 12
  norm_num at e
  exact e

theorem land_mask262143 (a : Int) (h : 0 ≤ a) : Int.land a 262143 = a % 262144 := by
  have e := land_pow_mask a h 18
  norm_num at e
  exact e

theorem rangecont_calls_bounds_start4 (start end_ : Int) (h0 : 0 ≤ start) (h1 : start ≤ end_)
    (h2 : end_ ≤ 0x10FFFF) (c4 : end_ > 0xffff) :
    ∀ c ∈ mkutf8rangecont_calls start end_ false,
      0 ≤ c.2.1 ∧ c.2.1 ≤ c.2.2 ∧ c.2.2 ≤ 0x3FFFF ∧ c.2.2 ≤ end_ := by
  intro c hc
  have hb := bytes_start end_ (by omega)
  rw [if_pos c4] at hb
  have e3 : start >>> ((4 - 1) * 6 : Nat) = start / 262144 := by
    rw [Int.shiftRight_eq_div_pow]
    norm_num
  have e4 : end_ >>> ((4 - 1) * 6 : Nat) = end_ / 262144 := by
    rw [Int.shiftRight_eq_div_pow]
    norm_num
  have t : Int.xor 0xff (((1 : Int) <<< ((8 : Int) - ((4 : Nat) : Int))) - 1) = 0xF0 := by decide
  have sh := rangecont_calls_shape start end_ false 4 262144 262143 hb
    (land_mask262143 start h0) (land_mask262143 end_ (by omega)) e3 e4 (by decide)
    (by
      intro h
      rw [t] at h
      simp only [Bool.false_eq_true, if_false, gt_iff_lt, Nat.one_lt_ofNat, if_true] at h
      rw [lor_0xF0 _ (by omega) (by omega), lor_0xF0 _ (by omega) (by omega)] at h
      omega) c hc
  rcases sh with ⟨hc2, hq⟩ | ⟨hq, hc2 | hc2 | hc2⟩ <;> rw [hc2] <;> simp only [] <;> omega

theorem rangecont_calls_bounds_start3 (start end_ : Int) (h0 : 0 ≤ start) (h1 : start ≤ end_)
    (c4 : ¬ end_ > 0xffff) (c3 : end_ > 0x7ff) :
    ∀ c ∈ mkutf8rangecont_calls start end_ false,
      0 ≤ c.2.1 ∧ c.2.1 ≤ c.2.2 ∧ c.2.2 ≤ 0x3FFFF ∧ c.2.2 ≤ end_ := by
  intro c hc
  have hb := bytes_start end_ (by omega)
  rw [if_neg c4, if_pos c3] at hb
  have e3 : start >>> ((3 - 1) * 6 : Nat) = start / 4096 := by
    rw [Int.shiftRight_eq_div_pow]
    norm_num
  have e4 : end_ >>> ((3 - 1) * 6 : Nat) = end_ / 4096 := by
    rw [Int.shiftRight_eq_div_pow]
    norm_num
  have t : Int.xor 0xff (((1 : Int) <<< ((8 : Int) - ((3 : Nat) : Int))) - 1) = 0xE0 := by decide
  have sh := rangecont_calls_shape start end_ false 3 4096 4095 hb
    (land_mask4095 start h0) (land_mask4095 end_ (by omega)) e3 e4 (by decide)
    (by
      intro h
      rw [t] at h
      simp only [Bool.false_eq_true, if_false, gt_iff_lt, Nat.one_lt_ofNat, if_true] at h
      rw [lor_0xE0 _ (by omega) (by omega), lor_0xE0 _ (by omega) (by omega)] at h
      omega) c hc
  rcases sh with ⟨hc2, hq⟩ | ⟨hq, hc2 | hc2 | hc2⟩ <;> rw [hc2] <;> simp only [] <;> omega

theorem rangecont_calls_bounds_start2 (start end_ : Int) (h0 : 0 ≤ start) (h1 : start ≤ end_)
    (c4 : ¬ end_ > 0xffff) (c3 : ¬ end_ > 0x7ff) (c2 : end_ > 0x7f) :
    ∀ c ∈ mkutf8rangecont_calls start end_ false,
      0 ≤ c.2.1 ∧ c.2.1 ≤ c.2.2 ∧ c.2.2 ≤ 0x3FFFF ∧ c.2.2 ≤ end_ := by
  intro c hc
  have hb := bytes_start end_ (by omega)
  rw [if_neg c4, if_neg c3, if_pos c2] at hb
  have e3 : start >>> ((2 - 1) * 6 : Nat) = start / 64 := by
    rw [Int.shiftRight_eq_div_pow]
    norm_num
  have e4 : end_ >>> ((2 - 1) * 6 : Nat) = end_ / 64 := by
    rw [Int.shiftRight_eq_div_pow]
    norm_num
  have t : Int.xor 0xff (((1 : Int) <<< ((8 : Int) - ((2 : Nat) : Int))) - 1) = 0xC0 := by decide
  have sh := rangecont_calls_shape start end_ false 2 64 63 hb
    (land_mask63 start h0) (land_mask63 end_ (by omega)) e3 e4 (by decide)
    (by
      intro h
      rw [t] at h
      simp only [Bool.false_eq_true, if_false, gt_iff_lt, Nat.one_lt_ofNat, if_true] at h
      rw [lor_0xC0 _ (by omega) (by omega), lor_0xC0 _ (by omega) (by omega)] at h
      omega) c hc
  rcases sh with ⟨hc2, hq⟩ | ⟨hq, hc2 | hc2 | hc2⟩ <;> rw [hc2] <;> simp only [] <;> omega

theorem rangecont_calls_bounds_start1 (start end_ : Int) (h0 : 0 ≤ start) (_ : start ≤ end_)
    (c4 : ¬ end_ > 0xffff) (c3 : ¬ end_ > 0x7ff) (c2 : ¬ end_ > 0x7f) (c1 : end_ > 0) :
    ∀ c ∈ mkutf8rangecont_calls start end_ false,
      0 ≤ c.2.1 ∧ c.2.1 ≤ c.2.2 ∧ c.2.2 ≤ 0x3FFFF ∧ c.2.2 ≤ end_ := by
  intro c hc
  have hb := bytes_start end_ (by omega)
  rw [if_neg c4, if_neg c3, if_neg c2, if_pos c1] at hb
  have e3 : start >>> ((1 - 1) * 6 : Nat) = start / 1 := by
    rw [Int.shiftRight_eq_div_pow]
    norm_num
  have e4 : end_ >>> ((1 - 1) * 6 : Nat) = end_ / 1 := by
    rw [Int.shiftRight_eq_div_pow]
    norm_num
  have sh := rangecont_calls_shape start end_ false 1 1 0 hb
    (land_mask0 start h0) (land_mask0 end_ (by omega)) e3 e4 (by decide)
    (by
      intro h
      simp only [Bool.false_eq_true, if_false, gt_iff_lt, lt_self_iff_false] at h
      exact h) c hc
  rcases sh with ⟨hc2, hq⟩ | ⟨hq, hc2 | hc2 | hc2⟩ <;> rw [hc2] <;> simp only [] <;> omega

theorem rangecont_calls_bounds_cont3 (start end_ : Int) (h0 : 0 ≤ start) (h1 : start ≤ end_)
    (h2 : end_ ≤ 0x3FFFF) (c3 : end_ ≥ 4096) :
    ∀ c ∈ mkutf8rangecont_calls start end_ true,
      0 ≤ c.2.1 ∧ c.2.1 ≤ c.2.2 ∧ c.2.2 ≤ 0x3FFFF ∧ c.2.2 < end_ := by
  intro c hc
  have hb := bytes_cont end_ (by omega)
  rw [if_pos c3] at hb
  have e3 : start >>> ((3 - 1) * 6 : Nat) = start / 4096 := by
    rw [Int.shiftRight_eq_div_pow]
    norm_num
  have e4 : end_ >>> ((3 - 1) * 6 : Nat) = end_ / 4096 := by
    rw [Int.shiftRight_eq_div_pow]
    norm_num
  have sh := rangecont_calls_shape start end_ true 3 4096 4095 hb
    (land_mask4095 start h0) (land_mask4095 end_ (by omega)) e3 e4 (by decide)
    (by
      intro h
      simp only [if_true] at h
      rw [lor_0x80 _ (by omega) (by omega), lor_0x80 _ (by omega) (by omega)] at h
      omega) c hc
  rcases sh with ⟨hc2, hq⟩ | ⟨hq, hc2 | hc2 | hc2⟩ <;> rw [hc2] <;> simp only [] <;> omega

theorem rangecont_calls_bounds_cont2 (start end_ : Int) (h0 : 0 ≤ start) (h1 : start ≤ end_)
    (c3 : ¬ end_ ≥ 4096) (c2 : end_ ≥ 64) :
    ∀ c ∈ mkutf8rangecont_calls start end_ true,
      0 ≤ c.2.1 ∧ c.2.1 ≤ c.2.2 ∧ c.2.2 ≤ 0x3FFFF ∧ c.2.2 < end_ := by
  intro c hc
  have hb := bytes_cont end_ (by omega)
  rw [if_neg c3, if_pos c2] at hb
  have e3 : start >>> ((2 - 1) * 6 : Nat) = start / 64 := by
    rw [Int.shiftRight_eq_div_pow]
    norm_num
  have e4 : end_ >>> ((2 - 1) * 6 : Nat) = end_ / 64 := by
    rw [Int.shiftRight_eq_div_pow]
    norm_num
  have sh := rangecont_calls_shape start end_ true 2 64 63 hb
    (land_mask63 start h0) (land_mask63 end_ (by omega)) e3 e4 (by decide)
    (by
      intro h
      simp only [if_true] at h
      rw [lor_0x80 _ (by omega) (by omega), lor_0x80 _ (by omega) (by omega)] at h
      omega) c hc
  rcases sh with ⟨hc2, hq⟩ | ⟨hq, hc2 | hc2 | hc2⟩ <;> rw [hc2] <;> simp only [] <;> omega

theorem rangecont_calls_bounds_cont1 (start end_ : Int) (h0 : 0 ≤ start) (h1 : start ≤ end_)
    (c3 : ¬ end_ ≥ 4096) (c2 : ¬ end_ ≥ 64) (c1 : end_ > 0) :
    ∀ c ∈ mkutf8rangecont_calls start end_ true,
      0 ≤ c.2.1 ∧ c.2.1 ≤ c.2.2 ∧ c.2.2 ≤ 0x3FFFF ∧ c.2.2 < end_ := by
  intro c hc
  have hb := bytes_cont end_ (by omega)
  rw [if_neg c3, if_neg c2, if_pos c1] at hb
  have e3 : start >>> ((1 - 1) * 6 : Nat) = start / 1 := by
    rw [Int.shiftRight_eq_div_pow]
    norm_num
  have e4 : end_ >>> ((1 - 1) * 6 : Nat) = end_ / 1 := by
    rw [Int.shiftRight_eq_div_pow]
    norm_num
  have sh := rangecont_calls_shape start end_ true 1 1 0 hb
    (land_mask0 start h0) (land_mask0 end_ (by omega)) e3 e4 (by decide)
    (by
      intro h
      simp only [if_true] at h
      rw [lor_0x80 _ (by omega) (by omega), lor_0x80 _ (by omega) (by omega)] at h
      omega) c hc
  rcases sh with ⟨hc2, hq⟩ | ⟨hq, hc2 | hc2 | hc2⟩ <;> rw [hc2] <;> simp only [] <;> omega

theorem rangecont_calls_zero (start : Int) (cont : Bool) :
    mkutf8rangecont_calls start 0 cont = [] := by
  cases cont <;> rfl

/-- Every recursive call made by one invocation of `mkutf8rangecont` with an ordered,
non-negative range has ordered, non-negative arguments below 2^18 whose end is no larger
than the caller's end, and strictly smaller when the caller is a continuation call. -/
theorem rangecont_calls_bounds (start end_ : Int) (cont : Bool) (h0 : 0 ≤ start)
    (h1 : start ≤ end_) (h2 : end_ ≤ 0x10FFFF) (h3 : cont = true → end_ ≤ 0x3FFFF) :
    ∀ c ∈ mkutf8rangecont_calls start end_ cont,
      0 ≤ c.2.1 ∧ c.2.1 ≤ c.2.2 ∧ c.2.2 ≤ 0x3FFFF ∧ c.2.2 ≤ end_ ∧
        (cont = true → c.2.2 < end_) := by
  intro c hc
  by_cases hz : end_ = 0
  · subst hz
    rw [rangecont_calls_zero] at hc
    exact absurd hc (List.not_mem_nil _)
  have hpos : end_ > 0 := by omega
  cases cont
  · have key : 0 ≤ c.2.1 ∧ c.2.1 ≤ c.2.2 ∧ c.2.2 ≤ 0x3FFFF ∧ c.2.2 ≤ end_ := by
      by_cases c4 : end_ > 0xffff
      · exact rangecont_calls_bounds_start4 start end_ h0 h1 h2 c4 c hc
      by_cases c3 : end_ > 0x7ff
      · exact rangecont_calls_bounds_start3 start end_ h0 h1 c4 c3 c hc
      by_cases c2 : end_ > 0x7f
      · exact rangecont_calls_bounds_start2 start end_ h0 h1 c4 c3 c2 c hc
      exact rangecont_calls_bounds_start1 start end_ h0 h1 c4 c3 c2 hpos c hc
    exact ⟨key.1, key.2.1, key.2.2.1, key.2.2.2, fun h => absurd h (by decide)⟩
  · have key : 0 ≤ c.2.1 ∧ c.2.1 ≤ c.2.2 ∧ c.2.2 ≤ 0x3FFFF ∧ c.2.2 < end_ := by
      by_cases c3 : end_ ≥ 4096
      · exact rangecont_calls_bounds_cont3 start end_ h0 h1 (h3 rfl) c3 c hc
      by_cases c2 : end_ ≥ 64
      · exact rangecont_calls_bounds_cont2 start end_ h0 h1 c3 c2 c hc
      exact rangecont_calls_bounds_cont1 start end_ h0 h1 c3 c2 hpos c hc
    exact ⟨key.1, key.2.1, key.2.2.1, le_of_lt key.2.2.2, fun _ => key.2.2.2⟩

theorem rangecont_calls_bounds_cont_large (start end_ : Int) (h0 : 0 ≤ start)
    (c3 : end_ ≥ 4096) :
    ∀ c ∈ mkutf8rangecont_calls start end_ true,
      0 ≤ c.2.1 ∧ 0 ≤ c.2.2 ∧ c.2.2 ≤ 4095 := by
  intro c hc
  have hb := bytes_cont end_ (by omega)
  rw [if_pos c3] at hb
  have e3 : start >>> ((3 - 1) * 6 : Nat) = start / 4096 := by
    rw [Int.shiftRight_eq_div_pow]
    norm_num
  have e4 : end_ >>> ((3 - 1) * 6 : Nat) = end_ / 4096 := by
    rw [Int.shiftRight_eq_div_pow]
    norm_num
  have sh := rangecont_calls_shape_gen True start end_ true 3 4096 4095 hb
    (land_mask4095 start h0) (land_mask4095 end_ (by omega)) e3 e4 (by decide)
    (fun _ => trivial) c hc
  rcases sh with ⟨hc2, _⟩ | ⟨_, hc2 | hc2 | hc2⟩ <;> rw [hc2] <;> simp only [] <;> omega

theorem rangecont_cont_returns (fuel : Nat) (st : Scanner) (s e : Int) (h0 : 0 ≤ s)
    (h1 : 0 ≤ e) : ∃ r, mkutf8rangecont (fuel + 4) st s e true = .ok r := by
  by_cases c : e ≥ 4096
  · exact rangecont_step_top (fuel + 3) st s e true 3 4095
      (by rw [bytes_cont e h1, if_pos c]) (by decide)
      h0 h1 (by decide) (fun st' s' e' a1 a2 a3 => rangecont_cont2 fuel st' s' e' a1 a2 a3)
  · exact rangecont_cont2 (fuel + 1) st s e h0 h1 (by omega)

/-- The list `mkutf8rangecont_calls` holds every recursive call of one invocation: when
each call in it returns, the invocation returns. -/
theorem rangecont_returns_of_calls (fuel : Nat) (st : Scanner) (start end_ : Int)
    (cont : Bool) (hb : ∀ e, mkutf8rangecont_bytes end_ cont ≠ .error e)
    (H : ∀ c ∈ mkutf8rangecont_calls start end_ cont, ∀ (st' : Scanner),
      ∃ r, mkutf8rangecont fuel st' c.2.1 c.2.2 true = .ok r) :
    ∃ r, mkutf8rangecont (fuel + 1) st start end_ cont = .ok r := by
  unfold mkutf8rangecont_calls at H
  unfold mkutf8rangecont
  split
  · rename_i e heq
    exact absurd heq (hb e)
  · exact ⟨_, rfl⟩
  · rename_i bytes heq
    rw [heq] at H
    simp only [] at H
    lift_lets
    intro masklen top remstart remend b1start0 b1end0 tag b1start b1end state rangestart
      rangeend part1 state_1
    have HH1 : b1start = b1end → ∀ (st' : Scanner),
        ∃ r, mkutf8rangecont fuel st' remstart remend true = .ok r := by
      intro c st'
      refine H ((b1start, b1start), (remstart, remend)) ?_ st'
      show ((b1start, b1start), (remstart, remend)) ∈
        (if b1start = b1end then [((b1start, b1start), (remstart, remend))] else _)
      rw [if_pos c]
      exact List.mem_singleton.2 rfl
    have HH2 : b1start ≠ b1end → bytes ≠ 1 → (remstart > 0 ∨ rangestart = rangeend) →
        ∀ (st' : Scanner), ∃ r, mkutf8rangecont fuel st' remstart top true = .ok r := by
      intro c1 c2 c3 st'
      refine H ((b1start, b1start), (remstart, top)) ?_ st'
      show ((b1start, b1start), (remstart, top)) ∈
        (if b1start = b1end then [((b1start, b1start), (remstart, remend))]
          else if bytes = 1 then []
          else
            (if remstart > 0 ∨ rangestart = rangeend then
              [((b1start, b1start), (remstart, top))] else []) ++
            (if rangestart < rangeend then [((rangestart, rangeend), (0, top))] else []) ++
            (if remend < top ∨ remstart ≠ 0 then [((b1end, b1end), (0, remend))] else []))
      rw [if_neg c1, if_neg c2, if_pos c3]
      simp
    have HH3 : b1start ≠ b1end → bytes ≠ 1 → rangestart < rangeend →
        ∀ (st' : Scanner), ∃ r, mkutf8rangecont fuel st' 0 top true = .ok r := by
      intro c1 c2 c3 st'
      refine H ((rangestart, rangeend), (0, top)) ?_ st'
      show ((rangestart, rangeend), (0, top)) ∈
        (if b1start = b1end then [((b1start, b1start), (remstart, remend))]
          else if bytes = 1 then []
          else
            (if remstart > 0 ∨ rangestart = rangeend then
              [((b1start, b1start), (remstart, top))] else []) ++
            (if rangestart < rangeend then [((rangestart, rangeend), (0, top))] else []) ++
            (if remend < top ∨ remstart ≠ 0 then [((b1end, b1end), (0, remend))] else []))
      rw [if_neg c1, if_neg c2, if_pos c3]
      simp
    have HH4 : b1start ≠ b1end → bytes ≠ 1 → (remend < top ∨ remstart ≠ 0) →
        ∀ (st' : Scanner), ∃ r, mkutf8rangecont fuel st' 0 remend true = .ok r := by
      intro c1 c2 c3 st'
      refine H ((b1end, b1end), (0, remend)) ?_ st'
      show ((b1end, b1end), (0, remend)) ∈
        (if b1start = b1end then [((b1start, b1start), (remstart, remend))]
          else if bytes = 1 then []
          else
            (if remstart > 0 ∨ rangestart = rangeend then
              [((b1start, b1start), (remstart, top))] else []) ++
            (if rangestart < rangeend then [((rangestart, rangeend), (0, top))] else []) ++
            (if remend < top ∨ remstart ≠ 0 then [((b1end, b1end), (0, remend))] else []))
      rw [if_neg c1, if_neg c2, if_pos c3]
      simp
    by_cases c1 : b1start = b1end
    · rw [if_pos c1]
      obtain ⟨r, hr⟩ := HH1 c1 st
      rw [hr]
      exact ⟨_, rfl⟩
    by_cases c2 : bytes = 1
    · rw [if_neg c1, if_pos c2]
      exact ⟨_, rfl⟩
    have G2 := HH2 c1 c2
    have G3 := HH3 c1 c2
    have G4 := HH4 c1 c2
    have hp1 : ∃ v, part1 = .ok v := by
      simp only [part1]
      split_ifs with c
      · obtain ⟨r, hr⟩ := G2 c st
        rw [hr]
        exact ⟨_, rfl⟩
      · exact ⟨_, rfl⟩
    obtain ⟨⟨ret1, st1⟩, hp1⟩ := hp1
    clear HH1 HH2 HH3 HH4 H
    clear_value part1 state state_1 rangestart rangeend b1start b1end tag b1start0 b1end0
      remstart remend top
    subst hp1
    have tail : ∀ (ret : Frag) (st2 : Scanner), ∃ r,
        (if remend < top ∨ remstart ≠ 0 then
          match mkutf8rangecont fuel st2 0 remend true with
          | Except.error e => Except.error e
          | Except.ok (nextstate, st) =>
            Except.ok (if ret ≠ Frag.NIL then
              mkor ret (if nextstate ≠ Frag.NIL then link_machines state_1 nextstate
                else state_1)
              else (if nextstate ≠ Frag.NIL then link_machines state_1 nextstate
                else state_1), st)
        else Except.ok (ret, st2)) = Except.ok r := by
      intro ret st2
      by_cases c4 : remend < top ∨ remstart ≠ 0
      · rw [if_pos c4]
        obtain ⟨r, hr⟩ := G4 c4 st2
        rw [hr]
        exact ⟨_, rfl⟩
      · rw [if_neg c4]
        exact ⟨_, rfl⟩
    rw [if_neg c1, if_neg c2]
    simp only []
    by_cases c3 : rangestart < rangeend
    · rw [if_pos c3]
      generalize hX : mkutf8rangecont fuel _ 0 top true = res
      cases res with
      | error e =>
        obtain ⟨r, hr⟩ := G3 c3 _
        rw [hr] at hX
        exact absurd hX (by simp)
      | ok v =>
        obtain ⟨ns, st3⟩ := v
        exact tail _ _
    · rw [if_neg c3]
      exact tail ret1 st1

/-! ## C28: termination of `mkutf8rangecont` and the arguments of its recursive calls -/

/-- C28 (counterexample): the recursive call of `mkutf8rangecont (0x10000, 0x10005, false)`,
an invocation that `mkutf8range (0x10000, 0x10005)` makes, has the arguments
(0x10000, 0x10005): its end equals the end of the caller, it is not strictly smaller.
And `mkutf8rangecont (5, 0x80000, true)` requests the inverted range (5, 0).  Both
invocations return all the same. -/
theorem rangecont_call_end_not_smaller :
    mkutf8rangecont_calls 0x10000 0x10005 false = [((0xF0, 0xF0), (0x10000, 0x10005))] ∧
    mkutf8range_calls 0x10000 0x10005 = [(0x10000, 0x10005)] ∧
    (∀ c ∈ mkutf8rangecont_calls 0x10000 0x10005 false, ¬ c.2.2 < 0x10005) ∧
    mkutf8rangecont_calls 5 0x80000 true = [((0x80, 0x80), (5, 0))] ∧
    (∀ c ∈ mkutf8rangecont_calls 5 0x80000 true, ¬ c.2.1 ≤ c.2.2) ∧
    (mkutf8rangecont 5 Scanner.start 0x10000 0x10005 false).toOption.isSome = true ∧
    (mkutf8rangecont 5 Scanner.start 5 0x80000 true).toOption.isSome = true := by
  refine ⟨by decide, by decide, by decide, by decide, by decide, by decide, by decide⟩

/-- C28 (amended): for 0 <= start <= end <= 0x10FFFF and either value of cont,
`mkutf8rangecont` returns (fuel 5 suffices, so neither the fatal branch nor an unbounded
recursion is reached), and every recursive call of the invocation has arguments (s', e')
with 0 <= s', 0 <= e' <= 0x3FFFF and e' <= end; e' < end when the caller is a
continuation call; and s' <= e' whenever the caller is not a continuation call or its end
is at most 0x3FFFF, which by the bound on e' holds for every nested call. -/
theorem rangecont_returns_calls_bounded (fuel : Nat) (st : Scanner) (start end_ : Int)
    (cont : Bool) (h0 : 0 ≤ start) (h1 : start ≤ end_) (h2 : end_ ≤ 0x10FFFF) :
    (∃ r, mkutf8rangecont (fuel + 5) st start end_ cont = .ok r) ∧
    ∀ c ∈ mkutf8rangecont_calls start end_ cont,
      0 ≤ c.2.1 ∧ 0 ≤ c.2.2 ∧ c.2.2 ≤ 0x3FFFF ∧ c.2.2 ≤ end_ ∧
        (cont = true → c.2.2 < end_) ∧
        ((cont = true → end_ ≤ 0x3FFFF) → c.2.1 ≤ c.2.2) := by
  constructor
  · cases cont
    · exact rangecont_returns fuel st start end_ h0 (by omega)
    · exact rangecont_cont_returns (fuel + 1) st start end_ h0 (by omega)
  · intro c hc
    by_cases hbig : cont = true → end_ ≤ 0x3FFFF
    · have k := rangecont_calls_bounds start end_ cont h0 h1 h2 hbig c hc
      exact ⟨k.1, by omega, k.2.2.1, k.2.2.2.1, k.2.2.2.2, fun _ => k.2.1⟩
    · have hc1 : cont = true := by
        by_contra hne
        exact hbig (fun h => absurd h hne)
      have hc2 : ¬ end_ ≤ 0x3FFFF := fun h => hbig (fun _ => h)
      subst hc1
      have k := rangecont_calls_bounds_cont_large start end_ h0 (by omega) c hc
      exact ⟨k.1, k.2.1, by omega, by omega, fun _ => by omega, fun h => absurd h hbig⟩

theorem rangecont_returns_calls_bounded_witness :
    (0 : Int) ≤ 0x10000 ∧ (0x10000 : Int) ≤ 0x10005 ∧ (0x10005 : Int) ≤ 0x10FFFF ∧
    ((∃ r, mkutf8rangecont (0 + 5) Scanner.start 0x10000 0x10005 false = .ok r) ∧
    ∀ c ∈ mkutf8rangecont_calls 0x10000 0x10005 false,
      0 ≤ c.2.1 ∧ 0 ≤ c.2.2 ∧ c.2.2 ≤ 0x3FFFF ∧ c.2.2 ≤ 0x10005 ∧
        (false = true → c.2.2 < 0x10005) ∧
        ((false = true → (0x10005 : Int) ≤ 0x3FFFF) → c.2.1 ≤ c.2.2)) :=
  ⟨by decide, by decide, by decide,
    rangecont_returns_calls_bounded 0 Scanner.start 0x10000 0x10005 false (by decide) (by decide)
      (by decide)⟩

/-! ## The operations on a set whose storage has grown, and `charclass_add` at `INT_MAX` -/

set_option maxRecDepth 100000 in
/-- C6 (defect): membership after `charclass_add` fails in two ways although no storage
growth is triggered.  First, the test of line 126 computes `item->end + 1` as an `int`:
on the well-formed set {[10, INT_MAX]}, fresh from `charclass_init` and one
`charclass_add`, the sum wraps to `INT_MIN`, so `charclass_add(set, 5, 20)` finds no
overlap and appends `[5, 20]` after `[10, INT_MAX]`; `charclass_contains(set, 7)` then
stops at the start 10 and returns false, although 5 <= 7 <= 20.  Second, on the set
`grownSet` (the well-formed set {[5, 9]} after 63 add/remove cycles, `next_item` 64,
`max_item` 96, but `set->first` still the array of 64 nodes: `next` never moved the
set to the array it made when growing), `charclass_add(set, 20, 25)` triggers no
growth (65 < 96) and takes the node `set->first[65]`, which lies beyond the end of the
array. -/
theorem charclass_add_wraps_and_leaves_array :
    (WellFormed [(10, INT_MAX)] ∧
      (buildSet [(10, INT_MAX)]).2 =
        { first := 0, next_item := 1, max_item := 64, mode := encoding.ASCII } ∧
      (buildSet [(10, INT_MAX)]).1.size 0 = 64 ∧
      charclass.ranges 4 (buildSet [(10, INT_MAX)]).1 (buildSet [(10, INT_MAX)]).2 =
        [(10, INT_MAX)] ∧
      wrap32 (INT_MAX + 1) = INT_MIN ∧
      (charclass_add 4 (buildSet [(10, INT_MAX)]).1 (buildSet [(10, INT_MAX)]).2 5 20).map
          (fun r => (r.2, charclass.ranges 4 r.1 r.2, charclass_contains 4 r.1 r.2 7)) =
        .ok ({ first := 0, next_item := 2, max_item := 64, mode := encoding.ASCII },
          [(10, INT_MAX), (5, 20)], .ok false)) ∧
    (runOps 4 (buildSet []) cycleOps = .ok grownSet ∧
      grownSet.2 = { first := 0, next_item := 64, max_item := 96, mode := encoding.ASCII } ∧
      grownSet.1.size 0 = 64 ∧
      charclass.ranges 4 grownSet.1 grownSet.2 = [(5, 9)] ∧
      chain_addrs 4 grownSet.1 (some (0, 0)) = [(0, 0)] ∧
      (charclass_add 4 grownSet.1 grownSet.2 20 25).map
          (fun r => (r.2, chain_addrs 4 r.1 (some (r.2.first, 0)), r.1.size 0,
            charclass.ranges 4 r.1 r.2)) =
        .ok ({ first := 0, next_item := 65, max_item := 96, mode := encoding.ASCII },
          [(0, 0), (0, 65)], 64, [(5, 9), (20, 25)])) := by
  refine ⟨⟨by unfold WellFormed; decide, by decide, by decide, by decide, by decide, rfl⟩,
    rfl, by decide, by decide, by decide, by decide, rfl⟩

set_option maxRecDepth 100000 in
/-- C7 (defect): `charclass_remove` on a well-formed set whose storage has grown writes
beyond the set's array.  `grownSet` is the set {[5, 9]} reached from `charclass_init` by
`charclass_add(set, 5, 9)` and 63 add/remove cycles: `next_item` is 64 and `max_item`
96, but `set->first` is still the array of 64 nodes, because `next` never moved the set
to the array it made when growing.  `charclass_remove(set, 7, 7)` splits `[5, 9]` and
takes the new node from `next`, which clears `set->first[65].next` and returns
`&set->first[65]`: a node beyond the end of the 64-node array, into which the range
`[8, 9]` is then stored. -/
theorem charclass_remove_writes_beyond_array :
    runOps 4 (buildSet []) cycleOps = .ok grownSet ∧
    grownSet.2 = { first := 0, next_item := 64, max_item := 96, mode := encoding.ASCII } ∧
    grownSet.1.size 0 = 64 ∧
    charclass.ranges 4 grownSet.1 grownSet.2 = [(5, 9)] ∧
    WellFormed [(5, 9)] ∧
    chain_addrs 4 grownSet.1 (some (0, 0)) = [(0, 0)] ∧
    (charclass_remove 4 grownSet.1 grownSet.2 7 7).map
        (fun r => (r.2, chain_addrs 4 r.1 (some (r.2.first, 0)), r.1.size 0,
          charclass.ranges 4 r.1 r.2)) =
      .ok ({ first := 0, next_item := 65, max_item := 96, mode := encoding.ASCII },
        [(0, 0), (0, 65)], 64, [(5, 6), (8, 9)]) := by
  refine ⟨rfl, by decide, by decide, by decide, by unfold WellFormed; decide, by decide, rfl⟩

set_option maxRecDepth 100000 in
/-- C8 (defect): `charclass_negate` on a non-empty well-formed set whose storage has
grown writes beyond the set's array.  On `grownSet` (the set {[5, 9]} after 63
add/remove cycles: `next_item` 64, `max_item` 96, `set->first` still the array of 64
nodes) with the domain `[0, 255]`, the first node becomes `[0, 4]` and the node for the
rest is taken from `next`, which returns `&set->first[65]`, beyond the end of the
64-node array; the range `[10, 255]` is stored there. -/
theorem charclass_negate_writes_beyond_array :
    runOps 4 (buildSet []) cycleOps = .ok grownSet ∧
    grownSet.2 = { first := 0, next_item := 64, max_item := 96, mode := encoding.ASCII } ∧
    grownSet.1.size 0 = 64 ∧
    charclass.ranges 4 grownSet.1 grownSet.2 = [(5, 9)] ∧
    WellFormed [(5, 9)] ∧
    (charclass_negate 4 grownSet.1 grownSet.2 false 256).map
        (fun r => (r.2, chain_addrs 4 r.1 (some (r.2.first, 0)), r.1.size 0,
          charclass.ranges 4 r.1 r.2)) =
      .ok ({ first := 0, next_item := 65, max_item := 96, mode := encoding.ASCII },
        [(0, 0), (0, 65)], 64, [(0, 4), (10, 255)]) := by
  refine ⟨rfl, by decide, by decide, by decide, by unfold WellFormed; decide, rfl⟩

set_option maxRecDepth 100000 in
/-- C11 (defect): union membership fails on well-formed sets in two ways.  First, when
the union needs a second new node after the storage of A has grown: A holds the 63
ranges `[0,0], [3,3], ..., [186,186]` in its full 64-node array and B holds
`[1000,1000]` and `[2000,2000]`, both fresh from `charclass_init` and `charclass_add`.
Adding `[1000,1000]` makes `next` grow the storage without moving the set to the new
array, and adding `[2000,2000]` then takes the node `set->first[65]`, beyond the end of
the 64-node array.  Second, `charclass_add` computes `item->end + 1` as an `int`: for
A = {[10, INT_MAX]} and B = {[5, 20]} the range of B is appended after
`[10, INT_MAX]`, and `charclass_contains` of the union returns false for 7, which B
contained. -/
theorem charclass_set_union_leaves_array_and_wraps :
    (WellFormed (spacedRanges 63) ∧ WellFormed [(1000, 1000), (2000, 2000)] ∧
      (buildTwo false (spacedRanges 63) [(1000, 1000), (2000, 2000)]).2.1 =
        { first := 0, next_item := 63, max_item := 64, mode := encoding.ASCII } ∧
      (buildTwo false (spacedRanges 63) [(1000, 1000), (2000, 2000)]).2.2 =
        { first := 1, next_item := 2, max_item := 64, mode := encoding.ASCII } ∧
      (buildTwo false (spacedRanges 63) [(1000, 1000), (2000, 2000)]).1.size 0 = 64 ∧
      charclass.ranges 70 (buildTwo false (spacedRanges 63) [(1000, 1000), (2000, 2000)]).1
          (buildTwo false (spacedRanges 63) [(1000, 1000), (2000, 2000)]).2.1 =
        spacedRanges 63 ∧
      charclass.ranges 70 (buildTwo false (spacedRanges 63) [(1000, 1000), (2000, 2000)]).1
          (buildTwo false (spacedRanges 63) [(1000, 1000), (2000, 2000)]).2.2 =
        [(1000, 1000), (2000, 2000)] ∧
      (charclass_set_union 70 (buildTwo false (spacedRanges 63) [(1000, 1000), (2000, 2000)]).1
          (buildTwo false (spacedRanges 63) [(1000, 1000), (2000, 2000)]).2.1
          (buildTwo false (spacedRanges 63) [(1000, 1000), (2000, 2000)]).2.2).map
          (fun r => (r.2, r.1.size 0,
            (chain_addrs 70 r.1 (some (r.2.first, 0))).filter
              (fun a => decide (r.1.size a.1 ≤ a.2)))) =
        .ok ({ first := 0, next_item := 65, max_item := 96, mode := encoding.ASCII }, 64,
          [(0, 65)])) ∧
    (WellFormed [(10, INT_MAX)] ∧ WellFormed [(5, 20)] ∧
      charclass.ranges 5 (buildTwo false [(10, INT_MAX)] [(5, 20)]).1
          (buildTwo false [(10, INT_MAX)] [(5, 20)]).2.1 = [(10, INT_MAX)] ∧
      charclass.ranges 5 (buildTwo false [(10, INT_MAX)] [(5, 20)]).1
          (buildTwo false [(10, INT_MAX)] [(5, 20)]).2.2 = [(5, 20)] ∧
      charclass_contains 5 (buildTwo false [(10, INT_MAX)] [(5, 20)]).1
          (buildTwo false [(10, INT_MAX)] [(5, 20)]).2.1 7 = .ok false ∧
      charclass_contains 5 (buildTwo false [(10, INT_MAX)] [(5, 20)]).1
          (buildTwo false [(10, INT_MAX)] [(5, 20)]).2.2 7 = .ok true ∧
      (charclass_set_union 5 (buildTwo false [(10, INT_MAX)] [(5, 20)]).1
          (buildTwo false [(10, INT_MAX)] [(5, 20)]).2.1
          (buildTwo false [(10, INT_MAX)] [(5, 20)]).2.2).map
          (fun r => (r.2, charclass.ranges 5 r.1 r.2, charclass_contains 5 r.1 r.2 7)) =
        .ok ({ first := 0, next_item := 2, max_item := 64, mode := encoding.ASCII },
          [(10, INT_MAX), (5, 20)], .ok false)) := by
  refine ⟨⟨by unfold WellFormed; decide, by unfold WellFormed; decide, by decide, by decide,
      by decide, by decide, by decide, rfl⟩,
    by unfold WellFormed; decide, by unfold WellFormed; decide, by decide, by decide,
    by decide, by decide, rfl⟩

set_option maxRecDepth 100000 in
/-- C12 (defect): difference membership fails when the difference has to split two
ranges of a set whose array is full.  A holds the 63 ranges
`[0,5], [10,15], ..., [620,625]` in its full 64-node array and B holds `[1,2]` and
`[11,12]`, both fresh from `charclass_init` and `charclass_add`.  Removing `[1,2]`
splits `[0,5]`; `next` grows the storage without moving the set to the new array.
Removing `[11,12]` then splits `[10,15]` with the node `set->first[65]`, beyond the end
of the 64-node array, into which the range `[13,15]` is stored. -/
theorem charclass_set_diff_writes_beyond_array :
    WellFormed (wideRanges 63) ∧ WellFormed [(1, 2), (11, 12)] ∧
    (buildTwo false (wideRanges 63) [(1, 2), (11, 12)]).2.1 =
      { first := 0, next_item := 63, max_item := 64, mode := encoding.ASCII } ∧
    (buildTwo false (wideRanges 63) [(1, 2), (11, 12)]).2.2 =
      { first := 1, next_item := 2, max_item := 64, mode := encoding.ASCII } ∧
    (buildTwo false (wideRanges 63) [(1, 2), (11, 12)]).1.size 0 = 64 ∧
    charclass.ranges 70 (buildTwo false (wideRanges 63) [(1, 2), (11, 12)]).1
        (buildTwo false (wideRanges 63) [(1, 2), (11, 12)]).2.1 = wideRanges 63 ∧
    charclass.ranges 70 (buildTwo false (wideRanges 63) [(1, 2), (11, 12)]).1
        (buildTwo false (wideRanges 63) [(1, 2), (11, 12)]).2.2 = [(1, 2), (11, 12)] ∧
    (charclass_set_diff 70 (buildTwo false (wideRanges 63) [(1, 2), (11, 12)]).1
        (buildTwo false (wideRanges 63) [(1, 2), (11, 12)]).2.1
        (buildTwo false (wideRanges 63) [(1, 2), (11, 12)]).2.2).map
        (fun r => (r.2, r.1.size 0,
          (chain_addrs 70 r.1 (some (0, 0))).take 5,
          (chain_addrs 70 r.1 (some (0, 0))).filter (fun a => decide (r.1.size a.1 ≤ a.2)),
          (chain_ranges 70 r.1 (some (0, 0))).take 5)) =
      .ok (some { first := 0, next_item := 65, max_item := 96, mode := encoding.ASCII }, 64,
        [(0, 0), (2, 63), (0, 2), (0, 65), (0, 3)], [(0, 65)],
        [(0, 0), (3, 5), (10, 10), (13, 15), (20, 25)]) := by
  refine ⟨by unfold WellFormed; decide, by unfold WellFormed; decide, by decide, by decide,
    by decide, by decide, by decide, rfl⟩

/-! ## Which queries return on a non-empty set -/

theorem bytes_negative (e : Int) (h : e < 0) :
    mkutf8rangecont_bytes e false = .error Fault.fatal := by
  unfold mkutf8rangecont_bytes
  simp only [Bool.not_false, true_and, Bool.false_eq_true, false_and, or_false]
  rw [if_neg (by omega), if_neg (by omega), if_neg (by omega), if_neg (by omega),
    if_neg (by omega)]

theorem not_fatalRange_iff (s e : Int) : ¬ FatalRange (s, e) ↔ s ≤ e ∧ (s = e ∨ 0 ≤ e) := by
  unfold FatalRange
  simp only
  constructor
  · intro h
    constructor
    · by_contra hc
      exact h (Or.inl (by omega))
    · by_contra hc
      exact h (Or.inr (by omega))
  · rintro ⟨h1, h2⟩ (h3 | h3) <;> omega

/-- With fuel 5 or more, `mkutf8range` returns on every range that is not fatal. -/
theorem mkutf8range_returns_any (fuel : Nat) (st : Scanner) (start end_ : Int)
    (hok : ¬ FatalRange (start, end_)) :
    ∃ r, mkutf8range (fuel + 5) st start end_ = .ok r := by
  obtain ⟨hse, hor⟩ := (not_fatalRange_iff start end_).1 hok
  unfold mkutf8range
  rw [if_neg (by omega)]
  by_cases c1 : start = end_
  · rw [if_pos c1]
    exact ⟨_, rfl⟩
  rw [if_neg c1]
  by_cases c2 : end_ > UNICODE_MAX
  · rw [if_pos c2]
    exact ⟨_, rfl⟩
  rw [if_neg c2]
  have h1 : 0 ≤ end_ := by
    rcases hor with h | h
    · exact absurd h c1
    · exact h
  have hmin : ∀ c : Int, 0 ≤ c → 0 ≤ min end_ c := fun c hc => le_min h1 hc
  have step : ∀ (cnd : Prop) [Decidable cnd] (state : Frag) (st1 : Scanner) (s e : Int),
      0 ≤ e → ∃ v,
      (if cnd then
        match mkutf8rangecont (fuel + 5) st1 s e false with
        | Except.error e => Except.error e
        | Except.ok (nextstate, st) =>
          Except.ok (if state ≠ Frag.NIL then mkor state nextstate else nextstate, st)
      else Except.ok (state, st1)) = Except.ok v := by
    intro cnd _ state st1 s e a2
    by_cases c : cnd
    · rw [if_pos c]
      obtain ⟨r, hr⟩ := rangecont_returns_any fuel st1 s e a2
      rw [hr]
      exact ⟨_, rfl⟩
    · rw [if_neg c]
      exact ⟨_, rfl⟩
  simp only []
  have s1 : ∃ v, (if start < UTF8_ENDBYTE1 then
      mkutf8rangecont (fuel + 5) st start (min end_ UTF8_ENDBYTE1) false
      else Except.ok (Frag.NIL, st)) = Except.ok v := by
    by_cases c : start < UTF8_ENDBYTE1
    · rw [if_pos c]
      exact rangecont_returns_any fuel st start _ (hmin _ (by decide))
    · rw [if_neg c]
      exact ⟨_, rfl⟩
  obtain ⟨⟨f1, st1⟩, e1⟩ := s1
  rw [e1]
  simp only []
  obtain ⟨⟨f2, st2⟩, e2⟩ := step (start < UTF8_ENDBYTE2 ∧ end_ > UTF8_ENDBYTE1) f1 st1
    (max start (UTF8_ENDBYTE1 + 1)) (min end_ UTF8_ENDBYTE2) (hmin _ (by decide))
  rw [e2]
  simp only []
  obtain ⟨⟨f3, st3⟩, e3⟩ := step (start < UTF8_ENDBYTE3 ∧ end_ > UTF8_ENDBYTE2) f2 st2
    (max start (UTF8_ENDBYTE2 + 1)) (min end_ UTF8_ENDBYTE3) (hmin _ (by decide))
  rw [e3]
  simp only []
  exact step (end_ > UTF8_ENDBYTE3) f3 st3
    (max start (UTF8_ENDBYTE3 + 1)) (min end_ UTF8_ENDBYTE4) (hmin _ (by decide))

/-- On a fatal range `mkutf8range` stops with `flexfatal`. -/
theorem mkutf8range_fatal (fuel : Nat) (st : Scanner) (start end_ : Int)
    (hbad : FatalRange (start, end_)) :
    mkutf8range (fuel + 1) st start end_ = .error Fault.fatal := by
  unfold FatalRange at hbad
  simp only at hbad
  unfold mkutf8range
  rcases hbad with h | ⟨h1, h2⟩
  · rw [if_pos h]
  · have hmin : min end_ UTF8_ENDBYTE1 = end_ := by
      unfold UTF8_ENDBYTE1
      exact min_eq_left (by omega)
    have hr : mkutf8rangecont (fuel + 1) st start end_ false = .error Fault.fatal := by
      unfold mkutf8rangecont
      rw [bytes_negative end_ h2]
    rw [if_neg (by omega), if_neg (by omega), if_neg (by unfold UNICODE_MAX; omega)]
    simp only []
    rw [if_pos (by unfold UTF8_ENDBYTE1; omega), hmin, hr]

theorem mkrange_returns_any (fuel : Nat) (st : Scanner) (start end_ : Int) (mode : encoding)
    (hok : mode = encoding.ASCII ∨ ¬ FatalRange (start, end_)) :
    ∃ r, mkrange (fuel + 5) st start end_ mode = .ok r := by
  cases mode with
  | ASCII => exact ⟨_, rfl⟩
  | UTF8 =>
    rcases hok with h | h
    · exact absurd h (by decide)
    · exact mkutf8range_returns_any fuel st start end_ h

theorem mkstate_loop_returns_any (n : Nat) (maxlen ccl : Int) (mode : encoding) (h : Heap) :
    ∀ (ns : List Node) (p : Ptr) (fuel : Nat) (st : Scanner) (state : Frag),
    Seg h p none ns → ns.length < fuel →
    (maxlen = 1 ∨ mode = encoding.ASCII ∨ ∀ r ∈ ns.map Prod.snd, ¬ FatalRange r) →
    ∃ r, charclass_mkstate_loop (n + 5) maxlen ccl mode fuel h st state p = .ok r := by
  intro ns
  induction ns with
  | nil =>
    intro p fuel st state hs hf _
    have : p = none := hs
    subst this
    cases fuel with
    | zero => omega
    | succ f => exact ⟨_, rfl⟩
  | cons m ns ih =>
    intro p fuel st state hs hf hv
    obtain ⟨e1, e2, e3, e4⟩ := hs
    subst e1
    have hv' : maxlen = 1 ∨ mode = encoding.ASCII ∨ ∀ r ∈ ns.map Prod.snd, ¬ FatalRange r := by
      rcases hv with h | h | h
      · exact Or.inl h
      · exact Or.inr (Or.inl h)
      · exact Or.inr (Or.inr fun r hr =>
          h r (by simp only [List.map_cons, List.mem_cons]; exact Or.inr hr))
    cases fuel with
    | zero => omega
    | succ f =>
      unfold charclass_mkstate_loop
      simp only [e2, e3]
      by_cases c : maxlen = 1
      · rw [if_pos c]
        exact ih _ f _ _ e4 (by simpa using hf) hv'
      · rw [if_neg c]
        have hm : mode = encoding.ASCII ∨ ¬ FatalRange (m.2.1, m.2.2) := by
          rcases hv with h | h | h
          · exact absurd h c
          · exact Or.inl h
          · exact Or.inr (h m.2 (by simp))
        obtain ⟨⟨fr, st1⟩, hr⟩ := mkrange_returns_any n st m.2.1 m.2.2 mode hm
        rw [hr]
        exact ih _ f _ _ e4 (by simpa using hf) hv'

theorem mkstate_loop_fatal (n : Nat) (maxlen ccl : Int) (h : Heap) (hml : maxlen ≠ 1) :
    ∀ (ns : List Node) (p : Ptr) (fuel : Nat) (st : Scanner) (state : Frag),
    Seg h p none ns → ns.length < fuel → (∃ r ∈ ns.map Prod.snd, FatalRange r) →
    charclass_mkstate_loop (n + 5) maxlen ccl encoding.UTF8 fuel h st state p =
      .error Fault.fatal := by
  intro ns
  induction ns with
  | nil =>
    intro p fuel st state _ _ hbad
    obtain ⟨r, hr, _⟩ := hbad
    exact absurd hr (by simp)
  | cons m ns ih =>
    intro p fuel st state hs hf hbad
    obtain ⟨e1, e2, e3, e4⟩ := hs
    subst e1
    cases fuel with
    | zero => omega
    | succ f =>
      unfold charclass_mkstate_loop
      simp only [e2, e3]
      rw [if_neg hml]
      by_cases hm : FatalRange (m.2.1, m.2.2)
      · have hr : mkrange (n + 5) st m.2.1 m.2.2 encoding.UTF8 = .error Fault.fatal :=
          mkutf8range_fatal (n + 4) st m.2.1 m.2.2 hm
        rw [hr]
      · obtain ⟨⟨fr, st1⟩, hr⟩ :=
          mkrange_returns_any n st m.2.1 m.2.2 encoding.UTF8 (Or.inr hm)
        rw [hr]
        refine ih _ f _ _ e4 (by simpa using hf) ?_
        obtain ⟨r, hr, hb⟩ := hbad
        simp only [List.map_cons, List.mem_cons] at hr
        rcases hr with rfl | hr
        · exact absurd hb hm
        · exact ⟨r, hr, hb⟩

theorem chained_contains (fuel : Nat) (h : Heap) (set : charclass) (l : List (Int × Int))
    (x : Int) (hc : Chained h set l) (hf : l.length < fuel) :
    charclass_contains fuel h set x = .ok (containsL x l) := by
  obtain ⟨h0, ns, hr, hseg, _⟩ := hc
  unfold charclass_contains
  rw [if_neg h0, contains_loop_sim x h ns _ fuel hseg (by rw [← hr] at hf; simpa using hf), hr]

theorem chained_ne_nil {h : Heap} {set : charclass} {l : List (Int × Int)}
    (hc : Chained h set l) : l ≠ [] := by
  obtain ⟨_, ns, hr, hseg, _⟩ := hc
  intro e
  subst e
  have : ns = [] := by simpa using hr
  subst this
  exact absurd hseg (by simp [Seg])

theorem chained_maxlen (fuel : Nat) (h : Heap) (set : charclass) (l : List (Int × Int))
    (hne : l ≠ []) (hc : Chained h set l) (hf : l.length ≤ fuel) :
    charclass_maxlen fuel h set = .ok (codepointlen (l.getLast hne).2 set.mode) := by
  obtain ⟨h0, ns, hr, hseg, _⟩ := hc
  subst hr
  match ns, hne, hseg, hf with
  | n :: ns', hne, hseg, hf =>
    have en : n.1 = (set.first, 0) := (Option.some.inj hseg.1).symm
    rw [← en] at hseg
    obtain ⟨a, ha, he⟩ := maxlen_loop_sim h ns' n fuel hseg (by simpa using hf)
    unfold charclass_maxlen
    rw [if_neg h0, ← en, ha]
    simp only [he, List.getLast_map]

/-- `charclass_mkstate` on a non-empty set with a finite chain: it returns when
`charclass_maxlen` is 1 or no range is fatal, and stops with `flexfatal` otherwise. -/
theorem chained_mkstate (fuel : Nat) (h : Heap) (st : Scanner) (set : charclass)
    (l : List (Int × Int)) (m : Int) (hc : Chained h set l) (h5 : 5 ≤ fuel)
    (hf : l.length < fuel) (hm : charclass_maxlen fuel h set = .ok m) :
    ((m = 1 ∨ ∀ r ∈ l, ¬ FatalRange r) → ∃ r, charclass_mkstate fuel h st set = .ok r) ∧
    (m ≠ 1 → (∃ r ∈ l, FatalRange r) →
      charclass_mkstate fuel h st set = .error Fault.fatal) := by
  have hml := chained_maxlen fuel h set l (chained_ne_nil hc) hc (by omega)
  obtain ⟨h0, ns, hr, hseg, _⟩ := hc
  obtain ⟨n, rfl⟩ : ∃ n, fuel = n + 5 := ⟨fuel - 5, by omega⟩
  have hlen : ns.length < n + 5 := by rw [← hr] at hf; simpa using hf
  constructor
  · intro hok
    unfold charclass_mkstate
    rw [if_neg h0, hm]
    simp only []
    obtain ⟨⟨fr, st1⟩, hloop⟩ := mkstate_loop_returns_any n m
      (if m = 1 then cclinit st else (0, st)).1 set.mode h
      ns (some (set.first, 0)) (n + 5) (if m = 1 then cclinit st else (0, st)).2
      Frag.NIL hseg hlen (by
        rcases hok with h1 | h1
        · exact Or.inl h1
        · exact Or.inr (Or.inr (by rw [hr]; exact h1)))
    rw [hloop]
    exact ⟨_, rfl⟩
  · intro hm1 hbad
    have hmode : set.mode = encoding.UTF8 := by
      rw [hml] at hm
      cases hmd : set.mode with
      | ASCII =>
        rw [hmd] at hm
        exact absurd (Except.ok.inj hm).symm hm1
      | UTF8 => rfl
    unfold charclass_mkstate
    rw [if_neg h0, hm]
    simp only []
    rw [hmode, mkstate_loop_fatal n m _ h hm1 ns (some (set.first, 0)) (n + 5) _ Frag.NIL hseg
      hlen (by rw [hr]; exact hbad)]

/-- C19 (as amended): queries on an empty set are fatal, and which of them return on a
non-empty set.  On every empty set `charclass_contains` (for every codepoint x),
`charclass_minlen`, `charclass_maxlen` and `charclass_mkstate` fail fatally.  On every
non-empty set `charclass_minlen` returns a value.  On every non-empty set whose `next`
links from `set->first` reach NULL through nodes inside their arrays (`Chained`),
`charclass_contains` and `charclass_maxlen` return a value; `charclass_mkstate` returns
a value if `charclass_maxlen` is 1 and every range ends below the configured domain
size `csize`, at most 256 (the values that `ccladd` is given are then values of the
domain), or if `charclass_maxlen` is not 1 and no range has `start > end` or
`start < end < 0`; and `charclass_mkstate` fails fatally if `charclass_maxlen` is not 1
and some range has `start > end` or `start < end < 0`. -/
theorem queries_empty_fatal :
    (∀ (fuel : Nat) (h : Heap) (st : Scanner) (set : charclass) (x : Int),
      set.next_item = 0 →
      charclass_contains fuel h set x = .error Fault.fatal ∧
      charclass_minlen h set = .error Fault.fatal ∧
      charclass_maxlen fuel h set = .error Fault.fatal ∧
      charclass_mkstate fuel h st set = .error Fault.fatal) ∧
    (∀ (h : Heap) (set : charclass), set.next_item ≠ 0 →
      ∃ k, charclass_minlen h set = .ok k) ∧
    (∀ (fuel : Nat) (h : Heap) (set : charclass) (l : List (Int × Int)) (x : Int),
      Chained h set l → l.length < fuel →
      (∃ b, charclass_contains fuel h set x = .ok b) ∧
      (∃ k, charclass_maxlen fuel h set = .ok k)) ∧
    (∀ (fuel : Nat) (h : Heap) (st : Scanner) (set : charclass) (l : List (Int × Int))
      (m csize : Int), Chained h set l → 5 ≤ fuel → l.length < fuel → csize ≤ 256 →
      charclass_maxlen fuel h set = .ok m →
      (((m = 1 ∧ ∀ r ∈ l, r.2 < csize) ∨ (m ≠ 1 ∧ ∀ r ∈ l, ¬ FatalRange r)) →
        ∃ r, charclass_mkstate fuel h st set = .ok r) ∧
      (m ≠ 1 → (∃ r ∈ l, FatalRange r) →
        charclass_mkstate fuel h st set = .error Fault.fatal)) := by
  refine ⟨?_, ?_, ?_, ?_⟩
  · intro fuel h st set x h0
    refine ⟨?_, ?_, ?_, ?_⟩
    · unfold charclass_contains; rw [if_pos h0]
    · unfold charclass_minlen; rw [if_pos h0]
    · unfold charclass_maxlen; rw [if_pos h0]
    · unfold charclass_mkstate; rw [if_pos h0]
  · intro h set h0
    unfold charclass_minlen
    rw [if_neg h0]
    exact ⟨_, rfl⟩
  · intro fuel h set l x hc hf
    exact ⟨⟨_, chained_contains fuel h set l x hc hf⟩,
      ⟨_, chained_maxlen fuel h set l (chained_ne_nil hc) hc (by omega)⟩⟩
  · intro fuel h st set l m csize hc h5 hf _ hm
    obtain ⟨k1, k2⟩ := chained_mkstate fuel h st set l m hc h5 hf hm
    refine ⟨fun hok => k1 ?_, k2⟩
    rcases hok with ⟨h1, _⟩ | ⟨_, h2⟩
    · exact Or.inl h1
    · exact Or.inr h2

theorem queries_empty_fatal_witness :
    (charclass_contains 5 (buildSet []).1 (buildSet []).2 7 = .error Fault.fatal ∧
      charclass_minlen (buildSet []).1 (buildSet []).2 = .error Fault.fatal ∧
      charclass_maxlen 5 (buildSet []).1 (buildSet []).2 = .error Fault.fatal ∧
      charclass_mkstate 5 (buildSet []).1 Scanner.start (buildSet []).2 =
        .error Fault.fatal) ∧
    (∃ k, charclass_minlen (buildSetFrom Heap.blank true [(0x41, 0x5A), (0x3A9, 0x20AC)]).1
      (buildSetFrom Heap.blank true [(0x41, 0x5A), (0x3A9, 0x20AC)]).2 = .ok k) ∧
    ((∃ b, charclass_contains 5 (buildSetFrom Heap.blank true [(0x41, 0x5A), (0x3A9, 0x20AC)]).1
        (buildSetFrom Heap.blank true [(0x41, 0x5A), (0x3A9, 0x20AC)]).2 0x3B1 = .ok b) ∧
      (∃ k, charclass_maxlen 5 (buildSetFrom Heap.blank true [(0x41, 0x5A), (0x3A9, 0x20AC)]).1
        (buildSetFrom Heap.blank true [(0x41, 0x5A), (0x3A9, 0x20AC)]).2 = .ok k)) ∧
    (∃ r, charclass_mkstate 5 (buildSetFrom Heap.blank true [(0x41, 0x5A), (0x3A9, 0x20AC)]).1
        Scanner.start (buildSetFrom Heap.blank true [(0x41, 0x5A), (0x3A9, 0x20AC)]).2 =
      .ok r) ∧
    (∃ r, charclass_mkstate 5 (buildSetFrom Heap.blank true [(-5, 0x80)]).1
        Scanner.start (buildSetFrom Heap.blank true [(-5, 0x80)]).2 = .ok r) ∧
    (∃ r, charclass_mkstate 5 (buildSetFrom Heap.blank false [(-5, 0x80)]).1
        Scanner.start (buildSetFrom Heap.blank false [(-5, 0x80)]).2 = .ok r) ∧
    charclass_mkstate 5 (buildSetFrom Heap.blank true [(-5, -3)]).1 Scanner.start
      (buildSetFrom Heap.blank true [(-5, -3)]).2 = .error Fault.fatal :=
  have hc : Chained (buildSetFrom Heap.blank true [(0x41, 0x5A), (0x3A9, 0x20AC)]).1
      (buildSetFrom Heap.blank true [(0x41, 0x5A), (0x3A9, 0x20AC)]).2
      [(0x41, 0x5A), (0x3A9, 0x20AC)] :=
    ⟨by decide, [((0, 0), (0x41, 0x5A)), ((0, 2), (0x3A9, 0x20AC))], rfl,
      ⟨rfl, rfl, rfl, rfl, rfl, rfl, rfl⟩, by decide⟩
  have hc2 : Chained (buildSetFrom Heap.blank true [(-5, 0x80)]).1
      (buildSetFrom Heap.blank true [(-5, 0x80)]).2 [(-5, 0x80)] :=
    ⟨by decide, [((0, 0), (-5, 0x80))], rfl, ⟨rfl, rfl, rfl, rfl⟩, by decide⟩
  have hc4 : Chained (buildSetFrom Heap.blank false [(-5, 0x80)]).1
      (buildSetFrom Heap.blank false [(-5, 0x80)]).2 [(-5, 0x80)] :=
    ⟨by decide, [((0, 0), (-5, 0x80))], rfl, ⟨rfl, rfl, rfl, rfl⟩, by decide⟩
  have hc3 : Chained (buildSetFrom Heap.blank true [(-5, -3)]).1
      (buildSetFrom Heap.blank true [(-5, -3)]).2 [(-5, -3)] :=
    ⟨by decide, [((0, 0), (-5, -3))], rfl, ⟨rfl, rfl, rfl, rfl⟩, by decide⟩
  ⟨queries_empty_fatal.1 5 _ Scanner.start _ 7 rfl,
    queries_empty_fatal.2.1 _ _ (by decide),
    queries_empty_fatal.2.2.1 5 _ _ _ 0x3B1 hc (by decide),
    (queries_empty_fatal.2.2.2 5 _ Scanner.start _ _ 3 256 hc (by decide) (by decide)
      (by decide) (by decide)).1 (Or.inr ⟨by decide, by unfold FatalRange; decide⟩),
    (queries_empty_fatal.2.2.2 5 _ Scanner.start _ _ 2 256 hc2 (by decide) (by decide)
      (by decide) (by decide)).1 (Or.inr ⟨by decide, by unfold FatalRange; decide⟩),
    (queries_empty_fatal.2.2.2 5 _ Scanner.start _ _ 1 256 hc4 (by decide) (by decide)
      (by decide) (by decide)).1 (Or.inl ⟨rfl, by decide⟩),
    (queries_empty_fatal.2.2.2 5 _ Scanner.start _ _ 0 256 hc3 (by decide) (by decide)
      (by decide) (by decide)).2 (by decide) ⟨(-5, -3), by simp, by unfold FatalRange; decide⟩⟩

/-- C19 (counterexample): non-empty sets on which queries do not return a value.  The
UTF-8-mode set built by `charclass_init` and `charclass_add(set, -5, -3)` is non-empty
and stores the single range `[-5, -3]`; its `charclass_maxlen` is 0, so
`charclass_mkstate` compiles the range with `mkrange(-5, -3, UTF8)`, and
`mkutf8rangecont` stops with `flexfatal` on the negative end.  And in a memory that is
not zeroed, the set made by `charclass_init` and negated once is non-empty, but
`charclass_negate` never wrote `first->next`, which here points back to the first
node: `charclass_contains(set, 300)` and `charclass_maxlen` follow the chain without
end (the fuel runs out, however much there is). -/
theorem charclass_mkstate_fatal_on_nonempty :
    ((buildSetFrom Heap.blank true [(-5, -3)]).2.next_item = 1 ∧
      charclass.ranges 5 (buildSetFrom Heap.blank true [(-5, -3)]).1
        (buildSetFrom Heap.blank true [(-5, -3)]).2 = [(-5, -3)] ∧
      charclass_maxlen 5 (buildSetFrom Heap.blank true [(-5, -3)]).1
        (buildSetFrom Heap.blank true [(-5, -3)]).2 = .ok 0 ∧
      charclass_mkstate 5 (buildSetFrom Heap.blank true [(-5, -3)]).1 Scanner.start
        (buildSetFrom Heap.blank true [(-5, -3)]).2 = .error Fault.fatal) ∧
    (charclass_negate 2 (charclass_init selfLoopHeap false).2
        (charclass_init selfLoopHeap false).1 false 256 = .ok loopSet ∧
      loopSet.2 = { first := 0, next_item := 1, max_item := 64, mode := encoding.ASCII } ∧
      loopSet.1.get (0, 0) = { next := some (0, 0), start := 1, end_ := 255 } ∧
      (∀ fuel, charclass_contains fuel loopSet.1 loopSet.2 300 = .error Fault.fuel) ∧
      (∀ fuel, charclass_maxlen fuel loopSet.1 loopSet.2 = .error Fault.fuel)) := by
  have hs : loopSet.2 =
      { first := 0, next_item := 1, max_item := 64, mode := encoding.ASCII } := by decide
  have hn : loopSet.1.get (0, 0) = { next := some (0, 0), start := 1, end_ := 255 } := by
    decide
  have k1 : ∀ fuel, charclass_contains_loop fuel loopSet.1 (some (0, 0)) 300 =
      .error Fault.fuel := by
    intro fuel
    induction fuel with
    | zero => rfl
    | succ f ih =>
      unfold charclass_contains_loop
      simp only [hn]
      rw [if_neg (by omega), if_neg (by omega)]
      exact ih
  have k2 : ∀ fuel, charclass_maxlen_loop fuel loopSet.1 (0, 0) = .error Fault.fuel := by
    intro fuel
    induction fuel with
    | zero => rfl
    | succ f ih =>
      unfold charclass_maxlen_loop
      simp only [hn]
      exact ih
  refine ⟨⟨by decide, by decide, by decide, rfl⟩, rfl, hs, hn, ?_, ?_⟩
  · intro fuel
    unfold charclass_contains
    rw [hs]
    simp only [Nat.succ_ne_zero, if_false, one_ne_zero]
    exact k1 fuel
  · intro fuel
    unfold charclass_maxlen
    rw [hs]
    simp only [Nat.succ_ne_zero, if_false, one_ne_zero]
    rw [k2 fuel]

end Flex
